import Mathlib

/-!
# structpack: a shallow embedding of `structpack.c`

The C file is a format-string driven binary codec (`pack`/`unpack` and their
`va_list` forms `vpack`/`vunpack`).  This development embeds the code in Lean
and proves properties of the embedding.

Modelling conventions

* Platform: LP64, little-endian, 8-bit bytes, plain `char` signed.  So
  `sizeof(short) = 2`, `sizeof(int) = 4`, `sizeof(long) = sizeof(long long) =
  sizeof(size_t) = sizeof(ssize_t) = sizeof(void*) = 8`, and `size_t`
  arithmetic is arithmetic modulo `2^64`.
* Memory is a flat byte array `Nat → Nat`, addresses being natural numbers
  (a cell is read modulo 256 when it is decoded as part of an integer);
  address `0` is `NULL`.  Dereferencing `NULL` is a fault; every other
  address is readable and writable.
* `ssize_t` values (`state.ret`, the primitive's return value) are unbounded
  integers: signed overflow, which is undefined in C, is not modelled.  The
  cast `(size_t) ret` is reduction modulo `2^64`.
* The variadic argument list is a list of integer or pointer values;
  `va_arg` on an exhausted list or on a value of the other kind is a fault.
* The descriptor is the one descriptor of the call: `World.output` collects
  the bytes the `write` primitive accepted and `World.input` holds the bytes
  the `read` primitive still has to deliver.  `World.script` lists the results
  of the coming primitive calls (return value and whether `errno` is `EINTR`);
  when the script is exhausted the device answers by itself: `write` accepts
  all bytes, `read` delivers as many bytes as are left, up to the request.
* The allocator is an oracle: `World.alloc k nmemb size` is what the `k`-th
  call of `calloc` returns when asked for `nmemb` objects of `size` bytes.
* `World.trace` records every call of the read/write primitive and of
  `calloc`, in order.
* The automatic `size_t` objects whose address the interpreter hands to
  `rec_io` (`&arg0.size`, `&arg0.val`, `&s`) are modelled by `World.cell`
  and the pointer `Ptr.cell`.
-/

namespace Structpack

/-! ## Bytes and memory -/

/-- The null pointer. -/
def NULL : Nat := 0

/-- One more than `SIZE_MAX`: `size_t` is 64 bits wide. -/
def SIZE_MOD : Nat := 2 ^ 64

/-- Number of bytes of a `size_t`, `sizeof (size_t)`. -/
def SIZEOF_SIZE_T : Nat := 8

/-- The `n` little-endian bytes of `v`. -/
def leBytes : Nat → Nat → List Nat
  | 0, _ => []
  | n + 1, v => v % 256 :: leBytes n (v / 256)

/-- The number a little-endian byte string denotes. -/
def leVal : List Nat → Nat
  | [] => 0
  | b :: bs => b % 256 + 256 * leVal bs

/-- The `n` memory cells starting at address `a`. -/
def load (m : Nat → Nat) (a : Nat) (n : Nat) : List Nat :=
  (List.range n).map fun i => m (a + i)

/-- Memory after the cells starting at `a` have been overwritten with `bs`. -/
def store (m : Nat → Nat) (a : Nat) (bs : List Nat) : Nat → Nat :=
  fun x => if a ≤ x ∧ x < a + bs.length then bs.getD (x - a) 0 else m x

/-- Memory after `n` cells starting at `a` have been zeroed. -/
def zero_fill (m : Nat → Nat) (a : Nat) (n : Nat) : Nat → Nat :=
  fun x => if a ≤ x ∧ x < a + n then 0 else m x

/-! ## C types of the type table -/

/-- A C integer type, as far as the code depends on it: `sizeof` and
signedness. -/
structure ctype where
  size : Nat
  signed : Bool
deriving DecidableEq, Repr

def c_char : ctype := ⟨1, true⟩
def c_uchar : ctype := ⟨1, false⟩
def c_short : ctype := ⟨2, true⟩
def c_ushort : ctype := ⟨2, false⟩
def c_int : ctype := ⟨4, true⟩
def c_uint : ctype := ⟨4, false⟩
def c_long : ctype := ⟨8, true⟩
def c_ulong : ctype := ⟨8, false⟩
def c_llong : ctype := ⟨8, true⟩
def c_ullong : ctype := ⟨8, false⟩
def c_size_t : ctype := ⟨8, false⟩
def c_ssize_t : ctype := ⟨8, true⟩

/-- The value of type `ty` that the integer `v` converts to. -/
def ctype.conv (ty : ctype) (v : Int) : Int :=
  let m : Int := 2 ^ (8 * ty.size)
  if ty.signed then (v + m / 2) % m - m / 2 else v % m

/-- Conversion of a C integer value to `uintmax_t`. -/
def to_uintmax (v : Int) : Nat := (v % (2 ^ 64 : Int)).toNat

/-- The value of the object of type `ty` stored at address `p`: `*p`. -/
def ctype.read (ty : ctype) (m : Nat → Nat) (p : Nat) : Int :=
  ty.conv (leVal (load m p ty.size))

/-! ## The structures of the source -/

/-- The argument descriptor `struct arg`. -/
structure arg where
  size : Nat
  val : Nat
  ptr : Nat
  pptr : Nat
deriving DecidableEq, Repr

/-- The descriptor after `memset (&arg, 0, sizeof (struct arg))`. -/
def arg.zero : arg := ⟨0, 0, NULL, NULL⟩

/-- The transfer state `struct state`. -/
structure state where
  ret : Int
  err : Bool
deriving DecidableEq, Repr

/-- One variadic argument. -/
inductive varg
  | int (v : Int)
  | ptr (a : Nat)
deriving DecidableEq, Repr

/-- What makes a run leave the defined behaviour of C. -/
inductive fault
  | va_arg   -- `va_arg` without a matching argument
  | deref    -- a load or store through a null pointer
  | fmt      -- a read of the format string behind its terminator
  | strlen   -- `strlen` of a string without terminator
deriving DecidableEq, Repr

/-- Result of one call of the read/write primitive. -/
structure iores where
  ret : Int
  eintr : Bool
deriving DecidableEq, Repr

/-- An entry of the trace. -/
inductive event
  | io (size : Nat) (ret : Int) (eintr : Bool)
  | alloc (nmemb size : Nat) (res : Nat)
deriving DecidableEq, Repr

/-- A pointer handed to `rec_io`: into memory, or to the automatic `size_t`
object of the interpreter. -/
inductive Ptr
  | mem (a : Nat)
  | cell
deriving DecidableEq, Repr

/-- The test `ptr == NULL`. -/
def Ptr.isNull : Ptr → Bool
  | Ptr.mem a => a == NULL
  | Ptr.cell => false

/-- Everything outside the interpreter that a call reads or changes. -/
structure World where
  mem : Nat → Nat
  cell : Nat
  input : List Nat
  output : List Nat
  script : List iores
  alloc : Nat → Nat → Nat → Nat
  nalloc : Nat
  trace : List event
  stderr : List Char

/-- The bytes of the object `p` points to. -/
def World.loadp (w : World) : Ptr → Nat → List Nat
  | Ptr.mem a, n => load w.mem a n
  | Ptr.cell, n => (leBytes SIZEOF_SIZE_T w.cell).take n

/-- The world after `bs` has been stored where `p` points to. -/
def World.storep (w : World) : Ptr → List Nat → World
  | Ptr.mem a, bs => { w with mem := store w.mem a bs }
  | Ptr.cell, bs =>
    { w with cell := leVal ((bs ++ (leBytes SIZEOF_SIZE_T w.cell).drop bs.length).take
        SIZEOF_SIZE_T) }

/-! ## The primitives `read`, `write` and `calloc` (library code) -/

/-- The primitive passed to `rec_io` as `func`. -/
inductive iofunc
  | read
  | write
deriving DecidableEq, Repr

/-- What the next call of the primitive returns: the head of the script, or the
device's own answer. -/
def iofunc.answer (func : iofunc) (w : World) (size : Nat) : iores :=
  match w.script with
  | r :: _ => r
  | [] =>
    match func with
    | iofunc.write => ⟨size, false⟩
    | iofunc.read => ⟨min size w.input.length, false⟩

/-- Number of bytes a call that returns `ret` has moved. -/
def moved (ret : Int) (size : Nat) : Nat :=
  if 0 ≤ ret then min ret.toNat size else 0

/-- One call `func (fd, ptr, size)`: return value, whether `errno == EINTR`,
and the world after the call. -/
def iofunc.call (func : iofunc) (w : World) (p : Ptr) (size : Nat) : Int × Bool × World :=
  let r := func.answer w size
  let k := moved r.ret size
  let w1 := { w with script := w.script.tail, trace := w.trace ++ [event.io size r.ret r.eintr] }
  match func with
  | iofunc.write => (r.ret, r.eintr, { w1 with output := w1.output ++ w.loadp p k })
  | iofunc.read =>
    (r.ret, r.eintr, ({ w1 with input := w1.input.drop k }).storep p (w1.input.take k))

/-- One call `calloc (nmemb, size)`. -/
def calloc (w : World) (nmemb size : Nat) : Nat × World :=
  let p := w.alloc w.nalloc nmemb size
  (p, { w with
          mem := if p = NULL then w.mem else zero_fill w.mem p (nmemb * size)
          nalloc := w.nalloc + 1
          trace := w.trace ++ [event.alloc nmemb size p] })

/-- Search of the terminator for `strlen`, `n` bytes into the string. -/
def strlen_from (m : Nat → Nat) (p : Nat) : Nat → Nat → Except fault Nat
  | 0, _ => Except.error fault.strlen
  | fuel + 1, n => if m (p + n) % 256 = 0 then Except.ok n else strlen_from m p fuel (n + 1)

/-- The library function `strlen`; the string lies inside the address space. -/
def strlen (m : Nat → Nat) (p : Nat) : Except fault Nat :=
  if p = NULL then Except.error fault.deref else strlen_from m p (SIZE_MOD - 1) 0

/-! ## The argument binder -/

/-- The macro `pop_arg (arg, ap, type)`. -/
def pop_arg (ty : ctype) : List varg → Except fault (arg × List varg)
  | varg.int v :: ap =>
    Except.ok ({ size := ty.size, val := to_uintmax (ty.conv v), ptr := NULL, pptr := NULL }, ap)
  | _ => Except.error fault.va_arg

/-- The macro `pop_ptr (arg, ap, type)`. -/
def pop_ptr (m : Nat → Nat) (ty : ctype) : List varg → Except fault (arg × List varg)
  | varg.ptr p :: ap =>
    if p = NULL then Except.error fault.deref
    else Except.ok ({ size := ty.size, val := to_uintmax (ty.read m p), ptr := p, pptr := NULL },
      ap)
  | _ => Except.error fault.va_arg

/-- The macro `pop_arr (arg, ap, type)`. -/
def pop_arr (m : Nat → Nat) (ty : ctype) : List varg → Except fault (arg × List varg)
  | varg.ptr p :: ap =>
    if p = NULL then Except.error fault.deref
    else Except.ok ({ size := ty.size, val := 0, ptr := leVal (load m p 8), pptr := p }, ap)
  | _ => Except.error fault.va_arg

/-- The case labels of the source: a character of the type table, `=`, `*`, or
any other character. -/
inductive tcode
  | c | C | h | H | i | I | l | L | q | Q | z | Z | f | d | s | eq | star | other
deriving DecidableEq, Repr

/-- The case label a character selects. -/
def tcode.of (ch : Char) : tcode :=
  if ch = 'c' then tcode.c
  else if ch = 'C' then tcode.C
  else if ch = 'h' then tcode.h
  else if ch = 'H' then tcode.H
  else if ch = 'i' then tcode.i
  else if ch = 'I' then tcode.I
  else if ch = 'l' then tcode.l
  else if ch = 'L' then tcode.L
  else if ch = 'q' then tcode.q
  else if ch = 'Q' then tcode.Q
  else if ch = 'z' then tcode.z
  else if ch = 'Z' then tcode.Z
  else if ch = 'f' then tcode.f
  else if ch = 'd' then tcode.d
  else if ch = 's' then tcode.s
  else if ch = '=' then tcode.eq
  else if ch = '*' then tcode.star
  else tcode.other

/-- The function `arg_val`. -/
def arg_val (a : arg) (ap : List varg) (type : Char) : Except fault (arg × List varg) :=
  match tcode.of type with
  | tcode.c => pop_arg c_int ap
  | tcode.C => pop_arg c_int ap
  | tcode.h => pop_arg c_int ap
  | tcode.H => pop_arg c_int ap
  | tcode.i => pop_arg c_int ap
  | tcode.I => pop_arg c_uint ap
  | tcode.l => pop_arg c_long ap
  | tcode.L => pop_arg c_ulong ap
  | tcode.q => pop_arg c_llong ap
  | tcode.Q => pop_arg c_ullong ap
  | tcode.z => pop_arg c_size_t ap
  | tcode.Z => pop_arg c_ssize_t ap
  | _ => Except.ok (a, ap)

/-- The function `arg_ptr`. -/
def arg_ptr (m : Nat → Nat) (a : arg) (ap : List varg) (type : Char) :
    Except fault (arg × List varg) :=
  match tcode.of type with
  | tcode.c => pop_ptr m c_char ap
  | tcode.C => pop_ptr m c_uchar ap
  | tcode.h => pop_ptr m c_short ap
  | tcode.H => pop_ptr m c_ushort ap
  | tcode.i => pop_ptr m c_int ap
  | tcode.I => pop_ptr m c_uint ap
  | tcode.l => pop_ptr m c_long ap
  | tcode.L => pop_ptr m c_ulong ap
  | tcode.q => pop_ptr m c_llong ap
  | tcode.Q => pop_ptr m c_ullong ap
  | tcode.z => pop_ptr m c_size_t ap
  | tcode.Z => pop_ptr m c_ssize_t ap
  | _ => Except.ok (a, ap)

/-- The function `arg_arr`. -/
def arg_arr (m : Nat → Nat) (a : arg) (ap : List varg) (type : Char) :
    Except fault (arg × List varg) :=
  match tcode.of type with
  | tcode.c => pop_arr m c_char ap
  | tcode.C => pop_arr m c_uchar ap
  | tcode.h => pop_arr m c_short ap
  | tcode.H => pop_arr m c_ushort ap
  | tcode.i => pop_arr m c_int ap
  | tcode.I => pop_arr m c_uint ap
  | tcode.l => pop_arr m c_long ap
  | tcode.L => pop_arr m c_ulong ap
  | tcode.q => pop_arr m c_llong ap
  | tcode.Q => pop_arr m c_ullong ap
  | tcode.z => pop_arr m c_size_t ap
  | tcode.Z => pop_arr m c_ssize_t ap
  | tcode.s => pop_arr m c_char ap
  | _ => Except.ok (a, ap)

/-! ## Allocation and the I/O engine -/

/-- The function `sane_size`. -/
def sane_size (bytes : Nat) : Bool := bytes ≤ 1024 * 1024 * 16

/-- The function `rec_alloc`. -/
def rec_alloc (st : state) (a : arg) (w : World) (nmemb size : Nat) :
    Except fault (state × arg × World) :=
  if st.err ∨ (nmemb = 0 ∧ size = 0) then Except.ok (st, a, w)
  else
    let r := if sane_size (nmemb * size % SIZE_MOD) then calloc w nmemb size else (NULL, w)
    if a.pptr = NULL then Except.error fault.deref
    else
      let w2 := { r.2 with mem := store r.2.mem a.pptr (leBytes 8 r.1) }
      Except.ok (if r.1 = NULL then { st with err := true } else st, { a with ptr := r.1 }, w2)

/-- The retry loop of `rec_io`: call the primitive until it is not
interrupted.  The first argument bounds the number of interrupted calls. -/
def io_retry (func : iofunc) (p : Ptr) (size : Nat) : Nat → World → Int × World
  | 0, w => let c := func.call w p size; (c.1, c.2.2)
  | fuel + 1, w =>
    let c := func.call w p size
    if c.1 = -1 ∧ c.2.1 = true then io_retry func p size fuel c.2.2 else (c.1, c.2.2)

/-- The function `rec_io`.  Only a scripted call can be interrupted, so the
length of the script bounds the number of retries. -/
def rec_io (st : state) (func : iofunc) (w : World) (p : Ptr) (size : Nat) : state × World :=
  if st.err ∨ p.isNull ∨ size = 0 then (st, w)
  else
    let r := io_retry func p size w.script.length w
    if (r.1 % (2 ^ 64 : Int)).toNat = size then ({ ret := st.ret + r.1, err := false }, r.2)
    else ({ ret := r.1, err := true }, r.2)

/-- The function `rec_read`. -/
def rec_read (st : state) (w : World) (p : Ptr) (size : Nat) : state × World :=
  rec_io st iofunc.read w p size

/-- The function `rec_write`. -/
def rec_write (st : state) (w : World) (p : Ptr) (size : Nat) : state × World :=
  rec_io st iofunc.write w p size

/-! ## The directive interpreter -/

/-- What `vpack` and `vunpack` hand back: the returned `ssize_t`, and for the
statements below the transfer state on leaving the loop, whether the call left
through the `default` case, the world and the unconsumed arguments. -/
structure result where
  value : Int
  st : state
  unknown : Bool
  world : World
  ap : List varg

/-- The character `fmt[i]` of a string whose characters before the terminator
are `fmt`. -/
def fmt_at (fmt : List Char) (i : Nat) : Except fault Char :=
  if i < fmt.length then Except.ok (fmt.getD i (Char.ofNat 0))
  else if i = fmt.length then Except.ok (Char.ofNat 0)
  else Except.error fault.fmt

/-- The groups of case labels of the `switch` statements of `vpack` and
`vunpack`. -/
inductive group
  | scalar | string | array_val | array_ptr | default
deriving DecidableEq, Repr

/-- The group of a case label: the fourteen labels before `case 's'`, then
`'s'`, `'='`, `'*'` and `default`. -/
def tcode.group : tcode → group
  | tcode.s => group.string
  | tcode.eq => group.array_val
  | tcode.star => group.array_ptr
  | tcode.other => group.default
  | _ => group.scalar

/-- The statements after the loop: `if ((state.err) && (state.ret >= 0))
state.ret = -1; return state.ret;`. -/
def finish (st : state) (w : World) (ap : List varg) : result :=
  { value := if st.err ∧ 0 ≤ st.ret then -1 else st.ret, st := st, unknown := false,
    world := w, ap := ap }

/-- The `default` case: the diagnostic on `stderr`. -/
def diagnose (w : World) (c : Char) : World :=
  { w with stderr := w.stderr ++ "unkown format ".toList ++ [c] }

/-- The type of the two `switch` statements: directive character, the
characters after it, transfer state, world and arguments in; transfer state,
world, arguments and whether the `default` case was taken out. -/
abbrev switch_fn :=
  Char → List Char → state → World → List varg → Except fault (state × World × List varg × Bool)

/-- The loop `while (*fmt) { ... switch (*fmt) { ... } if (state.err) break;
fmt++; }` and the statements after it, which `vpack` and `vunpack` share word
for word; `sw` is the `switch` statement, the list holds the characters from
the cursor to the terminator.  The cases `'='` and `'*'` advance the cursor
by two more characters. -/
def directive_loop (sw : switch_fn) : List Char → state → World → List varg → Except fault result
  | [], st, w, ap => Except.ok (finish st w ap)
  | c :: rest, st, w, ap =>
    if c = Char.ofNat 0 then Except.ok (finish st w ap)
    else
      match sw c rest st w ap with
      | Except.error e => Except.error e
      | Except.ok (st1, w1, ap1, true) =>
        Except.ok { value := -1, st := st1, unknown := true, world := w1, ap := ap1 }
      | Except.ok (st1, w1, ap1, false) =>
        if st1.err then Except.ok (finish st1 w1 ap1)
        else if (tcode.of c).group = group.array_val ∨ (tcode.of c).group = group.array_ptr then
          match rest with
          | _ :: _ :: rest2 => directive_loop sw rest2 st1 w1 ap1
          | _ => Except.error fault.fmt
        else directive_loop sw rest st1 w1 ap1

/-- The `switch` statement of `vpack` on the directive `c`, the characters
after it being `rest`.  The last component tells whether the `default` case
was taken. -/
def vpack_switch (c : Char) (rest : List Char) (st : state) (w : World) (ap : List varg) :
    Except fault (state × World × List varg × Bool) :=
  match (tcode.of c).group with
  | group.scalar => do
    let (arg0, ap) ← arg_ptr w.mem arg.zero ap c
    let r := rec_write st w (Ptr.mem arg0.ptr) arg0.size
    pure (r.1, r.2, ap, false)
  | group.string => do
    let (arg0, ap) ← arg_arr w.mem arg.zero ap c
    let n ← strlen w.mem arg0.ptr
    let arg0 := { arg0 with size := (n + 1) % SIZE_MOD }
    let r1 := rec_write st { w with cell := arg0.size } Ptr.cell SIZEOF_SIZE_T
    let r2 := rec_write r1.1 r1.2 (Ptr.mem arg0.ptr) arg0.size
    pure (r2.1, r2.2, ap, false)
  | group.array_val => do
    let t ← fmt_at rest 0
    let (arg0, ap) ← arg_val arg.zero ap t
    let e ← fmt_at rest 1
    let (arg1, ap) ← arg_arr w.mem arg.zero ap e
    let r1 := rec_write st { w with cell := arg0.val } Ptr.cell SIZEOF_SIZE_T
    let r2 := rec_write r1.1 r1.2 (Ptr.mem arg1.ptr) (arg0.val * arg1.size % SIZE_MOD)
    pure (r2.1, r2.2, ap, false)
  | group.array_ptr => do
    let t ← fmt_at rest 0
    let (arg0, ap) ← arg_ptr w.mem arg.zero ap t
    let e ← fmt_at rest 1
    let (arg1, ap) ← arg_arr w.mem arg.zero ap e
    let r1 := rec_write st { w with cell := arg0.val } Ptr.cell SIZEOF_SIZE_T
    let r2 := rec_write r1.1 r1.2 (Ptr.mem arg1.ptr) (arg0.val * arg1.size % SIZE_MOD)
    pure (r2.1, r2.2, ap, false)
  | group.default => pure (st, diagnose w c, ap, true)

/-- The function `vpack`. -/
def vpack (w : World) (fmt : List Char) (ap : List varg) : Except fault result :=
  directive_loop vpack_switch fmt { ret := 0, err := false } w ap

/-- The statement `*(size_t *) arg0.ptr = s;`. -/
def store_count (w : World) (p : Nat) (s : Nat) : Except fault World :=
  if p = NULL then Except.error fault.deref
  else Except.ok { w with mem := store w.mem p (leBytes SIZEOF_SIZE_T s) }

/-- The `switch` statement of `vunpack`, as `vpack_switch`. -/
def vunpack_switch (c : Char) (rest : List Char) (st : state) (w : World) (ap : List varg) :
    Except fault (state × World × List varg × Bool) :=
  match (tcode.of c).group with
  | group.scalar => do
    let (arg0, ap) ← arg_ptr w.mem arg.zero ap c
    let r := rec_read st w (Ptr.mem arg0.ptr) arg0.size
    pure (r.1, r.2, ap, false)
  | group.string => do
    let (arg0, ap) ← arg_arr w.mem arg.zero ap c
    let r1 := rec_read st { w with cell := 0 } Ptr.cell SIZEOF_SIZE_T
    let s := r1.2.cell
    let (st2, arg0, w2) ← rec_alloc r1.1 arg0 r1.2 s 1
    let r3 := rec_read st2 w2 (Ptr.mem arg0.ptr) s
    pure (r3.1, r3.2, ap, false)
  | group.array_val => do
    let t ← fmt_at rest 0
    let (_, ap) ← arg_val arg.zero ap t
    let e ← fmt_at rest 1
    let (arg1, ap) ← arg_arr w.mem arg.zero ap e
    let r1 := rec_read st { w with cell := 0 } Ptr.cell SIZEOF_SIZE_T
    let s := r1.2.cell
    let (st2, arg1, w2) ← rec_alloc r1.1 arg1 r1.2 s arg1.size
    let r3 := rec_read st2 w2 (Ptr.mem arg1.ptr) (s * arg1.size % SIZE_MOD)
    pure (r3.1, r3.2, ap, false)
  | group.array_ptr => do
    let t ← fmt_at rest 0
    let (arg0, ap) ← arg_ptr w.mem arg.zero ap t
    let e ← fmt_at rest 1
    let (arg1, ap) ← arg_arr w.mem arg.zero ap e
    let r1 := rec_read st { w with cell := 0 } Ptr.cell SIZEOF_SIZE_T
    let s := r1.2.cell
    let (st2, arg1, w2) ← rec_alloc r1.1 arg1 r1.2 s arg1.size
    let r3 := rec_read st2 w2 (Ptr.mem arg1.ptr) (s * arg1.size % SIZE_MOD)
    let w4 ← store_count r3.2 arg0.ptr s
    pure (r3.1, w4, ap, false)
  | group.default => pure (st, diagnose w c, ap, true)

/-- The function `vunpack`. -/
def vunpack (w : World) (fmt : List Char) (ap : List varg) : Except fault result :=
  directive_loop vunpack_switch fmt { ret := 0, err := false } w ap

/-- A world with the given memory, input and allocator and nothing else: an
empty script, so a device that never fails. -/
def World.init (m : Nat → Nat) (inp : List Nat) (al : Nat → Nat → Nat → Nat) : World :=
  { mem := m, cell := 0, input := inp, output := [], script := [], alloc := al, nalloc := 0,
    trace := [], stderr := [] }

/-! ## The integer codes of the type table -/

/-- The integer type codes with the C type whose pointer `arg_ptr` pops for
the code (and whose array `arg_arr` binds). -/
def int_codes : List (Char × ctype) :=
  [('c', c_char), ('C', c_uchar), ('h', c_short), ('H', c_ushort), ('i', c_int), ('I', c_uint),
    ('l', c_long), ('L', c_ulong), ('q', c_llong), ('Q', c_ullong), ('z', c_size_t),
    ('Z', c_ssize_t)]

/-- The values of a C integer type. -/
def ctype.in_range (ty : ctype) (v : Int) : Prop :=
  if ty.signed then -(2 ^ (8 * ty.size - 1) : Int) ≤ v ∧ v < 2 ^ (8 * ty.size - 1)
  else 0 ≤ v ∧ v < 2 ^ (8 * ty.size)

instance ctype.in_range_decidable (ty : ctype) (v : Int) : Decidable (ty.in_range v) := by
  unfold ctype.in_range
  infer_instance

/-- The object representation of the value `v` of type `ty` on the platform:
little-endian two's complement. -/
def ctype.repr (ty : ctype) (v : Int) : List Nat := leBytes ty.size (to_uintmax v)

/-! ## Shapes of a directive -/

/-- The forms the effect of one `switch` statement on the transfer state and
the world can take: a single transfer of at most eight bytes; a transfer from
the automatic object followed by a transfer from memory; a transfer into the
automatic object, `rec_alloc` and a transfer into memory, possibly followed by
the store of the count; the `default` case. -/
inductive switch_shape (func : iofunc) (st : state) (w : World) : state → World → Prop
  | scalar (p : Nat) (size : Nat) (h : size ≤ 8) :
    switch_shape func st w (rec_io st func w (Ptr.mem p) size).1
      (rec_io st func w (Ptr.mem p) size).2
  | counted (v : Nat) (p : Nat) (size : Nat) (h : size < SIZE_MOD) :
    switch_shape func st w
      (rec_io (rec_io st func { w with cell := v } Ptr.cell SIZEOF_SIZE_T).1 func
        (rec_io st func { w with cell := v } Ptr.cell SIZEOF_SIZE_T).2 (Ptr.mem p) size).1
      (rec_io (rec_io st func { w with cell := v } Ptr.cell SIZEOF_SIZE_T).1 func
        (rec_io st func { w with cell := v } Ptr.cell SIZEOF_SIZE_T).2 (Ptr.mem p) size).2
  | alloc (a : arg) (n sz : Nat) (st2 : state) (a2 : arg) (w2 : World) (p : Nat) (size : Nat)
    (hsize : size < SIZE_MOD)
    (h : rec_alloc (rec_io st func { w with cell := 0 } Ptr.cell SIZEOF_SIZE_T).1 a
        (rec_io st func { w with cell := 0 } Ptr.cell SIZEOF_SIZE_T).2 n sz =
      Except.ok (st2, a2, w2)) :
    switch_shape func st w (rec_io st2 func w2 (Ptr.mem p) size).1
      (rec_io st2 func w2 (Ptr.mem p) size).2
  | alloc_count (a : arg) (n sz : Nat) (st2 : state) (a2 : arg) (w2 : World) (p : Nat)
    (size : Nat) (q : Nat) (s : Nat) (w4 : World) (hsize : size < SIZE_MOD)
    (h : rec_alloc (rec_io st func { w with cell := 0 } Ptr.cell SIZEOF_SIZE_T).1 a
        (rec_io st func { w with cell := 0 } Ptr.cell SIZEOF_SIZE_T).2 n sz =
      Except.ok (st2, a2, w2))
    (hq : store_count (rec_io st2 func w2 (Ptr.mem p) size).2 q s = Except.ok w4) :
    switch_shape func st w (rec_io st2 func w2 (Ptr.mem p) size).1 w4
  | unknown (c : Char) : switch_shape func st w st (diagnose w c)

/-! ## Predicates on traces and transfer states -/

/-- The primitive call an event records returned a value in the range
`-1 .. size`, as `read` and `write` do. -/
def event.in_range : event → Prop
  | event.io size ret _ => -1 ≤ ret ∧ ret ≤ (size : Int)
  | event.alloc _ _ _ => True

/-- The event makes the code latch the sticky error: a call of the primitive
that is not retried and whose return value, cast to `size_t`, differs from the
requested size, or a call of `calloc` that returns null. -/
def event.latches : event → Prop
  | event.io size ret eintr => ¬ (ret = -1 ∧ eintr = true) ∧ (ret % (2 ^ 64 : Int)).toNat ≠ size
  | event.alloc _ _ res => res = NULL

/-- Relative to the trace `t0` at the start of a call: of the events recorded
since, none but the last latches the error, and none at all while the latch
is clear. -/
def quiet_after (t0 : List event) (st : state) (w : World) : Prop :=
  ∃ new, w.trace = t0 ++ new ∧ (∀ e ∈ new.dropLast, ¬ e.latches) ∧
    (st.err = false → ∀ e ∈ new, ¬ e.latches)

/-- A `switch` statement looks at no more than the two characters after the
directive, and only in the cases `'='` and `'*'`. -/
def local_switch (sw : switch_fn) : Prop :=
  (∀ c t e r1 r2 st w ap, sw c (t :: e :: r1) st w ap = sw c (t :: e :: r2) st w ap) ∧
  (∀ c r1 r2 st w ap, (tcode.of c).group ≠ group.array_val →
    (tcode.of c).group ≠ group.array_ptr → sw c r1 st w ap = sw c r2 st w ap)

/-- The result of a call that failed at a refused allocation: `-1` with the
latch set, the arguments left being `ap`, the bytes left unread `tail` and
the memory `m`. -/
def refused (r : result) (ap : List varg) (tail : List Nat) (m : Nat → Nat) : Prop :=
  r.value = -1 ∧ r.st.err = true ∧ r.unknown = false ∧ r.ap = ap ∧ r.world.input = tail ∧
    r.world.mem = m

/-- The memory holds at `p` a NUL-terminated string of `n` bytes. -/
def is_cstring (m : Nat → Nat) (p : Nat) (n : Nat) : Prop :=
  (∀ i, i < n → m (p + i) % 256 ≠ 0) ∧ m (p + n) % 256 = 0

/-- The world after `vunpack` has processed a buffer directive whose request
was granted: count `cnt` of elements of `sz` bytes, slot `pp`, data `data`. -/
def unpacked (w : World) (cnt sz pp : Nat) (data tail : List Nat) : World :=
  { w with
    cell := cnt
    mem := store (store (zero_fill w.mem (w.alloc w.nalloc cnt sz) (cnt * sz)) pp
      (leBytes 8 (w.alloc w.nalloc cnt sz))) (w.alloc w.nalloc cnt sz) data
    input := tail
    nalloc := w.nalloc + 1
    trace := w.trace ++ [event.io 8 8 false, event.alloc cnt sz (w.alloc w.nalloc cnt sz),
      event.io (cnt * sz) (cnt * sz) false] }

instance is_cstring_decidable (m : Nat → Nat) (p n : Nat) : Decidable (is_cstring m p n) := by
  unfold is_cstring
  infer_instance

/-- A memory that holds at `8192` a string of 16777216 letters `A` and at
`4096` a pointer to it. -/
def long_string_mem : Nat → Nat :=
  store (fun a => if 8192 ≤ a ∧ a < 8192 + 16777216 then 65 else 0) 4096 (leBytes 8 8192)

/-- An allocator that grants every request that fits `size_t` with the block
at `36864`. -/
def granting : Nat → Nat → Nat → Nat :=
  fun _ nmemb size => if nmemb * size < SIZE_MOD then 36864 else NULL

/-- Whether a result of the primitive reports an interruption: `-1` with
`errno == EINTR`. -/
def iores.interrupted (r : iores) : Bool := decide (r.ret = -1) && r.eintr

/-- Whether a trace entry is an interrupted call of the primitive. -/
def event.interrupted : event → Bool
  | event.io _ ret eintr => decide (ret = -1) && eintr
  | event.alloc _ _ _ => false

/-- The world without its interruptions: the scripted results that report an
interruption are taken out of the script, the interrupted calls out of the
trace. -/
def World.settle (w : World) : World :=
  { w with script := w.script.filter fun r => !r.interrupted
           trace := w.trace.filter fun e => !e.interrupted }

/-- A result of `vpack` or `vunpack` with its world settled. -/
def result.settle (r : result) : result := { r with world := r.world.settle }

/-- The address `x` lies in one of the regions `(start, length)`. -/
def in_regions (rs : List (Nat × Nat)) (x : Nat) : Prop :=
  ∃ r ∈ rs, r.1 ≤ x ∧ x < r.1 + r.2

instance in_regions_decidable (rs : List (Nat × Nat)) (x : Nat) : Decidable (in_regions rs x) := by
  unfold in_regions
  infer_instance

/-- The blocks that the calls of `calloc` recorded in a trace handed out. -/
def blocks : List event → List (Nat × Nat)
  | [] => []
  | event.alloc nmemb size res :: evs =>
    if res = NULL then blocks evs else (res, nmemb * size) :: blocks evs
  | event.io _ _ _ :: evs => blocks evs

/-- The objects of the caller that the arguments of the directive `c` of
`vunpack` point to and that the directive is to fill: the scalar for a fixed
directive, the buffer-pointer slot for `s` and `=`, the count object (of the
type `T`) and the buffer-pointer slot for `*TE`. -/
def vunpack_slots (c : Char) (rest : List Char) (m : Nat → Nat) (ap : List varg) :
    List (Nat × Nat) :=
  match (tcode.of c).group with
  | group.scalar =>
    match arg_ptr m arg.zero ap c with
    | Except.ok (arg0, _) => [(arg0.ptr, arg0.size)]
    | Except.error _ => []
  | group.string =>
    match arg_arr m arg.zero ap c with
    | Except.ok (arg0, _) => [(arg0.pptr, 8)]
    | Except.error _ => []
  | group.array_val =>
    match (do
      let t ← fmt_at rest 0
      let (_, ap) ← arg_val arg.zero ap t
      let e ← fmt_at rest 1
      arg_arr m arg.zero ap e) with
    | Except.ok (arg1, _) => [(arg1.pptr, 8)]
    | Except.error _ => []
  | group.array_ptr =>
    match (do
      let t ← fmt_at rest 0
      let (arg0, ap) ← arg_ptr m arg.zero ap t
      let e ← fmt_at rest 1
      let (arg1, _) ← arg_arr m arg.zero ap e
      pure (arg0, arg1)) with
    | Except.ok (arg0, arg1) => [(arg0.ptr, arg0.size), (arg1.pptr, 8)]
    | Except.error _ => []
  | group.default => []

/-- The bytes behind the count object of `*TE` that the statement
`*(size_t *) arg0.ptr = s` of `vunpack` stores to as well: `8 - sizeof (T)`
bytes, none when `T` is as wide as `size_t`. -/
def vunpack_spill (c : Char) (rest : List Char) (m : Nat → Nat) (ap : List varg) :
    List (Nat × Nat) :=
  match (tcode.of c).group with
  | group.array_ptr =>
    match (do
      let t ← fmt_at rest 0
      arg_ptr m arg.zero ap t) with
    | Except.ok (arg0, _) => [(arg0.ptr + arg0.size, 8 - arg0.size)]
    | Except.error _ => []
  | _ => []

/-- A source that delivers an `int`, the count 2 and then one byte where two
are announced; the allocator hands out the block at `36864`. -/
def short_source : World :=
  World.init (fun _ => 0) [1, 2, 3, 4, 2, 0, 0, 0, 0, 0, 0, 0, 9] (fun _ _ _ => 36864)

/-- One directive of a format with the value it transfers, the objects of the
packing caller it is taken from and the objects of the unpacking caller it is
delivered to.  `scalar`: the object at `p` is packed, the object at `q`
receives; `string`: the slot at `pp` points to the string, the slot at `qq`
receives the buffer; `array_val` and `array_ptr`: the directives `=TE` and
`*TE`, the count being passed by value (`v` to `vunpack`) or held in the
count objects at `cp` and `cq`. -/
inductive item
  | scalar (X : Char) (ty : ctype) (bytes : List Nat) (p q : Nat)
  | string (body : List Nat) (pp qq : Nat)
  | array_val (T : Char) (tyT : ctype) (E : Char) (ty : ctype) (cnt : Nat) (bytes : List Nat)
    (pp qq : Nat) (v : Int)
  | array_ptr (T : Char) (tyT : ctype) (E : Char) (ty : ctype) (cnt : Nat) (bytes : List Nat)
    (cp pp cq qq : Nat)

/-- The directive of an item. -/
def item.fmt : item → List Char
  | item.scalar X _ _ _ _ => [X]
  | item.string _ _ _ => ['s']
  | item.array_val T _ E _ _ _ _ _ _ => ['=', T, E]
  | item.array_ptr T _ E _ _ _ _ _ _ _ => ['*', T, E]

/-- The bytes of an item on the wire. -/
def item.wire : item → List Nat
  | item.scalar _ _ bytes _ _ => bytes
  | item.string body _ _ => leBytes 8 (body.length + 1) ++ (body ++ [0])
  | item.array_val _ _ _ _ cnt bytes _ _ _ => leBytes 8 cnt ++ bytes
  | item.array_ptr _ _ _ _ cnt bytes _ _ _ _ => leBytes 8 cnt ++ bytes

/-- The arguments `vpack` takes for an item. -/
def item.pargs : item → List varg
  | item.scalar _ _ _ p _ => [varg.ptr p]
  | item.string _ pp _ => [varg.ptr pp]
  | item.array_val _ _ _ _ cnt _ pp _ _ => [varg.int cnt, varg.ptr pp]
  | item.array_ptr _ _ _ _ _ _ cp pp _ _ => [varg.ptr cp, varg.ptr pp]

/-- The arguments `vunpack` takes for an item. -/
def item.uargs : item → List varg
  | item.scalar _ _ _ _ q => [varg.ptr q]
  | item.string _ _ qq => [varg.ptr qq]
  | item.array_val _ _ _ _ _ _ _ qq v => [varg.int v, varg.ptr qq]
  | item.array_ptr _ _ _ _ _ _ _ _ cq qq => [varg.ptr cq, varg.ptr qq]

/-- The item is well-typed and within the limits of `vunpack`: integer type
codes, as many bytes as the type or the count asks for, a string body without
NUL, for a string or an array between 1 and 16777216 bytes, and for `*TE` a
count object as wide as `size_t`. -/
def item.ok : item → Prop
  | item.scalar X ty bytes _ _ => (X, ty) ∈ int_codes ∧ bytes.length = ty.size
  | item.string body _ _ => (∀ b ∈ body, b % 256 ≠ 0) ∧ body.length + 1 ≤ 16777216
  | item.array_val T tyT E ty cnt bytes _ _ _ =>
    (T, tyT) ∈ int_codes ∧ (E, ty) ∈ int_codes ∧ tyT.in_range cnt ∧
      bytes.length = cnt * ty.size ∧ 0 < cnt * ty.size ∧ cnt * ty.size ≤ 16777216
  | item.array_ptr T tyT E ty cnt bytes _ _ _ _ =>
    (T, tyT) ∈ int_codes ∧ (E, ty) ∈ int_codes ∧ tyT.in_range cnt ∧
      bytes.length = cnt * ty.size ∧ 0 < cnt * ty.size ∧ cnt * ty.size ≤ 16777216 ∧
      tyT.size = 8

/-- The memory of the packing caller holds the item. -/
def item.packed (m : Nat → Nat) : item → Prop
  | item.scalar _ ty bytes p _ => p ≠ NULL ∧ load m p ty.size = bytes
  | item.string body pp _ =>
    pp ≠ NULL ∧ leVal (load m pp 8) ≠ NULL ∧
      load m (leVal (load m pp 8)) (body.length + 1) = body ++ [0]
  | item.array_val _ _ _ ty cnt bytes pp _ _ =>
    pp ≠ NULL ∧ leVal (load m pp 8) ≠ NULL ∧
      load m (leVal (load m pp 8)) (cnt * ty.size) = bytes
  | item.array_ptr _ tyT _ ty cnt bytes cp pp _ _ =>
    cp ≠ NULL ∧ load m cp tyT.size = tyT.repr cnt ∧ pp ≠ NULL ∧ leVal (load m pp 8) ≠ NULL ∧
      load m (leVal (load m pp 8)) (cnt * ty.size) = bytes

/-- The request `(nmemb, size)` that `vunpack` makes to `calloc` for an item,
if it makes one. -/
def item.request : item → Option (Nat × Nat)
  | item.scalar _ _ _ _ _ => none
  | item.string body _ _ => some (body.length + 1, 1)
  | item.array_val _ _ _ ty cnt _ _ _ _ => some (cnt, ty.size)
  | item.array_ptr _ _ _ ty cnt _ _ _ _ _ => some (cnt, ty.size)

/-- The block `calloc` hands out for an item when `k` calls went before. -/
def item.block (al : Nat → Nat → Nat → Nat) (k : Nat) (it : item) : Nat :=
  match it.request with
  | some (nmemb, size) => al k nmemb size
  | none => NULL

/-- The number of calls of `calloc` after the item. -/
def item.next (k : Nat) (it : item) : Nat :=
  match it.request with
  | some _ => k + 1
  | none => k

/-- The receiving objects of an item and the block `vunpack` has handed out
for it, `b` being the address of the block. -/
def item.regions (b : Nat) : item → List (Nat × Nat)
  | item.scalar _ ty _ _ q => [(q, ty.size)]
  | item.string body _ qq => [(qq, 8), (b, body.length + 1)]
  | item.array_val _ _ _ ty cnt _ _ qq _ => [(qq, 8), (b, cnt * ty.size)]
  | item.array_ptr _ tyT _ ty cnt _ _ _ cq qq => [(cq, tyT.size), (qq, 8), (b, cnt * ty.size)]

/-- The receiving objects exist and the allocator grants the block `b`. -/
def item.granted (b : Nat) : item → Prop
  | item.scalar _ _ _ _ q => q ≠ NULL
  | item.string _ _ qq => qq ≠ NULL ∧ b ≠ NULL
  | item.array_val _ _ _ _ _ _ _ qq _ => qq ≠ NULL ∧ b ≠ NULL
  | item.array_ptr _ _ _ _ _ _ _ _ cq qq => cq ≠ NULL ∧ qq ≠ NULL ∧ b ≠ NULL

/-- The memory of the unpacking caller holds the item: the scalar object
holds the bytes; the slot holds the address of the block `b` and the block
the bytes (for a string with its terminator); the count object of `*TE`
holds the count. -/
def item.delivered (m : Nat → Nat) (b : Nat) : item → Prop
  | item.scalar _ ty bytes _ q => load m q ty.size = bytes
  | item.string body _ qq =>
    load m qq 8 = leBytes 8 b ∧ load m b (body.length + 1) = body ++ [0]
  | item.array_val _ _ _ ty cnt bytes _ qq _ =>
    load m qq 8 = leBytes 8 b ∧ load m b (cnt * ty.size) = bytes
  | item.array_ptr _ tyT _ ty cnt bytes _ _ cq qq =>
    load m cq tyT.size = tyT.repr cnt ∧ load m qq 8 = leBytes 8 b ∧
      load m b (cnt * ty.size) = bytes

/-- The format string of a list of items. -/
def format : List item → List Char
  | [] => []
  | it :: its => it.fmt ++ format its

/-- The byte stream of a list of items. -/
def wire : List item → List Nat
  | [] => []
  | it :: its => it.wire ++ wire its

/-- The argument list of `vpack` for a list of items. -/
def pargs : List item → List varg
  | [] => []
  | it :: its => it.pargs ++ pargs its

/-- The argument list of `vunpack` for a list of items. -/
def uargs : List item → List varg
  | [] => []
  | it :: its => it.uargs ++ uargs its

/-- All receiving objects and blocks of a list of items, with the allocator
`al` after `k` calls. -/
def regions (al : Nat → Nat → Nat → Nat) : Nat → List item → List (Nat × Nat)
  | _, [] => []
  | k, it :: its => it.regions (it.block al k) ++ regions al (it.next k) its

/-- All receiving objects exist and the allocator grants all requests. -/
def granted (al : Nat → Nat → Nat → Nat) : Nat → List item → Prop
  | _, [] => True
  | k, it :: its => it.granted (it.block al k) ∧ granted al (it.next k) its

/-- The memory of the unpacking caller holds all items. -/
def delivered (m : Nat → Nat) (al : Nat → Nat → Nat → Nat) : Nat → List item → Prop
  | _, [] => True
  | k, it :: its => it.delivered m (it.block al k) ∧ delivered m al (it.next k) its

/-- Two regions `(start, length)` do not overlap. -/
def apart (r s : Nat × Nat) : Prop := r.1 + r.2 ≤ s.1 ∨ s.1 + s.2 ≤ r.1

/-- Three items for the statements below: an `int`, the string `hi` and two
`short`s whose count is held in a `size_t` object. -/
def sample_items : List item :=
  [item.scalar 'i' c_int [1, 2, 3, 4] 4096 4096,
    item.string [104, 105] 4104 4112,
    item.array_ptr 'z' c_size_t 'h' c_short 2 [1, 0, 2, 0] 4120 4128 4136 4144]

/-- A memory of the packing caller that holds `sample_items`. -/
def sample_mem : Nat → Nat :=
  store (store (store (store (store (store (fun _ => 0) 4096 [1, 2, 3, 4]) 4104
    (leBytes 8 8192)) 8192 [104, 105, 0]) 4120 (leBytes 8 2)) 4128 (leBytes 8 8200)) 8200
    [1, 0, 2, 0]

/-- An allocator that hands out a new page with every call. -/
def paging : Nat → Nat → Nat → Nat :=
  fun k _ _ => 65536 + 4096 * k

/-- A memory that holds at `4096` a pointer to `8192`. -/
def pointer_mem : Nat → Nat :=
  store (fun _ => 0) 4096 (leBytes 8 8192)

instance event.in_range_decidable (e : event) : Decidable e.in_range := by
  cases e <;> unfold event.in_range <;> infer_instance

instance event.latches_decidable (e : event) : Decidable e.latches := by
  cases e <;> unfold event.latches <;> infer_instance

/-- The result of a run that is known to return; `d` stands in otherwise. -/
def returned (x : Except fault result) (d : result) : result :=
  match x with
  | Except.ok r => r
  | Except.error _ => d

/-- A result to stand in where none is needed. -/
def result.none : result :=
  { value := 0, st := { ret := 0, err := false }, unknown := false,
    world := World.init (fun _ => 0) [] (fun _ _ _ => 0), ap := [] }

/-! ## Bytes and memory: basic facts -/

theorem leBytes_length (n v : Nat) : (leBytes n v).length = n := by
  induction n generalizing v with
  | zero => rfl
  | succ k ih => simp [leBytes, ih]

theorem leVal_leBytes (n v : Nat) : leVal (leBytes n v) = v % 256 ^ n := by
  induction n generalizing v with
  | zero => simp [leBytes, leVal, Nat.mod_one]
  | succ k ih =>
    simp only [leBytes, leVal, ih, Nat.mod_mod]
    rw [pow_succ, Nat.mul_comm (256 ^ k) 256, Nat.mod_mul]

theorem leVal_leBytes_word (v : Nat) (h : v < SIZE_MOD) : leVal (leBytes 8 v) = v := by
  rw [leVal_leBytes]
  exact Nat.mod_eq_of_lt (by simpa [SIZE_MOD] using h)

theorem leVal_lt (bs : List Nat) : leVal bs < 256 ^ bs.length := by
  induction bs with
  | nil => simp [leVal]
  | cons b bs ih =>
    simp only [leVal, List.length_cons, pow_succ]
    have := Nat.mod_lt b (show 0 < 256 by norm_num)
    omega

theorem load_length (m : Nat → Nat) (a n : Nat) : (load m a n).length = n := by
  simp [load]

theorem load_getElem (m : Nat → Nat) (a n i : Nat) (h : i < (load m a n).length) :
    (load m a n)[i] = m (a + i) := by
  simp [load]

theorem load_congr (m1 m2 : Nat → Nat) (a n : Nat) (h : ∀ i, i < n → m1 (a + i) = m2 (a + i)) :
    load m1 a n = load m2 a n := by
  apply List.ext_getElem
  · simp [load_length]
  · intro i h1 _
    rw [load_getElem, load_getElem]
    exact h i (by simpa [load_length] using h1)

theorem store_inside (m : Nat → Nat) (a : Nat) (bs : List Nat) (i : Nat) (h : i < bs.length) :
    store m a bs (a + i) = bs[i] := by
  simp [store, h, List.getD_eq_getElem]

theorem store_outside (m : Nat → Nat) (a : Nat) (bs : List Nat) (x : Nat)
    (h : x < a ∨ a + bs.length ≤ x) : store m a bs x = m x := by
  have hn : ¬ (a ≤ x ∧ x < a + bs.length) := by omega
  simp only [store, hn, if_false]

theorem load_store_same (m : Nat → Nat) (a : Nat) (bs : List Nat) :
    load (store m a bs) a bs.length = bs := by
  apply List.ext_getElem
  · simp [load_length]
  · intro i h1 h2
    rw [load_getElem, store_inside m a bs i h2]

theorem load_store_disjoint (m : Nat → Nat) (a : Nat) (bs : List Nat) (b n : Nat)
    (h : b + n ≤ a ∨ a + bs.length ≤ b) : load (store m a bs) b n = load m b n := by
  apply load_congr
  intro i hi
  apply store_outside
  rcases h with h | h
  · left; omega
  · right; omega

theorem zero_fill_outside (m : Nat → Nat) (a n : Nat) (x : Nat) (h : x < a ∨ a + n ≤ x) :
    zero_fill m a n x = m x := by
  have hn : ¬ (a ≤ x ∧ x < a + n) := by omega
  simp only [zero_fill, hn, if_false]

/-! ## The I/O engine and the allocator: basic facts -/

theorem rec_io_latched (st : state) (func : iofunc) (w : World) (p : Ptr) (size : Nat)
    (h : st.err = true) : rec_io st func w p size = (st, w) := by
  simp [rec_io, h]

theorem rec_alloc_latched (st : state) (a : arg) (w : World) (nmemb size : Nat)
    (h : st.err = true) : rec_alloc st a w nmemb size = Except.ok (st, a, w) := by
  simp [rec_alloc, h]

theorem storep_trace (w : World) (p : Ptr) (bs : List Nat) : (w.storep p bs).trace = w.trace := by
  cases p <;> rfl

theorem call_trace (func : iofunc) (w : World) (p : Ptr) (size : Nat) :
    (func.call w p size).2.2.trace =
      w.trace ++ [event.io size (func.call w p size).1 (func.call w p size).2.1] := by
  cases func <;> simp [iofunc.call, storep_trace]

/-- The retry loop appends interrupted calls and then the call whose result it
returns. -/
theorem io_retry_trace (func : iofunc) (p : Ptr) (size : Nat) (n : Nat) (w : World) :
    ∃ evs e, (io_retry func p size n w).2.trace =
        w.trace ++ evs ++ [event.io size (io_retry func p size n w).1 e] ∧
      ∀ x ∈ evs, x = event.io size (-1) true := by
  induction n generalizing w with
  | zero => exact ⟨[], _, by simpa [io_retry] using call_trace func w p size, by simp⟩
  | succ k ih =>
    simp only [io_retry]
    split
    · rename_i hc
      obtain ⟨evs, e, h1, h2⟩ := ih (func.call w p size).2.2
      refine ⟨event.io size (-1) true :: evs, e, ?_, ?_⟩
      · rw [h1, call_trace, hc.1, hc.2]
        simp
      · intro x hx
        rcases List.mem_cons.1 hx with h | h
        · exact h
        · exact h2 x h
    · exact ⟨[], _, by simpa using call_trace func w p size, by simp⟩

/-- What `rec_io` does when no error is latched: nothing when the pointer is
null or the size zero, otherwise a run of interrupted calls followed by one
call whose return value decides. -/
theorem rec_io_cases (st : state) (func : iofunc) (w : World) (p : Ptr) (size : Nat)
    (h : st.err = false) :
    ((p.isNull = true ∨ size = 0) ∧ rec_io st func w p size = (st, w)) ∨
    (p.isNull = false ∧ size ≠ 0 ∧
      ∃ evs ret e w1, (∀ x ∈ evs, x = event.io size (-1) true) ∧
        w1.trace = w.trace ++ evs ++ [event.io size ret e] ∧
        rec_io st func w p size =
          (if (ret % (2 ^ 64 : Int)).toNat = size then { ret := st.ret + ret, err := false }
            else { ret := ret, err := true }, w1)) := by
  by_cases hn : p.isNull = true ∨ size = 0
  · left
    refine ⟨hn, ?_⟩
    simp only [rec_io, h]
    rw [if_pos]
    simpa using hn
  · right
    obtain ⟨evs, e, h1, h2⟩ := io_retry_trace func p size w.script.length w
    refine ⟨by simpa using (not_or.1 hn).1, (not_or.1 hn).2, evs,
      (io_retry func p size w.script.length w).1, e,
      (io_retry func p size w.script.length w).2, h2, h1, ?_⟩
    simp only [rec_io, h]
    rw [if_neg (by simpa using hn)]
    split <;> rfl

/-! ## The binder: basic facts -/

theorem pop_arg_ok (ty : ctype) (ap : List varg) (a : arg) (ap1 : List varg)
    (h : pop_arg ty ap = Except.ok (a, ap1)) :
    ∃ v, ap = varg.int v :: ap1 ∧
      a = { size := ty.size, val := to_uintmax (ty.conv v), ptr := NULL, pptr := NULL } := by
  cases ap with
  | nil => simp [pop_arg] at h
  | cons x xs =>
    cases x with
    | int v =>
      simp only [pop_arg, Except.ok.injEq, Prod.mk.injEq] at h
      exact ⟨v, by rw [h.2], h.1.symm⟩
    | ptr q => simp [pop_arg] at h

theorem pop_ptr_ok (m : Nat → Nat) (ty : ctype) (ap : List varg) (a : arg) (ap1 : List varg)
    (h : pop_ptr m ty ap = Except.ok (a, ap1)) :
    ∃ p, p ≠ NULL ∧ ap = varg.ptr p :: ap1 ∧
      a = { size := ty.size, val := to_uintmax (ty.read m p), ptr := p, pptr := NULL } := by
  cases ap with
  | nil => simp [pop_ptr] at h
  | cons x xs =>
    cases x with
    | int v => simp [pop_ptr] at h
    | ptr q =>
      simp only [pop_ptr] at h
      split_ifs at h with hq
      simp only [Except.ok.injEq, Prod.mk.injEq] at h
      exact ⟨q, hq, by rw [h.2], h.1.symm⟩

theorem pop_arr_ok (m : Nat → Nat) (ty : ctype) (ap : List varg) (a : arg) (ap1 : List varg)
    (h : pop_arr m ty ap = Except.ok (a, ap1)) :
    ∃ p, p ≠ NULL ∧ ap = varg.ptr p :: ap1 ∧
      a = { size := ty.size, val := 0, ptr := leVal (load m p 8), pptr := p } := by
  cases ap with
  | nil => simp [pop_arr] at h
  | cons x xs =>
    cases x with
    | int v => simp [pop_arr] at h
    | ptr q =>
      simp only [pop_arr] at h
      split_ifs at h with hq
      simp only [Except.ok.injEq, Prod.mk.injEq] at h
      exact ⟨q, hq, by rw [h.2], h.1.symm⟩

theorem arg_val_cases (a : arg) (ap : List varg) (c : Char) :
    (∃ ty, arg_val a ap c = pop_arg ty ap) ∨ arg_val a ap c = Except.ok (a, ap) := by
  unfold arg_val
  split <;> first | exact Or.inr rfl | exact Or.inl ⟨_, rfl⟩

theorem arg_ptr_cases (m : Nat → Nat) (a : arg) (ap : List varg) (c : Char) :
    (∃ ty, ty.size ≤ 8 ∧ 0 < ty.size ∧ arg_ptr m a ap c = pop_ptr m ty ap) ∨
      arg_ptr m a ap c = Except.ok (a, ap) := by
  unfold arg_ptr
  split <;> first | exact Or.inr rfl | exact Or.inl ⟨_, by decide, by decide, rfl⟩

theorem arg_arr_cases (m : Nat → Nat) (a : arg) (ap : List varg) (c : Char) :
    (∃ ty, ty.size ≤ 8 ∧ 0 < ty.size ∧ arg_arr m a ap c = pop_arr m ty ap) ∨
      arg_arr m a ap c = Except.ok (a, ap) := by
  unfold arg_arr
  split <;> first | exact Or.inr rfl | exact Or.inl ⟨_, by decide, by decide, rfl⟩

theorem arg_ptr_size (m : Nat → Nat) (ap : List varg) (c : Char) (a : arg) (ap1 : List varg)
    (h : arg_ptr m arg.zero ap c = Except.ok (a, ap1)) : a.size ≤ 8 := by
  rcases arg_ptr_cases m arg.zero ap c with ⟨ty, h1, -, h2⟩ | h2
  · rw [h2] at h
    obtain ⟨p, -, -, rfl⟩ := pop_ptr_ok _ _ _ _ _ h
    exact h1
  · rw [h2] at h
    simp only [Except.ok.injEq, Prod.mk.injEq] at h
    rw [← h.1]
    decide

theorem arg_arr_size (m : Nat → Nat) (ap : List varg) (c : Char) (a : arg) (ap1 : List varg)
    (h : arg_arr m arg.zero ap c = Except.ok (a, ap1)) : a.size ≤ 8 := by
  rcases arg_arr_cases m arg.zero ap c with ⟨ty, h1, -, h2⟩ | h2
  · rw [h2] at h
    obtain ⟨p, -, -, rfl⟩ := pop_arr_ok _ _ _ _ _ h
    exact h1
  · rw [h2] at h
    simp only [Except.ok.injEq, Prod.mk.injEq] at h
    rw [← h.1]
    decide

theorem bind_ok {ε α β : Type} (x : Except ε α) (f : α → Except ε β) (y : β)
    (h : (x >>= f) = Except.ok y) : ∃ a, x = Except.ok a ∧ f a = Except.ok y := by
  cases x with
  | error e => cases h
  | ok a => exact ⟨a, rfl, h⟩

theorem storep_cell_lt (w : World) (bs : List Nat) : (w.storep Ptr.cell bs).cell < SIZE_MOD := by
  simp only [World.storep]
  refine lt_of_lt_of_le (leVal_lt _) ?_
  have : ((bs ++ (leBytes SIZEOF_SIZE_T w.cell).drop bs.length).take SIZEOF_SIZE_T).length ≤ 8 := by
    simp [SIZEOF_SIZE_T]
  calc 256 ^ _ ≤ 256 ^ 8 := Nat.pow_le_pow_right (by norm_num) this
    _ = SIZE_MOD := by norm_num [SIZE_MOD]

theorem call_cell_lt (func : iofunc) (w : World) (size : Nat) (h : w.cell < SIZE_MOD) :
    (func.call w Ptr.cell size).2.2.cell < SIZE_MOD := by
  cases func
  · simp only [iofunc.call]
    exact storep_cell_lt _ _
  · simpa [iofunc.call] using h

theorem io_retry_cell_lt (func : iofunc) (size : Nat) (n : Nat) (w : World)
    (h : w.cell < SIZE_MOD) : (io_retry func Ptr.cell size n w).2.cell < SIZE_MOD := by
  induction n generalizing w with
  | zero => exact call_cell_lt func w size h
  | succ k ih =>
    simp only [io_retry]
    split
    · exact ih _ (call_cell_lt func w size h)
    · exact call_cell_lt func w size h

theorem rec_io_cell_lt (st : state) (func : iofunc) (w : World) (size : Nat)
    (h : w.cell < SIZE_MOD) : (rec_io st func w Ptr.cell size).2.cell < SIZE_MOD := by
  unfold rec_io
  split
  · exact h
  · dsimp only
    split <;> exact io_retry_cell_lt func size _ w h

theorem strlen_from_lt (m : Nat → Nat) (p : Nat) (fuel k n : Nat)
    (h : strlen_from m p fuel k = Except.ok n) : n < k + fuel := by
  induction fuel generalizing k with
  | zero => cases h
  | succ f ih =>
    simp only [strlen_from] at h
    split at h
    · cases h; omega
    · have := ih (k + 1) h
      omega

theorem strlen_lt (m : Nat → Nat) (p : Nat) (n : Nat) (h : strlen m p = Except.ok n) :
    n + 1 < SIZE_MOD := by
  unfold strlen at h
  split at h
  · cases h
  · have := strlen_from_lt m p _ 0 n h
    have : 0 < SIZE_MOD := by norm_num [SIZE_MOD]
    omega

theorem vpack_switch_shape (c : Char) (rest : List Char) (st : state) (w : World)
    (ap : List varg) (st1 : state) (w1 : World) (ap1 : List varg) (u : Bool)
    (h : vpack_switch c rest st w ap = Except.ok (st1, w1, ap1, u)) :
    switch_shape iofunc.write st w st1 w1 := by
  unfold vpack_switch at h
  split at h
  · obtain ⟨⟨a0, ap0⟩, h0, h⟩ := bind_ok _ _ _ h
    simp only [pure, Except.pure, Except.ok.injEq, Prod.mk.injEq] at h
    obtain ⟨rfl, rfl, -, -⟩ := h
    exact switch_shape.scalar _ _ (arg_ptr_size _ _ _ _ _ h0)
  · obtain ⟨⟨a0, ap0⟩, h0, h⟩ := bind_ok _ _ _ h
    obtain ⟨n, hn, h⟩ := bind_ok _ _ _ h
    simp only [pure, Except.pure, Except.ok.injEq, Prod.mk.injEq] at h
    obtain ⟨rfl, rfl, -, -⟩ := h
    exact switch_shape.counted _ _ _ (Nat.mod_lt _ (by norm_num [SIZE_MOD]))
  · obtain ⟨t, ht, h⟩ := bind_ok _ _ _ h
    obtain ⟨⟨a0, ap0⟩, h0, h⟩ := bind_ok _ _ _ h
    obtain ⟨e, he, h⟩ := bind_ok _ _ _ h
    obtain ⟨⟨a1, ap2⟩, h1, h⟩ := bind_ok _ _ _ h
    simp only [pure, Except.pure, Except.ok.injEq, Prod.mk.injEq] at h
    obtain ⟨rfl, rfl, -, -⟩ := h
    exact switch_shape.counted _ _ _ (Nat.mod_lt _ (by norm_num [SIZE_MOD]))
  · obtain ⟨t, ht, h⟩ := bind_ok _ _ _ h
    obtain ⟨⟨a0, ap0⟩, h0, h⟩ := bind_ok _ _ _ h
    obtain ⟨e, he, h⟩ := bind_ok _ _ _ h
    obtain ⟨⟨a1, ap2⟩, h1, h⟩ := bind_ok _ _ _ h
    simp only [pure, Except.pure, Except.ok.injEq, Prod.mk.injEq] at h
    obtain ⟨rfl, rfl, -, -⟩ := h
    exact switch_shape.counted _ _ _ (Nat.mod_lt _ (by norm_num [SIZE_MOD]))
  · simp only [pure, Except.pure, Except.ok.injEq, Prod.mk.injEq] at h
    obtain ⟨rfl, rfl, -, -⟩ := h
    exact switch_shape.unknown c

theorem vunpack_switch_shape (c : Char) (rest : List Char) (st : state) (w : World)
    (ap : List varg) (st1 : state) (w1 : World) (ap1 : List varg) (u : Bool)
    (h : vunpack_switch c rest st w ap = Except.ok (st1, w1, ap1, u)) :
    switch_shape iofunc.read st w st1 w1 := by
  unfold vunpack_switch at h
  split at h
  · obtain ⟨⟨a0, ap0⟩, h0, h⟩ := bind_ok _ _ _ h
    simp only [pure, Except.pure, Except.ok.injEq, Prod.mk.injEq] at h
    obtain ⟨rfl, rfl, -, -⟩ := h
    exact switch_shape.scalar _ _ (arg_ptr_size _ _ _ _ _ h0)
  · obtain ⟨⟨a0, ap0⟩, h0, h⟩ := bind_ok _ _ _ h
    obtain ⟨⟨st2, a2, w2⟩, h2, h⟩ := bind_ok _ _ _ h
    simp only [pure, Except.pure, Except.ok.injEq, Prod.mk.injEq] at h
    obtain ⟨rfl, rfl, -, -⟩ := h
    exact switch_shape.alloc a0 _ 1 st2 a2 w2 _ _
      (rec_io_cell_lt st iofunc.read { w with cell := 0 } SIZEOF_SIZE_T
        (by norm_num [SIZE_MOD])) h2
  · obtain ⟨t, ht, h⟩ := bind_ok _ _ _ h
    obtain ⟨⟨a0, ap0⟩, h0, h⟩ := bind_ok _ _ _ h
    obtain ⟨e, he, h⟩ := bind_ok _ _ _ h
    obtain ⟨⟨a1, ap2⟩, h1, h⟩ := bind_ok _ _ _ h
    obtain ⟨⟨st2, a2, w2⟩, h2, h⟩ := bind_ok _ _ _ h
    simp only [pure, Except.pure, Except.ok.injEq, Prod.mk.injEq] at h
    obtain ⟨rfl, rfl, -, -⟩ := h
    exact switch_shape.alloc a1 _ a1.size st2 a2 w2 _ _
      (Nat.mod_lt _ (by norm_num [SIZE_MOD])) h2
  · obtain ⟨t, ht, h⟩ := bind_ok _ _ _ h
    obtain ⟨⟨a0, ap0⟩, h0, h⟩ := bind_ok _ _ _ h
    obtain ⟨e, he, h⟩ := bind_ok _ _ _ h
    obtain ⟨⟨a1, ap2⟩, h1, h⟩ := bind_ok _ _ _ h
    obtain ⟨⟨st2, a2, w2⟩, h2, h⟩ := bind_ok _ _ _ h
    obtain ⟨w4, h4, h⟩ := bind_ok _ _ _ h
    simp only [pure, Except.pure, Except.ok.injEq, Prod.mk.injEq] at h
    obtain ⟨rfl, rfl, -, -⟩ := h
    exact switch_shape.alloc_count a1 _ a1.size st2 a2 w2 _ _ a0.ptr _ w4
      (Nat.mod_lt _ (by norm_num [SIZE_MOD])) h2 h4
  · simp only [pure, Except.pure, Except.ok.injEq, Prod.mk.injEq] at h
    obtain ⟨rfl, rfl, -, -⟩ := h
    exact switch_shape.unknown c

theorem directive_loop_inv (sw : switch_fn) (P : state → World → Prop)
    (hstep : ∀ c rest st w ap st1 w1 ap1 u, sw c rest st w ap = Except.ok (st1, w1, ap1, u) →
      st.err = false → P st w → P st1 w1)
    (fmt : List Char) (st : state) (w : World) (ap : List varg) (r : result)
    (h : directive_loop sw fmt st w ap = Except.ok r) (he : st.err = false) (hP : P st w) :
    P r.st r.world := by
  generalize hn : fmt.length = n
  induction n using Nat.strong_induction_on generalizing fmt st w ap with
  | _ n ih =>
    cases fmt with
    | nil =>
      simp only [directive_loop, Except.ok.injEq] at h
      subst h
      exact hP
    | cons c rest =>
      simp only [directive_loop] at h
      split at h
      · simp only [Except.ok.injEq] at h
        subst h
        exact hP
      · split at h
        · cases h
        · rename_i st1 w1 ap1 hsw
          simp only [Except.ok.injEq] at h
          subst h
          exact hstep _ _ _ _ _ _ _ _ _ hsw he hP
        · rename_i st1 w1 ap1 hsw
          have h1 := hstep _ _ _ _ _ _ _ _ _ hsw he hP
          split at h
          · simp only [Except.ok.injEq] at h
            subst h
            exact h1
          · rename_i he1
            split at h
            · split at h
              · rename_i c1 c2 rest2
                exact ih rest2.length (by simp at hn; omega) rest2 st1 w1 ap1 h
                  (by simpa using he1) h1 rfl
              · cases h
            · exact ih rest.length (by simp at hn; omega) rest st1 w1 ap1 h
                (by simpa using he1) h1 rfl

theorem directive_loop_value (sw : switch_fn) (fmt : List Char) (st : state) (w : World)
    (ap : List varg) (r : result) (h : directive_loop sw fmt st w ap = Except.ok r) :
    r.value = if r.unknown = true then -1 else if r.st.err ∧ 0 ≤ r.st.ret then -1 else r.st.ret := by
  generalize hn : fmt.length = n
  induction n using Nat.strong_induction_on generalizing fmt st w ap with
  | _ n ih =>
    cases fmt with
    | nil =>
      simp only [directive_loop, Except.ok.injEq] at h
      subst h
      simp [finish]
    | cons c rest =>
      simp only [directive_loop] at h
      split at h
      · simp only [Except.ok.injEq] at h
        subst h
        simp [finish]
      · split at h
        · cases h
        · simp only [Except.ok.injEq] at h
          subst h
          simp
        · rename_i st1 w1 ap1 hsw
          split at h
          · simp only [Except.ok.injEq] at h
            subst h
            simp [finish]
          · split at h
            · split at h
              · rename_i c1 c2 rest2
                exact ih rest2.length (by simp at hn; omega) rest2 _ _ _ h rfl
              · cases h
            · exact ih rest.length (by simp at hn; omega) rest _ _ _ h rfl

theorem calloc_trace (w : World) (nmemb size : Nat) :
    (calloc w nmemb size).2.trace = w.trace ++ [event.alloc nmemb size (calloc w nmemb size).1] := by
  simp [calloc]

/-- What `rec_alloc` does to the transfer state and the trace. -/
theorem rec_alloc_facts (st : state) (a : arg) (w : World) (nmemb size : Nat) (st2 : state)
    (a2 : arg) (w2 : World) (h : rec_alloc st a w nmemb size = Except.ok (st2, a2, w2)) :
    st2.ret = st.ret ∧ (st.err = true → st2.err = true) ∧
      (w2.trace = w.trace ∨
        ∃ p, w2.trace = w.trace ++ [event.alloc nmemb size p] ∧ (st2.err = false → p ≠ NULL)) := by
  unfold rec_alloc at h
  split at h
  · simp only [Except.ok.injEq, Prod.mk.injEq] at h
    obtain ⟨rfl, -, rfl⟩ := h
    exact ⟨rfl, fun hh => hh, Or.inl rfl⟩
  · dsimp only at h
    split at h
    · cases h
    · simp only [Except.ok.injEq, Prod.mk.injEq] at h
      obtain ⟨rfl, -, rfl⟩ := h
      have hret : ∀ q : Nat,
          (if q = NULL then ({ st with err := true } : state) else st).ret = st.ret := by
        intro q
        split <;> rfl
      have herr : ∀ q : Nat, st.err = true →
          (if q = NULL then ({ st with err := true } : state) else st).err = true := by
        intro q hh
        split
        · rfl
        · exact hh
      refine ⟨hret _, herr _, ?_⟩
      by_cases hsane : sane_size (nmemb * size % SIZE_MOD) = true
      · right
        refine ⟨(calloc w nmemb size).1, ?_, ?_⟩
        · simp only [hsane, if_true]
          exact calloc_trace w nmemb size
        · simp only [hsane, if_true]
          intro hh hp
          simp [hp] at hh
      · left
        simp only [hsane]
        rfl

theorem store_count_trace (w : World) (q : Nat) (s : Nat) (w4 : World)
    (h : store_count w q s = Except.ok w4) : w4.trace = w.trace := by
  unfold store_count at h
  split at h
  · cases h
  · simp only [Except.ok.injEq] at h
    subst h
    rfl

theorem quiet_of_trace (t0 : List event) (st : state) (w w1 : World) (h : w1.trace = w.trace)
    (hq : quiet_after t0 st w) : quiet_after t0 st w1 := by
  obtain ⟨new, h1, h2, h3⟩ := hq
  exact ⟨new, by rw [h, h1], h2, h3⟩

theorem mem_of_mem_dropLast {α : Type} (l : List α) (x : α) (h : x ∈ l.dropLast) : x ∈ l :=
  List.dropLast_subset l h

theorem rec_io_quiet (t0 : List event) (st : state) (func : iofunc) (w : World) (p : Ptr)
    (size : Nat) (hq : quiet_after t0 st w) :
    quiet_after t0 (rec_io st func w p size).1 (rec_io st func w p size).2 := by
  cases he : st.err with
  | true =>
    rw [rec_io_latched _ _ _ _ _ he]
    exact hq
  | false =>
    rcases rec_io_cases st func w p size he with ⟨-, h0⟩ | ⟨-, -, evs, ret, e, w1, h1, h2, h3⟩
    · rw [h0]
      exact hq
    · rw [h3]
      obtain ⟨new, hn1, -, hn3⟩ := hq
      have hclean : ∀ x ∈ new ++ evs, ¬ x.latches := by
        intro x hx
        rcases List.mem_append.1 hx with hx | hx
        · exact hn3 he x hx
        · rw [h1 x hx]
          simp [event.latches]
      refine ⟨new ++ evs ++ [event.io size ret e], by rw [h2, hn1]; simp, ?_, ?_⟩
      · rw [List.dropLast_concat]
        exact hclean
      · intro herr x hx
        rcases List.mem_append.1 hx with hx | hx
        · exact hclean x hx
        · simp only [List.mem_singleton] at hx
          subst hx
          split at herr
          · rename_i hc
            exact fun hl => hl.2 hc
          · simp at herr

theorem rec_alloc_quiet (t0 : List event) (st : state) (a : arg) (w : World) (nmemb size : Nat)
    (st2 : state) (a2 : arg) (w2 : World)
    (h : rec_alloc st a w nmemb size = Except.ok (st2, a2, w2)) (hq : quiet_after t0 st w) :
    quiet_after t0 st2 w2 := by
  cases he : st.err with
  | true =>
    rw [rec_alloc_latched _ _ _ _ _ he] at h
    simp only [Except.ok.injEq, Prod.mk.injEq] at h
    obtain ⟨rfl, -, rfl⟩ := h
    exact hq
  | false =>
    obtain ⟨h1, h2, h3⟩ := rec_alloc_facts st a w nmemb size st2 a2 w2 h
    obtain ⟨new, hn1, -, hn3⟩ := hq
    rcases h3 with h3 | ⟨p, h3, h4⟩
    · exact ⟨new, by rw [h3, hn1], fun x hx => hn3 he x (mem_of_mem_dropLast _ _ hx),
        fun _ => hn3 he⟩
    · refine ⟨new ++ [event.alloc nmemb size p], by rw [h3, hn1]; simp, ?_, ?_⟩
      · rw [List.dropLast_concat]
        exact hn3 he
      · intro herr x hx
        rcases List.mem_append.1 hx with hx | hx
        · exact hn3 he x hx
        · simp only [List.mem_singleton] at hx
          subst hx
          exact h4 herr

theorem shape_quiet (t0 : List event) (func : iofunc) (st : state) (w : World) (st1 : state)
    (w1 : World) (h : switch_shape func st w st1 w1) (hq : quiet_after t0 st w) :
    quiet_after t0 st1 w1 := by
  cases h with
  | scalar p size hs => exact rec_io_quiet t0 st func w _ size hq
  | counted v p size hs =>
    exact rec_io_quiet t0 _ func _ _ size
      (rec_io_quiet t0 st func _ _ _ (quiet_of_trace t0 st w _ rfl hq))
  | alloc a n sz st2 a2 w2 p size hsize h =>
    exact rec_io_quiet t0 _ func _ _ size
      (rec_alloc_quiet t0 _ _ _ _ _ _ _ _ h
        (rec_io_quiet t0 st func _ _ _ (quiet_of_trace t0 st w _ rfl hq)))
  | alloc_count a n sz st2 a2 w2 p size q s w4 hsize h hq2 =>
    exact quiet_of_trace t0 _ _ w1 (store_count_trace _ _ _ _ hq2)
      (rec_io_quiet t0 _ func _ (Ptr.mem p) size
        (rec_alloc_quiet t0 _ _ _ _ _ _ _ _ h
          (rec_io_quiet t0 st func _ _ _ (quiet_of_trace t0 st w _ rfl hq))))
  | unknown c => exact quiet_of_trace t0 st w _ rfl hq

theorem loop_quiet (sw : switch_fn) (func : iofunc)
    (hsw : ∀ c rest st w ap st1 w1 ap1 u, sw c rest st w ap = Except.ok (st1, w1, ap1, u) →
      switch_shape func st w st1 w1)
    (fmt : List Char) (w : World) (ap : List varg) (r : result)
    (h : directive_loop sw fmt { ret := 0, err := false } w ap = Except.ok r) :
    quiet_after w.trace r.st r.world :=
  directive_loop_inv sw (quiet_after w.trace)
    (fun c rest st w0 ap st1 w1 ap1 u h1 _ h3 =>
      shape_quiet w.trace func st w0 st1 w1 (hsw c rest st w0 ap st1 w1 ap1 u h1) h3)
    fmt _ w ap r h rfl ⟨[], by simp, by simp, by simp⟩

/-- Once the latch is set the loop is left right after the `switch`. -/
theorem loop_break (sw : switch_fn) (c : Char) (rest : List Char) (st0 : state) (w0 : World)
    (ap0 : List varg) (st : state) (w : World) (ap : List varg) (hc : c ≠ Char.ofNat 0)
    (hsw : sw c rest st0 w0 ap0 = Except.ok (st, w, ap, false)) (he : st.err = true) :
    directive_loop sw (c :: rest) st0 w0 ap0 = Except.ok (finish st w ap) := by
  simp only [directive_loop, hc, if_false, hsw, he, if_true]

theorem finish_latched (st : state) (w : World) (ap : List varg) (he : st.err = true) :
    (finish st w ap).value < 0 ∧ (-1 ≤ st.ret → (finish st w ap).value = -1) := by
  simp only [finish, he, true_and]
  split
  · simp
  · constructor
    · omega
    · intro h
      omega

/-- C4, sticky-error short-circuit: let `st` be a transfer state with the
error latch set.  Then `rec_io` returns without calling the primitive and
`rec_alloc` without calling the allocator or storing through the output slot
(both hand back the state and the world unchanged, so the latch stays set);
when a `switch` statement of `vpack` or `vunpack` leaves `st` behind, the loop
is left at once, whatever characters follow, and the call returns a negative
value, which is `-1` unless the primitive itself returned less than `-1`.
For whole calls: of the events a call of `vpack` or `vunpack` records, only
the last one can be one that latches the error, and a call that ends with the
latch set returns a negative value. -/
theorem sticky_error (st : state) (hlatched : st.err = true) :
    (∀ func w p size, rec_io st func w p size = (st, w)) ∧
    (∀ a w nmemb size, rec_alloc st a w nmemb size = Except.ok (st, a, w)) ∧
    (∀ c rest st0 w0 ap0 w ap, c ≠ Char.ofNat 0 →
      (vpack_switch c rest st0 w0 ap0 = Except.ok (st, w, ap, false) →
        directive_loop vpack_switch (c :: rest) st0 w0 ap0 = Except.ok (finish st w ap)) ∧
      (vunpack_switch c rest st0 w0 ap0 = Except.ok (st, w, ap, false) →
        directive_loop vunpack_switch (c :: rest) st0 w0 ap0 = Except.ok (finish st w ap))) ∧
    (∀ w ap, (finish st w ap).value < 0 ∧ (-1 ≤ st.ret → (finish st w ap).value = -1) ∧
      (finish st w ap).world = w ∧ (finish st w ap).ap = ap) ∧
    (∀ w0 fmt ap0 r, (vpack w0 fmt ap0 = Except.ok r ∨ vunpack w0 fmt ap0 = Except.ok r) →
      (∃ new, r.world.trace = w0.trace ++ new ∧ ∀ e ∈ new.dropLast, ¬ e.latches) ∧
      (r.st.err = true → r.value < 0)) := by
  refine ⟨fun func w p size => rec_io_latched st func w p size hlatched,
    fun a w nmemb size => rec_alloc_latched st a w nmemb size hlatched,
    fun c rest st0 w0 ap0 w ap hc =>
      ⟨fun h => loop_break _ c rest st0 w0 ap0 st w ap hc h hlatched,
        fun h => loop_break _ c rest st0 w0 ap0 st w ap hc h hlatched⟩,
    fun w ap => ⟨(finish_latched st w ap hlatched).1, (finish_latched st w ap hlatched).2, rfl, rfl⟩,
    ?_⟩
  intro w0 fmt ap0 r hrun
  have hq : quiet_after w0.trace r.st r.world ∧
      r.value = if r.unknown = true then -1
        else if r.st.err ∧ 0 ≤ r.st.ret then -1 else r.st.ret := by
    rcases hrun with h | h
    · exact ⟨loop_quiet vpack_switch iofunc.write vpack_switch_shape fmt w0 ap0 r h,
        directive_loop_value _ _ _ _ _ _ h⟩
    · exact ⟨loop_quiet vunpack_switch iofunc.read vunpack_switch_shape fmt w0 ap0 r h,
        directive_loop_value _ _ _ _ _ _ h⟩
  obtain ⟨⟨new, h1, h2, -⟩, h3⟩ := hq
  refine ⟨⟨new, h1, h2⟩, fun he => ?_⟩
  rw [h3]
  split
  · norm_num
  · simp only [he, true_and]
    split
    · norm_num
    · omega

/-- Witness for C4: with the latch set, a read request leaves state and world
as they are. -/
theorem sticky_error_witness :
    rec_io { ret := 2, err := true } iofunc.read
        (World.init (fun _ => 0) [1, 2, 3, 4] (fun _ _ _ => 0)) (Ptr.mem 4096) 4 =
      ({ ret := 2, err := true }, World.init (fun _ => 0) [1, 2, 3, 4] (fun _ _ _ => 0)) :=
  (sticky_error { ret := 2, err := true } rfl).1 iofunc.read
    (World.init (fun _ => 0) [1, 2, 3, 4] (fun _ _ _ => 0)) (Ptr.mem 4096) 4

theorem tcode_of_other (ch : Char)
    (h : ch ∉ ['c', 'C', 'h', 'H', 'i', 'I', 'l', 'L', 'q', 'Q', 'z', 'Z', 'f', 'd', 's', '=',
      '*']) : tcode.of ch = tcode.other := by
  simp only [List.mem_cons, List.mem_singleton, not_or, List.mem_nil_iff, not_false_eq_true,
    and_true] at h
  obtain ⟨h1, h2, h3, h4, h5, h6, h7, h8, h9, h10, h11, h12, h13, h14, h15, h16, h17⟩ := h
  unfold tcode.of
  rw [if_neg h1, if_neg h2, if_neg h3, if_neg h4, if_neg h5, if_neg h6, if_neg h7, if_neg h8,
    if_neg h9, if_neg h10, if_neg h11, if_neg h12, if_neg h13, if_neg h14, if_neg h15,
    if_neg h16, if_neg h17]

theorem fmt_at_cons_zero (t : Char) (r : List Char) : fmt_at (t :: r) 0 = Except.ok t := by
  simp [fmt_at]

theorem fmt_at_cons_one (t e : Char) (r : List Char) :
    fmt_at (t :: e :: r) 1 = Except.ok e := by
  simp [fmt_at]

theorem vpack_switch_local : local_switch vpack_switch := by
  constructor
  · intro c t e r1 r2 st w ap
    unfold vpack_switch
    split <;> simp only [fmt_at_cons_zero, fmt_at_cons_one]
  · intro c r1 r2 st w ap h1 h2
    unfold vpack_switch
    split <;> first | rfl | (rename_i h; exact absurd h h1) | (rename_i h; exact absurd h h2)

theorem vunpack_switch_local : local_switch vunpack_switch := by
  constructor
  · intro c t e r1 r2 st w ap
    unfold vunpack_switch
    split <;> simp only [fmt_at_cons_zero, fmt_at_cons_one]
  · intro c r1 r2 st w ap h1 h2
    unfold vunpack_switch
    split <;> first | rfl | (rename_i h; exact absurd h h1) | (rename_i h; exact absurd h h2)

/-- Directives that were processed without error and without reaching the
`default` case leave the loop where a call on the remaining format starts. -/
theorem directive_loop_append (sw : switch_fn) (hsw : local_switch sw) (f1 f2 : List Char)
    (st : state) (w : World) (ap : List varg) (r1 : result)
    (h : directive_loop sw f1 st w ap = Except.ok r1) (hnul : Char.ofNat 0 ∉ f1)
    (he : r1.st.err = false) (hu : r1.unknown = false) :
    directive_loop sw (f1 ++ f2) st w ap = directive_loop sw f2 r1.st r1.world r1.ap := by
  generalize hn : f1.length = n
  induction n using Nat.strong_induction_on generalizing f1 st w ap with
  | _ n ih =>
    cases f1 with
    | nil =>
      simp only [directive_loop, Except.ok.injEq] at h
      subst h
      rfl
    | cons c rest =>
      have hc : c ≠ Char.ofNat 0 := fun hh => hnul (by simp [hh])
      have hrest : Char.ofNat 0 ∉ rest := fun hh => hnul (by simp [hh])
      simp only [directive_loop, hc, if_false] at h
      simp only [List.cons_append, directive_loop, hc, if_false]
      by_cases harr : (tcode.of c).group = group.array_val ∨ (tcode.of c).group = group.array_ptr
      · simp only [harr, if_true] at h ⊢
        cases rest with
        | nil =>
          split at h
          · cases h
          · simp only [Except.ok.injEq] at h
            subst h
            cases hu
          · split at h
            · simp only [Except.ok.injEq] at h
              subst h
              rename_i he1
              simp [finish, he1] at he
            · cases h
        | cons t rest1 =>
          cases rest1 with
          | nil =>
            split at h
            · cases h
            · simp only [Except.ok.injEq] at h
              subst h
              cases hu
            · split at h
              · simp only [Except.ok.injEq] at h
                subst h
                rename_i he1
                simp [finish, he1] at he
              · cases h
          | cons e rest2 =>
            rw [List.cons_append, List.cons_append, hsw.1 c t e (rest2 ++ f2) rest2]
            split at h
            · cases h
            · simp only [Except.ok.injEq] at h
              subst h
              cases hu
            · rename_i st1 w1 ap1 hs
              split at h
              · simp only [Except.ok.injEq] at h
                subst h
                rename_i he1
                simp [finish, he1] at he
              · rename_i he1
                simp only [he1, if_false]
                exact ih rest2.length (by simp at hn; omega) rest2 st1 w1 ap1 h
                  (fun hh => hrest (by simp [hh])) rfl
      · simp only [harr, if_false] at h ⊢
        rw [hsw.2 c (rest ++ f2) rest st w ap (fun hh => harr (Or.inl hh))
          (fun hh => harr (Or.inr hh))]
        split at h
        · cases h
        · simp only [Except.ok.injEq] at h
          subst h
          cases hu
        · rename_i st1 w1 ap1 hs
          split at h
          · simp only [Except.ok.injEq] at h
            subst h
            rename_i he1
            simp [finish, he1] at he
          · rename_i he1
            simp only [he1, if_false]
            exact ih rest.length (by simp at hn; omega) rest st1 w1 ap1 h hrest rfl

theorem switch_default (c : Char) (rest : List Char) (st : state) (w : World) (ap : List varg)
    (h : tcode.of c = tcode.other) :
    vpack_switch c rest st w ap = Except.ok (st, diagnose w c, ap, true) ∧
      vunpack_switch c rest st w ap = Except.ok (st, diagnose w c, ap, true) := by
  constructor
  · simp only [vpack_switch, h, tcode.group]
    rfl
  · simp only [vunpack_switch, h, tcode.group]
    rfl

/-- C7, unrecognized directive: let the directives `f1` be processed by
`vpack` (or `vunpack`) without error and without reaching the `default` case,
giving the result `r1`, and let `c` be a character of the format string that
is none of `c C h H i I l L q Q z Z f d s = *`.  Then on the format
`f1 ++ c :: f2` the call returns `-1`; the arguments left over, the memory,
the bytes read and written, the allocator and the trace of primitive and
allocator calls are those after `f1` (`r1`): nothing is consumed, transferred,
allocated or stored for `c` or for what follows it, and nothing done for `f1`
is undone.  Only the diagnostic on `stderr` is added. -/
theorem unrecognized_directive (w : World) (f1 : List Char) (c : Char) (f2 : List Char)
    (ap : List varg) (r1 : result) (hnul : Char.ofNat 0 ∉ f1) (hc0 : c ≠ Char.ofNat 0)
    (hc : c ∉ ['c', 'C', 'h', 'H', 'i', 'I', 'l', 'L', 'q', 'Q', 'z', 'Z', 'f', 'd', 's', '=',
      '*'])
    (he : r1.st.err = false) (hu : r1.unknown = false) :
    (vpack w f1 ap = Except.ok r1 →
      vpack w (f1 ++ c :: f2) ap = Except.ok
        { value := -1, st := r1.st, unknown := true, ap := r1.ap,
          world := { r1.world with
            stderr := r1.world.stderr ++ "unkown format ".toList ++ [c] } }) ∧
    (vunpack w f1 ap = Except.ok r1 →
      vunpack w (f1 ++ c :: f2) ap = Except.ok
        { value := -1, st := r1.st, unknown := true, ap := r1.ap,
          world := { r1.world with
            stderr := r1.world.stderr ++ "unkown format ".toList ++ [c] } }) := by
  have hd := tcode_of_other c hc
  constructor
  · intro h
    unfold vpack at *
    rw [directive_loop_append vpack_switch vpack_switch_local f1 (c :: f2) _ w ap r1 h hnul he hu]
    simp only [directive_loop, hc0, if_false, (switch_default c f2 r1.st r1.world r1.ap hd).1]
    rfl
  · intro h
    unfold vunpack at *
    rw [directive_loop_append vunpack_switch vunpack_switch_local f1 (c :: f2) _ w ap r1 h hnul he
      hu]
    simp only [directive_loop, hc0, if_false, (switch_default c f2 r1.st r1.world r1.ap hd).2]
    rfl

/-- Witness for C7: after the directive `i` the character `x` makes `vpack`
return `-1` with the four bytes of the integer written and nothing else. -/
theorem unrecognized_directive_witness :
    (returned (vpack (World.init (store (fun _ => 0) 4096 [42, 0, 0, 0]) [] (fun _ _ _ => 0))
        ['i', 'x', 'i'] [varg.ptr 4096, varg.ptr 4096]) result.none).value = -1 ∧
      (returned (vpack (World.init (store (fun _ => 0) 4096 [42, 0, 0, 0]) [] (fun _ _ _ => 0))
        ['i', 'x', 'i'] [varg.ptr 4096, varg.ptr 4096]) result.none).world.output =
        [42, 0, 0, 0] := by
  have h := (unrecognized_directive
    (World.init (store (fun _ => 0) 4096 [42, 0, 0, 0]) [] (fun _ _ _ => 0)) ['i'] 'x' ['i']
    [varg.ptr 4096, varg.ptr 4096]
    (returned (vpack (World.init (store (fun _ => 0) 4096 [42, 0, 0, 0]) [] (fun _ _ _ => 0))
      ['i'] [varg.ptr 4096, varg.ptr 4096]) result.none)
    (by decide) (by decide) (by decide) (by decide) (by decide)).1 rfl
  have h2 : (['i'] ++ 'x' :: ['i'] : List Char) = ['i', 'x', 'i'] := rfl
  rw [h2] at h
  rw [h]
  exact ⟨rfl, by decide⟩

theorem cast_size (size : Nat) (h : size < SIZE_MOD) :
    (((size : Int)) % (2 ^ 64 : Int)).toNat = size := by
  simp only [SIZE_MOD] at h
  omega

/-- A write request on a device that accepts all bytes. -/
theorem rec_write_ideal (st : state) (w : World) (p : Ptr) (size : Nat) (he : st.err = false)
    (hs : w.script = []) (hp : p.isNull = false) (h0 : size ≠ 0) (hlt : size < SIZE_MOD) :
    rec_write st w p size =
      ({ ret := st.ret + size, err := false },
        { w with output := w.output ++ w.loadp p size
                 trace := w.trace ++ [event.io size size false] }) := by
  simp only [rec_write, rec_io, he, hp, h0, hs, List.length_nil, io_retry, iofunc.call,
    iofunc.answer, moved, Bool.false_eq_true, or_self, if_false, List.tail_nil]
  rw [if_pos (cast_size size hlt)]
  simp

theorem answer_read_ideal (w : World) (size : Nat) (hs : w.script = [])
    (hin : size ≤ w.input.length) : iofunc.read.answer w size = ⟨(size : Int), false⟩ := by
  have h : min (size : Int) (w.input.length : Int) = size := min_eq_left (by exact_mod_cast hin)
  simp only [iofunc.answer, hs, h]

theorem moved_full (size : Nat) : moved (size : Int) size = size := by
  simp [moved]

/-- A read request on a device that has the requested bytes. -/
theorem rec_read_ideal (st : state) (w : World) (p : Ptr) (size : Nat) (bs tail : List Nat)
    (he : st.err = false) (hs : w.script = []) (hp : p.isNull = false) (h0 : size ≠ 0)
    (hlt : size < SIZE_MOD) (hin : w.input = bs ++ tail) (hlen : bs.length = size) :
    rec_read st w p size =
      ({ ret := st.ret + size, err := false },
        ({ w with input := tail
                  trace := w.trace ++ [event.io size size false] }).storep p bs) := by
  have hle : size ≤ w.input.length := by rw [hin, List.length_append]; omega
  have h1 : List.take size w.input = bs := by
    rw [hin, ← hlen]; exact List.take_left' rfl
  have h2 : List.drop size w.input = tail := by
    rw [hin, ← hlen]; exact List.drop_left' rfl
  simp only [rec_read, rec_io, he, hp, h0, hs, List.length_nil, io_retry, iofunc.call,
    answer_read_ideal w size hs hle, moved_full, Bool.false_eq_true, or_self, if_false,
    List.tail_nil, h1, h2]
  rw [if_pos (cast_size size hlt)]

theorem float_switch (c : Char) (hc : tcode.of c = tcode.f ∨ tcode.of c = tcode.d)
    (rest : List Char) (st : state) (w : World) (ap : List varg) :
    vpack_switch c rest st w ap = Except.ok (st, w, ap, false) ∧
      vunpack_switch c rest st w ap = Except.ok (st, w, ap, false) := by
  have hnoop : ∀ func, rec_io st func w (Ptr.mem arg.zero.ptr) arg.zero.size = (st, w) := by
    intro func
    simp [rec_io, arg.zero, Ptr.isNull]
  rcases hc with hc | hc
  · constructor
    · simp only [vpack_switch, hc, tcode.group, arg_ptr, bind, Except.bind, rec_write, hnoop]
      rfl
    · simp only [vunpack_switch, hc, tcode.group, arg_ptr, bind, Except.bind, rec_read, hnoop]
      rfl
  · constructor
    · simp only [vpack_switch, hc, tcode.group, arg_ptr, bind, Except.bind, rec_write, hnoop]
      rfl
    · simp only [vunpack_switch, hc, tcode.group, arg_ptr, bind, Except.bind, rec_read, hnoop]
      rfl

/-- C10 (the code against the claim): the directives `f` and `d` bind no
argument and transfer nothing.  `arg_ptr` has no case for them, so the
descriptor stays zeroed and `rec_io` is handed a null pointer and size zero:
a call on `'f' :: fmt` or `'d' :: fmt` behaves as the call on `fmt` with the
same arguments, so that the argument meant for the float is bound to the next
directive; in particular `vpack` and `vunpack` with the format `f` (or `d`)
return `0`, leave the world as it is and consume no argument. -/
theorem float_directive_unbound (w : World) (fmt : List Char) (ap : List varg) (c : Char)
    (hc : c = 'f' ∨ c = 'd') :
    vpack w (c :: fmt) ap = vpack w fmt ap ∧ vunpack w (c :: fmt) ap = vunpack w fmt ap ∧
    vpack w [c] ap = Except.ok
      { value := 0, st := { ret := 0, err := false }, unknown := false, world := w, ap := ap } ∧
    vunpack w [c] ap = Except.ok
      { value := 0, st := { ret := 0, err := false }, unknown := false, world := w, ap := ap } := by
  have hcode : tcode.of c = tcode.f ∨ tcode.of c = tcode.d := by
    rcases hc with rfl | rfl
    · exact Or.inl (by decide)
    · exact Or.inr (by decide)
  have hnul : c ≠ Char.ofNat 0 := by
    rcases hc with rfl | rfl <;> decide
  have hgrp : ¬ ((tcode.of c).group = group.array_val ∨ (tcode.of c).group = group.array_ptr) := by
    rcases hcode with h | h <;> rw [h] <;> decide
  have hstep : ∀ (sw : switch_fn) (rest : List Char),
      sw c rest { ret := 0, err := false } w ap =
        Except.ok ({ ret := 0, err := false }, w, ap, false) →
      directive_loop sw (c :: rest) { ret := 0, err := false } w ap =
        directive_loop sw rest { ret := 0, err := false } w ap := by
    intro sw rest h
    simp only [directive_loop, hnul, if_false, h, hgrp, Bool.false_eq_true]
  refine ⟨hstep _ fmt (float_switch c hcode fmt _ w ap).1,
    hstep _ fmt (float_switch c hcode fmt _ w ap).2, ?_, ?_⟩
  · unfold vpack
    rw [hstep _ [] (float_switch c hcode [] _ w ap).1]
    rfl
  · unfold vunpack
    rw [hstep _ [] (float_switch c hcode [] _ w ap).2]
    rfl

/-- Witness for C10: `vpack` with the format `fi` and pointers to a float and
to an int writes the first four bytes of the float object as the integer. -/
theorem float_directive_unbound_witness :
    (returned (vpack
      (World.init (store (store (fun _ => 0) 4096 [0, 0, 128, 63]) 8192 [42, 0, 0, 0]) []
        (fun _ _ _ => 0)) ['f', 'i'] [varg.ptr 4096, varg.ptr 8192]) result.none).world.output =
      [0, 0, 128, 63] := by
  rw [(float_directive_unbound _ ['i'] [varg.ptr 4096, varg.ptr 8192] 'f' (Or.inl rfl)).1]
  decide

theorem int_codes_facts (X : Char) (ty : ctype) (h : (X, ty) ∈ int_codes) :
    (tcode.of X).group = group.scalar ∧ X ≠ Char.ofNat 0 ∧
      (∀ m a ap, arg_ptr m a ap X = pop_ptr m ty ap) ∧
      (∀ m a ap, arg_arr m a ap X = pop_arr m ty ap) ∧
      (ty.size = 1 ∨ ty.size = 2 ∨ ty.size = 4 ∨ ty.size = 8) := by
  simp only [int_codes, List.mem_cons, Prod.mk.injEq, List.mem_nil_iff, or_false] at h
  rcases h with h | h | h | h | h | h | h | h | h | h | h | h <;> obtain ⟨rfl, rfl⟩ := h <;>
  exact ⟨by decide, by decide, fun _ _ _ => rfl, fun _ _ _ => rfl, by decide⟩

theorem read_repr (ty : ctype) (hsz : ty.size = 1 ∨ ty.size = 2 ∨ ty.size = 4 ∨ ty.size = 8)
    (v : Int) (hv : ty.in_range v) (m : Nat → Nat) (p : Nat)
    (h : load m p ty.size = ty.repr v) : ty.read m p = v := by
  obtain ⟨size, signed⟩ := ty
  simp only [ctype.read, h, ctype.repr, leVal_leBytes, to_uintmax, ctype.conv, ctype.in_range]
    at hv ⊢
  simp only at hsz
  rcases hsz with rfl | rfl | rfl | rfl <;> cases signed <;>
    simp only [Bool.false_eq_true, if_false, if_true] at hv ⊢ <;> norm_num at hv ⊢ <;> omega

theorem leBytes_ne_nil_length (ty : ctype) (v : Int) : (ty.repr v).length = ty.size := by
  simp [ctype.repr, leBytes_length]

/-- The `switch` of `vpack` on an integer scalar directive, device accepting
all bytes. -/
theorem vpack_switch_scalar (X : Char) (ty : ctype) (hX : (X, ty) ∈ int_codes) (rest : List Char)
    (st : state) (w : World) (p : Nat) (ap : List varg) (hp : p ≠ NULL) (he : st.err = false)
    (hs : w.script = []) :
    vpack_switch X rest st w (varg.ptr p :: ap) = Except.ok
      ({ ret := st.ret + ty.size, err := false },
        { w with output := w.output ++ load w.mem p ty.size
                 trace := w.trace ++ [event.io ty.size ty.size false] }, ap, false) := by
  obtain ⟨hg, -, ha, -, hsz⟩ := int_codes_facts X ty hX
  have hw := rec_write_ideal st w (Ptr.mem p) ty.size he hs (by simpa [Ptr.isNull] using hp)
    (by omega) (by simp only [SIZE_MOD]; omega)
  simp only [vpack_switch, hg, ha, pop_ptr, hp, if_false, bind, Except.bind, hw, pure,
    Except.pure, World.loadp]

/-- The `switch` of `vunpack` on an integer scalar directive, device holding
the bytes. -/
theorem vunpack_switch_scalar (X : Char) (ty : ctype) (hX : (X, ty) ∈ int_codes)
    (rest : List Char) (st : state) (w : World) (q : Nat) (ap : List varg) (bs tail : List Nat)
    (hq : q ≠ NULL) (he : st.err = false) (hs : w.script = []) (hin : w.input = bs ++ tail)
    (hlen : bs.length = ty.size) :
    vunpack_switch X rest st w (varg.ptr q :: ap) = Except.ok
      ({ ret := st.ret + ty.size, err := false },
        { w with mem := store w.mem q bs
                 input := tail
                 trace := w.trace ++ [event.io ty.size ty.size false] }, ap, false) := by
  obtain ⟨hg, -, ha, -, hsz⟩ := int_codes_facts X ty hX
  have hw := rec_read_ideal st w (Ptr.mem q) ty.size bs tail he hs
    (by simpa [Ptr.isNull] using hq) (by omega) (by simp only [SIZE_MOD]; omega) hin hlen
  simp only [vunpack_switch, hg, ha, pop_ptr, hq, if_false, bind, Except.bind, hw, pure,
    Except.pure, World.storep]

theorem loop_single (sw : switch_fn) (c : Char) (st st1 : state) (w w1 : World)
    (ap ap1 : List varg) (hc : c ≠ Char.ofNat 0)
    (hg : ¬ ((tcode.of c).group = group.array_val ∨ (tcode.of c).group = group.array_ptr))
    (h : sw c [] st w ap = Except.ok (st1, w1, ap1, false)) :
    directive_loop sw [c] st w ap = Except.ok (finish st1 w1 ap1) := by
  simp only [directive_loop, hc, if_false, h, hg]
  split <;> rfl

/-- C9, integer scalar directives: for every integer code `X` with its C type
`ty` (width 1 for `c`/`C`, 2 for `h`/`H`, 4 for `i`/`I`, 8 for the others) and
every value `v` of that type held by the object the argument points to, `vpack`
with the format `X` on a sink that accepts all bytes writes exactly the
`ty.size` bytes of the native representation of `v` and returns `ty.size`;
`vunpack` with `X` on a source that holds these bytes stores them in the
object its argument points to, so that the object holds `v`, changes no other
memory cell, and returns `ty.size`. -/
theorem integer_scalar (X : Char) (ty : ctype) (hX : (X, ty) ∈ int_codes) (v : Int)
    (hv : ty.in_range v) (wp : World) (p : Nat) (hp : p ≠ NULL) (hsink : wp.script = [])
    (hobj : load wp.mem p ty.size = ty.repr v) (wu : World) (q : Nat) (hq : q ≠ NULL)
    (hsrc : wu.script = []) (tail : List Nat) (hin : wu.input = ty.repr v ++ tail) :
    vpack wp [X] [varg.ptr p] = Except.ok
      { value := ty.size, st := { ret := ty.size, err := false }, unknown := false, ap := [],
        world := { wp with output := wp.output ++ ty.repr v
                           trace := wp.trace ++ [event.io ty.size ty.size false] } } ∧
    ∃ ru, vunpack wu [X] [varg.ptr q] = Except.ok ru ∧ ru.value = ty.size ∧
      ru.st.err = false ∧ ru.ap = [] ∧
      ty.read ru.world.mem q = v ∧ load ru.world.mem q ty.size = ty.repr v ∧
      ru.world.input = tail ∧
      ru.world.trace = wu.trace ++ [event.io ty.size ty.size false] ∧
      ∀ x, x < q ∨ q + ty.size ≤ x → ru.world.mem x = wu.mem x := by
  obtain ⟨hg, hnul, -, -, hsz⟩ := int_codes_facts X ty hX
  have hg2 : ¬ ((tcode.of X).group = group.array_val ∨ (tcode.of X).group = group.array_ptr) := by
    rw [hg]; decide
  have hlen := leBytes_ne_nil_length ty v
  constructor
  · unfold vpack
    rw [loop_single _ X _ _ wp _ _ _ hnul hg2
      (vpack_switch_scalar X ty hX [] _ wp p [] hp rfl hsink), hobj]
    simp [finish]
  · have hu := loop_single _ X _ _ wu _ _ _ hnul hg2
      (vunpack_switch_scalar X ty hX [] { ret := 0, err := false } wu q [] (ty.repr v) tail hq
        rfl hsrc hin hlen)
    refine ⟨_, hu, ?_⟩
    · have hload : load (store wu.mem q (ty.repr v)) q ty.size = ty.repr v := by
        have := load_store_same wu.mem q (ty.repr v)
        rwa [hlen] at this
      refine ⟨by simp [finish], rfl, rfl, read_repr ty hsz v hv _ q hload, hload, rfl, rfl, ?_⟩
      intro x hx
      exact store_outside wu.mem q (ty.repr v) x (by rw [hlen]; exact hx)

/-- Witness for C9: `i` with 42 writes the four bytes of 42 and unpacks to 42. -/
theorem integer_scalar_witness :
    vpack (World.init (store (fun _ => 0) 4096 [42, 0, 0, 0]) [] (fun _ _ _ => 0)) ['i']
        [varg.ptr 4096] = Except.ok
      { value := 4, st := { ret := 4, err := false }, unknown := false, ap := [],
        world := { World.init (store (fun _ => 0) 4096 [42, 0, 0, 0]) [] (fun _ _ _ => 0) with
          output := [42, 0, 0, 0], trace := [event.io 4 4 false] } } ∧
    ∃ ru, vunpack (World.init (fun _ => 0) [42, 0, 0, 0] (fun _ _ _ => 0)) ['i']
        [varg.ptr 8192] = Except.ok ru ∧ ru.value = 4 ∧ c_int.read ru.world.mem 8192 = 42 := by
  have h := integer_scalar 'i' c_int (by decide) 42 (by decide)
    (World.init (store (fun _ => 0) 4096 [42, 0, 0, 0]) [] (fun _ _ _ => 0)) 4096 (by decide) rfl
    (by decide) (World.init (fun _ => 0) [42, 0, 0, 0] (fun _ _ _ => 0)) 8192 (by decide) rfl []
    (by decide)
  obtain ⟨h1, ru, h2, h3, -, -, h4, -⟩ := h
  exact ⟨h1, ru, h2, h3, h4⟩

theorem tcode_of_not_int (ch : Char)
    (h : ch ∉ ['c', 'C', 'h', 'H', 'i', 'I', 'l', 'L', 'q', 'Q', 'z', 'Z']) :
    tcode.of ch = tcode.f ∨ tcode.of ch = tcode.d ∨ tcode.of ch = tcode.s ∨
      tcode.of ch = tcode.eq ∨ tcode.of ch = tcode.star ∨ tcode.of ch = tcode.other := by
  simp only [List.mem_cons, List.mem_singleton, not_or, List.mem_nil_iff, not_false_eq_true,
    and_true] at h
  obtain ⟨h1, h2, h3, h4, h5, h6, h7, h8, h9, h10, h11, h12⟩ := h
  unfold tcode.of
  rw [if_neg h1, if_neg h2, if_neg h3, if_neg h4, if_neg h5, if_neg h6, if_neg h7, if_neg h8,
    if_neg h9, if_neg h10, if_neg h11, if_neg h12]
  by_cases k1 : ch = 'f'
  · rw [if_pos k1]; simp
  rw [if_neg k1]
  by_cases k2 : ch = 'd'
  · rw [if_pos k2]; simp
  rw [if_neg k2]
  by_cases k3 : ch = 's'
  · rw [if_pos k3]; simp
  rw [if_neg k3]
  by_cases k4 : ch = '='
  · rw [if_pos k4]; simp
  rw [if_neg k4]
  by_cases k5 : ch = '*'
  · rw [if_pos k5]; simp
  rw [if_neg k5]
  simp

theorem tcode_of_not_elem (ch : Char)
    (h : ch ∉ ['c', 'C', 'h', 'H', 'i', 'I', 'l', 'L', 'q', 'Q', 'z', 'Z', 's']) :
    tcode.of ch = tcode.f ∨ tcode.of ch = tcode.d ∨
      tcode.of ch = tcode.eq ∨ tcode.of ch = tcode.star ∨ tcode.of ch = tcode.other := by
  simp only [List.mem_cons, List.mem_singleton, not_or, List.mem_nil_iff, not_false_eq_true,
    and_true] at h
  obtain ⟨h1, h2, h3, h4, h5, h6, h7, h8, h9, h10, h11, h12, h13⟩ := h
  unfold tcode.of
  rw [if_neg h1, if_neg h2, if_neg h3, if_neg h4, if_neg h5, if_neg h6, if_neg h7, if_neg h8,
    if_neg h9, if_neg h10, if_neg h11, if_neg h12]
  by_cases k1 : ch = 'f'
  · rw [if_pos k1]; simp
  rw [if_neg k1]
  by_cases k2 : ch = 'd'
  · rw [if_pos k2]; simp
  rw [if_neg k2, if_neg h13]
  by_cases k4 : ch = '='
  · rw [if_pos k4]; simp
  rw [if_neg k4]
  by_cases k5 : ch = '*'
  · rw [if_pos k5]; simp
  rw [if_neg k5]
  simp

theorem arg_val_noop (a : arg) (ap : List varg) (T : Char)
    (h : T ∉ ['c', 'C', 'h', 'H', 'i', 'I', 'l', 'L', 'q', 'Q', 'z', 'Z']) :
    arg_val a ap T = Except.ok (a, ap) := by
  rcases tcode_of_not_int T h with k | k | k | k | k | k <;> simp only [arg_val, k]

theorem arg_ptr_noop (m : Nat → Nat) (a : arg) (ap : List varg) (T : Char)
    (h : T ∉ ['c', 'C', 'h', 'H', 'i', 'I', 'l', 'L', 'q', 'Q', 'z', 'Z']) :
    arg_ptr m a ap T = Except.ok (a, ap) := by
  rcases tcode_of_not_int T h with k | k | k | k | k | k <;> simp only [arg_ptr, k]

theorem arg_arr_noop (m : Nat → Nat) (a : arg) (ap : List varg) (E : Char)
    (h : E ∉ ['c', 'C', 'h', 'H', 'i', 'I', 'l', 'L', 'q', 'Q', 'z', 'Z', 's']) :
    arg_arr m a ap E = Except.ok (a, ap) := by
  rcases tcode_of_not_elem E h with k | k | k | k | k <;> simp only [arg_arr, k]

theorem rec_io_null (st : state) (func : iofunc) (w : World) (size : Nat) :
    rec_io st func w (Ptr.mem NULL) size = (st, w) := by
  simp [rec_io, Ptr.isNull]

theorem rec_io_zero (st : state) (func : iofunc) (w : World) (p : Ptr) :
    rec_io st func w p 0 = (st, w) := by
  simp [rec_io]

/-- Writing the automatic `size_t` object on a device that accepts all bytes. -/
theorem rec_write_cell_ideal (st : state) (w : World) (n : Nat) (he : st.err = false)
    (hs : w.script = []) :
    rec_write st { w with cell := n } Ptr.cell SIZEOF_SIZE_T =
      ({ ret := st.ret + 8, err := false },
        { w with cell := n
                 output := w.output ++ leBytes 8 n
                 trace := w.trace ++ [event.io 8 8 false] }) := by
  have h := rec_write_ideal st { w with cell := n } Ptr.cell SIZEOF_SIZE_T he hs rfl
    (by decide) (by decide)
  rw [h]
  have h2 : (leBytes SIZEOF_SIZE_T n).take SIZEOF_SIZE_T = leBytes 8 n := by
    rw [List.take_of_length_le]
    · rfl
    · rw [leBytes_length]
  simp only [World.loadp, h2]
  rfl

/-- Reading the automatic `size_t` object from a device that holds the eight
bytes of `n`. -/
theorem rec_read_cell_ideal (st : state) (w : World) (n : Nat) (tail : List Nat)
    (he : st.err = false) (hs : w.script = []) (hn : n < SIZE_MOD)
    (hin : w.input = leBytes 8 n ++ tail) :
    rec_read st { w with cell := 0 } Ptr.cell SIZEOF_SIZE_T =
      ({ ret := st.ret + 8, err := false },
        { w with cell := n
                 input := tail
                 trace := w.trace ++ [event.io 8 8 false] }) := by
  have h := rec_read_ideal st { w with cell := 0 } Ptr.cell SIZEOF_SIZE_T (leBytes 8 n) tail he
    hs rfl (by decide) (by decide) hin (leBytes_length 8 n)
  rw [h]
  have h2 : ((leBytes 8 n ++ (leBytes SIZEOF_SIZE_T 0).drop (leBytes 8 n).length).take
      SIZEOF_SIZE_T) = leBytes 8 n := by
    rw [leBytes_length, List.drop_of_length_le (by rw [leBytes_length]; decide),
      List.append_nil, List.take_of_length_le (by rw [leBytes_length]; decide)]
  simp only [World.storep, h2, leVal_leBytes_word n hn]
  rfl

theorem array_group (c : Char) (hc : c = '=' ∨ c = '*') :
    c ≠ Char.ofNat 0 ∧
      ((tcode.of c).group = group.array_val ∨ (tcode.of c).group = group.array_ptr) ∧
      (c = '=' → (tcode.of c).group = group.array_val) ∧
      (c = '*' → (tcode.of c).group = group.array_ptr) := by
  rcases hc with rfl | rfl <;> decide

theorem loop_array_step (sw : switch_fn) (c T E : Char) (fmt : List Char) (st st1 : state)
    (w w1 : World) (ap ap1 : List varg) (hc : c = '=' ∨ c = '*')
    (h : sw c (T :: E :: fmt) st w ap = Except.ok (st1, w1, ap1, false))
    (he : st1.err = false) :
    directive_loop sw (c :: T :: E :: fmt) st w ap = directive_loop sw fmt st1 w1 ap1 := by
  obtain ⟨h0, hg, -, -⟩ := array_group c hc
  simp only [directive_loop, h0, if_false, h, he, hg, if_true, Bool.false_eq_true]

theorem int_codes_val (T : Char) (ty : ctype) (h : (T, ty) ∈ int_codes) :
    ∃ vty, ∀ a ap, arg_val a ap T = pop_arg vty ap := by
  simp only [int_codes, List.mem_cons, Prod.mk.injEq, List.mem_nil_iff, or_false] at h
  rcases h with h | h | h | h | h | h | h | h | h | h | h | h <;> obtain ⟨rfl, rfl⟩ := h <;>
  exact ⟨_, fun _ _ => rfl⟩

theorem to_uintmax_nat (n : Nat) (h : n < SIZE_MOD) : to_uintmax (n : Int) = n := by
  simp only [to_uintmax, SIZE_MOD] at *
  omega

theorem in_range_nat (ty : ctype) (hsz : ty.size = 1 ∨ ty.size = 2 ∨ ty.size = 4 ∨ ty.size = 8)
    (n : Nat) (h : ty.in_range n) : n < SIZE_MOD := by
  obtain ⟨size, signed⟩ := ty
  simp only at hsz
  simp only [ctype.in_range, SIZE_MOD] at *
  rcases hsz with rfl | rfl | rfl | rfl <;> cases signed <;>
    simp only [Bool.false_eq_true, if_false, if_true] at h <;> norm_num at h <;> omega

theorem int_codes_count (T : Char) (tyT : ctype) (hT : (T, tyT) ∈ int_codes) :
    ∃ vty, (∀ a ap, arg_val a ap T = pop_arg vty ap) ∧
      ∀ n : Nat, tyT.in_range n → to_uintmax (vty.conv n) = n := by
  simp only [int_codes, List.mem_cons, Prod.mk.injEq, List.mem_nil_iff, or_false] at hT
  rcases hT with h | h | h | h | h | h | h | h | h | h | h | h <;> obtain ⟨rfl, rfl⟩ := h <;>
    refine ⟨_, fun _ _ => rfl, fun n hrep => ?_⟩ <;>
    simp only [ctype.in_range, c_char, c_uchar, c_short, c_ushort, c_int, c_uint, c_long,
      c_ulong, c_llong, c_ullong, c_size_t, c_ssize_t, Bool.false_eq_true, if_false, if_true,
      to_uintmax, ctype.conv] at hrep ⊢ <;>
    norm_num at hrep ⊢ <;> omega

theorem zero_fill_zero (m : Nat → Nat) (a : Nat) : zero_fill m a 0 = m := by
  funext x
  apply zero_fill_outside
  omega

/-- A request over the ceiling: no buffer, null stored in the slot, the error
latched.  When the product wraps around below the ceiling, `calloc` is called
and this relies on `calloc` refusing a product that overflows. -/
theorem rec_alloc_over (st : state) (a : arg) (w : World) (n sz : Nat) (he : st.err = false)
    (hpp : a.pptr ≠ NULL) (hover : 16777216 < n * sz)
    (hcal : ∀ k, SIZE_MOD ≤ n * sz → w.alloc k n sz = NULL) :
    ∃ w2, rec_alloc st a w n sz =
        Except.ok ({ ret := st.ret, err := true }, { a with ptr := NULL }, w2) ∧
      w2.mem = store w.mem a.pptr (leBytes 8 0) ∧ w2.input = w.input ∧ w2.cell = w.cell ∧
      w2.script = w.script ∧ w2.output = w.output ∧ w2.alloc = w.alloc ∧
      (w2.trace = w.trace ∨ w2.trace = w.trace ++ [event.alloc n sz NULL]) := by
  have h0 : ¬ (st.err = true ∨ n = 0 ∧ sz = 0) := by
    rw [he]
    rintro (h | ⟨h, -⟩)
    · cases h
    · rw [h] at hover; omega
  by_cases hsane : sane_size (n * sz % SIZE_MOD) = true
  · have hbig : SIZE_MOD ≤ n * sz := by
      by_contra hlt
      rw [Nat.mod_eq_of_lt (by omega)] at hsane
      simp only [sane_size, decide_eq_true_eq] at hsane
      omega
    have hnull : (calloc w n sz).1 = NULL := hcal w.nalloc hbig
    refine ⟨{ (calloc w n sz).2 with
      mem := store (calloc w n sz).2.mem a.pptr (leBytes 8 (calloc w n sz).1) }, ?_, ?_⟩
    · simp only [rec_alloc, h0, if_false, hsane, if_true, hpp, hnull]
    · have hm : (calloc w n sz).2.mem = w.mem := by
        have : w.alloc w.nalloc n sz = NULL := hcal w.nalloc hbig
        simp [calloc, this]
      refine ⟨by simp only [hm, hnull]; rfl, rfl, rfl, rfl, rfl, rfl, Or.inr ?_⟩
      show (calloc w n sz).2.trace = _
      rw [calloc_trace, hnull]
  · refine ⟨{ w with mem := store w.mem a.pptr (leBytes 8 NULL) }, ?_, rfl, rfl, rfl, rfl, rfl,
      rfl, Or.inl rfl⟩
    simp only [rec_alloc, h0, if_false, hsane, hpp, Bool.false_eq_true]
    rfl

theorem finish_refused (st : state) (w2 : World) (ap : List varg) (tail : List Nat)
    (m : Nat → Nat) (hret : 0 ≤ st.ret) (hm : w2.mem = m) (hi : w2.input = tail) :
    refused (finish { ret := st.ret + 8, err := true } w2 ap) ap tail m := by
  refine ⟨?_, rfl, rfl, rfl, hi, hm⟩
  simp only [finish, true_and]
  rw [if_pos (by omega)]

theorem rec_io_err (r : Int) (func : iofunc) (w : World) (p : Ptr) (size : Nat) :
    rec_io { ret := r, err := true } func w p size = ({ ret := r, err := true }, w) :=
  rec_io_latched _ _ _ _ _ rfl

/-- The `switch` of `vunpack` on `s`, `=TE` and `*TE` when the count on the
wire asks for more than the ceiling. -/
theorem vunpack_switch_over (s : Nat) (hs : s < SIZE_MOD) (w : World) (hscript : w.script = [])
    (tail : List Nat) (hin : w.input = leBytes 8 s ++ tail)
    (hcal : ∀ k n sz, SIZE_MOD ≤ n * sz → w.alloc k n sz = NULL) (pp : Nat) (hpp : pp ≠ NULL)
    (ap : List varg) (rest : List Char) (st : state) (he : st.err = false) :
    (16777216 < s →
      ∃ w2, vunpack_switch 's' rest st w (varg.ptr pp :: ap) =
          Except.ok ({ ret := st.ret + 8, err := true }, w2, ap, false) ∧
        w2.mem = store w.mem pp (leBytes 8 0) ∧ w2.input = tail) ∧
    (∀ T tyT E ty v, (T, tyT) ∈ int_codes → (E, ty) ∈ int_codes → 16777216 < s * ty.size →
      ∃ w2, vunpack_switch '=' (T :: E :: rest) st w (varg.int v :: varg.ptr pp :: ap) =
          Except.ok ({ ret := st.ret + 8, err := true }, w2, ap, false) ∧
        w2.mem = store w.mem pp (leBytes 8 0) ∧ w2.input = tail) ∧
    (∀ T tyT E ty cp, (T, tyT) ∈ int_codes → (E, ty) ∈ int_codes → 16777216 < s * ty.size →
      cp ≠ NULL →
      ∃ w2, vunpack_switch '*' (T :: E :: rest) st w (varg.ptr cp :: varg.ptr pp :: ap) =
          Except.ok ({ ret := st.ret + 8, err := true }, w2, ap, false) ∧
        w2.mem = store (store w.mem pp (leBytes 8 0)) cp (leBytes 8 s) ∧ w2.input = tail) := by
  have hr : rec_io st iofunc.read { w with cell := 0 } Ptr.cell SIZEOF_SIZE_T = _ :=
    rec_read_cell_ideal st w s tail he hscript hs hin
  refine ⟨fun hover => ?_, fun T tyT E ty v hT hE hover => ?_,
    fun T tyT E ty cp hT hE hover hcp => ?_⟩
  · obtain ⟨w2, h1, h2, h3, -⟩ := rec_alloc_over { ret := st.ret + 8, err := false }
      { size := c_char.size, val := 0, ptr := leVal (load w.mem pp 8), pptr := pp }
      { w with cell := s, input := tail, trace := w.trace ++ [event.io 8 8 false] } s 1 rfl hpp
      (by omega) (fun k => hcal k s 1)
    refine ⟨w2, ?_, h2, h3⟩
    simp only [vunpack_switch, show (tcode.of 's').group = group.string from by decide,
      show ∀ m a ap, arg_arr m a ap 's' = pop_arr m c_char ap from fun _ _ _ => rfl, pop_arr,
      hpp, if_false, bind, Except.bind, hr, h1, pure, Except.pure, rec_read, rec_io_err]
  · obtain ⟨vty, hval⟩ := int_codes_val T tyT hT
    obtain ⟨-, -, -, harr, -⟩ := int_codes_facts E ty hE
    obtain ⟨w2, h1, h2, h3, -⟩ := rec_alloc_over { ret := st.ret + 8, err := false }
      { size := ty.size, val := 0, ptr := leVal (load w.mem pp 8), pptr := pp }
      { w with cell := s, input := tail, trace := w.trace ++ [event.io 8 8 false] } s ty.size rfl
      hpp hover (fun k => hcal k s ty.size)
    refine ⟨w2, ?_, h2, h3⟩
    simp only [vunpack_switch, (array_group '=' (Or.inl rfl)).2.2.1 rfl, fmt_at_cons_zero,
      fmt_at_cons_one, hval, harr, pop_arg, pop_arr, hpp, if_false, bind, Except.bind, hr, h1,
      pure, Except.pure, rec_read, rec_io_err]
  · obtain ⟨-, -, hptr, -, -⟩ := int_codes_facts T tyT hT
    obtain ⟨-, -, -, harr, -⟩ := int_codes_facts E ty hE
    obtain ⟨w2, h1, h2, h3, -⟩ := rec_alloc_over { ret := st.ret + 8, err := false }
      { size := ty.size, val := 0, ptr := leVal (load w.mem pp 8), pptr := pp }
      { w with cell := s, input := tail, trace := w.trace ++ [event.io 8 8 false] } s ty.size rfl
      hpp hover (fun k => hcal k s ty.size)
    refine ⟨{ w2 with mem := store w2.mem cp (leBytes SIZEOF_SIZE_T s) }, ?_, ?_, h3⟩
    · simp only [vunpack_switch, (array_group '*' (Or.inr rfl)).2.2.2 rfl, fmt_at_cons_zero,
        fmt_at_cons_one, hptr, harr, pop_ptr, pop_arr, hpp, hcp, if_false, bind, Except.bind, hr,
        h1, pure, Except.pure, rec_read, rec_io_err, store_count]
    · show store w2.mem cp (leBytes SIZEOF_SIZE_T s) = _
      rw [h2]
      rfl

/-- C6 (the code against the claim): a count of zero is not a no-op.  For
`=TE` with integer type codes on a source that delivers the count field zero,
`vunpack` calls the allocator for `0` objects of the element width (the guard
of `rec_alloc` asks for `nmemb == 0 && size == 0`, and the width is never
zero), stores the allocator's answer in the caller's buffer-pointer slot, and
when that answer is null latches the error and returns `-1`; only when the
allocator hands out a block for zero bytes does the call return `8`. -/
theorem zero_count_allocates (T : Char) (tyT : ctype) (E : Char) (ty : ctype)
    (hT : (T, tyT) ∈ int_codes) (hE : (E, ty) ∈ int_codes) (w : World) (hscript : w.script = [])
    (tail : List Nat) (hin : w.input = [0, 0, 0, 0, 0, 0, 0, 0] ++ tail) (pp : Nat)
    (hpp : pp ≠ NULL) (v : Int) (ap : List varg) :
    vunpack w ['=', T, E] (varg.int v :: varg.ptr pp :: ap) = Except.ok
      { value := if w.alloc w.nalloc 0 ty.size = NULL then -1 else 8,
        st := { ret := 8, err := decide (w.alloc w.nalloc 0 ty.size = NULL) },
        unknown := false, ap := ap,
        world := { w with
          cell := 0
          input := tail
          mem := store w.mem pp (leBytes 8 (w.alloc w.nalloc 0 ty.size))
          nalloc := w.nalloc + 1
          trace := w.trace ++
            [event.io 8 8 false, event.alloc 0 ty.size (w.alloc w.nalloc 0 ty.size)] } } := by
  obtain ⟨vty, hval⟩ := int_codes_val T tyT hT
  obtain ⟨-, -, -, harr, hsz⟩ := int_codes_facts E ty hE
  have hr : rec_io { ret := 0, err := false } iofunc.read { w with cell := 0 } Ptr.cell
      SIZEOF_SIZE_T = _ :=
    rec_read_cell_ideal { ret := 0, err := false } w 0 tail rfl hscript (by decide) hin
  have hguard : ¬ ((0 : Nat) = 0 ∧ ty.size = 0) := by omega
  have hne : ¬ ty.size = 0 := by omega
  have hsw : vunpack_switch '=' (T :: E :: []) { ret := 0, err := false } w
      (varg.int v :: varg.ptr pp :: ap) = Except.ok
        ({ ret := 8, err := decide (w.alloc w.nalloc 0 ty.size = NULL) },
          { w with
            cell := 0
            input := tail
            mem := store w.mem pp (leBytes 8 (w.alloc w.nalloc 0 ty.size))
            nalloc := w.nalloc + 1
            trace := w.trace ++
              [event.io 8 8 false, event.alloc 0 ty.size (w.alloc w.nalloc 0 ty.size)] },
          ap, false) := by
    simp only [vunpack_switch, (array_group '=' (Or.inl rfl)).2.2.1 rfl, fmt_at_cons_zero,
      fmt_at_cons_one, hval, harr, pop_arg, pop_arr, hpp, if_false, bind, Except.bind, hr,
      rec_read, rec_alloc, Bool.false_eq_true, false_or, hguard, Nat.zero_mul, Nat.zero_mod,
      show sane_size 0 = true from rfl, if_true, calloc, zero_fill_zero, ite_self, pure,
      Except.pure, rec_io_zero]
    by_cases hp : w.alloc w.nalloc 0 ty.size = NULL
    · simp [hp, hne]
    · simp [hp, hne]
  unfold vunpack
  simp only [directive_loop, show ('=' : Char) ≠ Char.ofNat 0 from by decide, if_false, hsw,
    (array_group '=' (Or.inl rfl)).2.1, if_true]
  by_cases hp : w.alloc w.nalloc 0 ty.size = NULL
  · simp [hp, finish]
  · simp [hp, finish]

/-- Witness for C6: `=zc` with the count field zero and an allocator that
answers a request for zero bytes with null: `vunpack` returns `-1`. -/
theorem zero_count_allocates_witness :
    ∃ r, vunpack (World.init (fun _ => 0) [0, 0, 0, 0, 0, 0, 0, 0] (fun _ _ _ => 0))
        ['=', 'z', 'c'] [varg.int 0, varg.ptr 12288] = Except.ok r ∧ r.value = -1 ∧
      r.world.trace = [event.io 8 8 false, event.alloc 0 1 0] :=
  ⟨_, zero_count_allocates 'z' c_size_t 'c' c_char (by decide) (by decide)
    (World.init (fun _ => 0) [0, 0, 0, 0, 0, 0, 0, 0] (fun _ _ _ => 0)) rfl [] rfl 12288
    (by decide) 0 [], rfl, rfl⟩

/-- C2 (the code against the claim): the byte total is not the number of bytes
transferred when a transfer of `SIZE_MAX` bytes fails.  `vpack` with `=ic`,
the count `-1` (which converts to `SIZE_MAX`) and a buffer, on a sink that
accepts the eight bytes of the count and then fails hard (`-1`, not
interrupted): `rec_io` compares `(size_t) ret` with `size`, takes the failure
for a complete transfer and adds `-1`, so the call returns `7` with no error
latched, although eight bytes were written. -/
theorem byte_accounting_collision :
    ∃ r, vpack
        { World.init (store (fun _ => 0) 12288 (leBytes 8 8192)) [] (fun _ _ _ => 0) with
          script := [⟨8, false⟩, ⟨-1, false⟩] }
        ['=', 'i', 'c'] [varg.int (-1), varg.ptr 12288] = Except.ok r ∧
      r.value = 7 ∧ r.st.err = false ∧ r.unknown = false ∧
      r.world.trace = [event.io 8 8 false, event.io 18446744073709551615 (-1) false] ∧
      r.world.output = [255, 255, 255, 255, 255, 255, 255, 255] :=
  ⟨_, rfl, rfl, rfl, rfl, rfl, rfl⟩

theorem strlen_from_spec (m : Nat → Nat) (p : Nat) (n : Nat)
    (h1 : ∀ i, i < n → m (p + i) % 256 ≠ 0) (h2 : m (p + n) % 256 = 0) :
    ∀ fuel k, k ≤ n → n < k + fuel → strlen_from m p fuel k = Except.ok n := by
  intro fuel
  induction fuel with
  | zero => intro k hk hn; omega
  | succ f ih =>
    intro k hk hn
    simp only [strlen_from]
    by_cases hkn : k = n
    · subst hkn
      rw [if_pos h2]
    · rw [if_neg (h1 k (by omega))]
      exact ih (k + 1) (by omega) (by omega)

theorem strlen_spec (m : Nat → Nat) (p : Nat) (n : Nat) (hp : p ≠ NULL)
    (hn : n + 1 < SIZE_MOD) (hstr : is_cstring m p n) : strlen m p = Except.ok n := by
  simp only [strlen, hp, if_false]
  exact strlen_from_spec m p n hstr.1 hstr.2 _ 0 (by omega) (by omega)

/-- The `switch` of `vpack` on `s`, device accepting all bytes. -/
theorem vpack_switch_string (rest : List Char) (st : state) (w : World) (pp : Nat)
    (ap : List varg) (n : Nat) (hpp : pp ≠ NULL) (hb : leVal (load w.mem pp 8) ≠ NULL)
    (hn : n + 1 < SIZE_MOD) (hstr : is_cstring w.mem (leVal (load w.mem pp 8)) n)
    (he : st.err = false) (hs : w.script = []) :
    vpack_switch 's' rest st w (varg.ptr pp :: ap) = Except.ok
      ({ ret := st.ret + 8 + (n + 1 : Nat), err := false },
        { w with cell := n + 1
                 output := w.output ++ leBytes 8 (n + 1) ++
                   load w.mem (leVal (load w.mem pp 8)) (n + 1)
                 trace := w.trace ++ [event.io 8 8 false, event.io (n + 1) (n + 1) false] },
        ap, false) := by
  have h1 : rec_io st iofunc.write { w with cell := n + 1 } Ptr.cell SIZEOF_SIZE_T = _ :=
    rec_write_cell_ideal st w (n + 1) he hs
  have h2 := rec_write_ideal { ret := st.ret + 8, err := false }
    { w with cell := n + 1
             output := w.output ++ leBytes 8 (n + 1)
             trace := w.trace ++ [event.io 8 8 false] }
    (Ptr.mem (leVal (load w.mem pp 8))) (n + 1) rfl hs (by simpa [Ptr.isNull] using hb)
    (by omega) hn
  simp only [rec_write] at h2
  simp only [vpack_switch, show (tcode.of 's').group = group.string from by decide,
    show ∀ m a ap, arg_arr m a ap 's' = pop_arr m c_char ap from fun _ _ _ => rfl, pop_arr,
    hpp, if_false, bind, Except.bind, strlen_spec w.mem _ n hb hn hstr,
    Nat.mod_eq_of_lt hn, rec_write, h1, h2, pure, Except.pure, World.loadp]
  simp [List.append_assoc]

/-- A request within the ceiling: `calloc` is called and its answer stored in
the slot. -/
theorem rec_alloc_within (st : state) (a : arg) (w : World) (n sz : Nat) (he : st.err = false)
    (hpp : a.pptr ≠ NULL) (hpos : ¬ (n = 0 ∧ sz = 0)) (hle : n * sz ≤ 16777216) :
    rec_alloc st a w n sz = Except.ok
      (if w.alloc w.nalloc n sz = NULL then { st with err := true } else st,
        { a with ptr := w.alloc w.nalloc n sz },
        { w with
          mem := store (if w.alloc w.nalloc n sz = NULL then w.mem
              else zero_fill w.mem (w.alloc w.nalloc n sz) (n * sz)) a.pptr
            (leBytes 8 (w.alloc w.nalloc n sz))
          nalloc := w.nalloc + 1
          trace := w.trace ++ [event.alloc n sz (w.alloc w.nalloc n sz)] }) := by
  have h0 : ¬ (st.err = true ∨ n = 0 ∧ sz = 0) := by
    rw [he]
    rintro (h | h)
    · cases h
    · exact hpos h
  have hsane : sane_size (n * sz % SIZE_MOD) = true := by
    rw [Nat.mod_eq_of_lt (by simp only [SIZE_MOD]; omega)]
    simpa [sane_size] using hle
  simp only [rec_alloc, h0, if_false, hsane, if_true, hpp, calloc]

/-- `rec_alloc` followed by the read of the data, for a request that is within
the ceiling and granted, on a device that holds the data. -/
theorem alloc_then_read (st1 : state) (a : arg) (w1 : World) (cnt sz : Nat)
    (data tail : List Nat) (he : st1.err = false) (hs : w1.script = [])
    (hin : w1.input = data ++ tail) (hlen : data.length = cnt * sz) (hpos : 0 < cnt * sz)
    (hle : cnt * sz ≤ 16777216) (hpp : a.pptr ≠ NULL)
    (hp : w1.alloc w1.nalloc cnt sz ≠ NULL) :
    rec_alloc st1 a w1 cnt sz = Except.ok
      (st1, { a with ptr := w1.alloc w1.nalloc cnt sz },
        { w1 with
          mem := store (zero_fill w1.mem (w1.alloc w1.nalloc cnt sz) (cnt * sz)) a.pptr
            (leBytes 8 (w1.alloc w1.nalloc cnt sz))
          nalloc := w1.nalloc + 1
          trace := w1.trace ++ [event.alloc cnt sz (w1.alloc w1.nalloc cnt sz)] }) ∧
    rec_io st1 iofunc.read
        { w1 with
          mem := store (zero_fill w1.mem (w1.alloc w1.nalloc cnt sz) (cnt * sz)) a.pptr
            (leBytes 8 (w1.alloc w1.nalloc cnt sz))
          nalloc := w1.nalloc + 1
          trace := w1.trace ++ [event.alloc cnt sz (w1.alloc w1.nalloc cnt sz)] }
        (Ptr.mem (w1.alloc w1.nalloc cnt sz)) (cnt * sz % SIZE_MOD) =
      ({ ret := st1.ret + (cnt * sz : Nat), err := false },
        { w1 with
          mem := store (store (zero_fill w1.mem (w1.alloc w1.nalloc cnt sz) (cnt * sz)) a.pptr
            (leBytes 8 (w1.alloc w1.nalloc cnt sz))) (w1.alloc w1.nalloc cnt sz) data
          input := tail
          nalloc := w1.nalloc + 1
          trace := w1.trace ++ [event.alloc cnt sz (w1.alloc w1.nalloc cnt sz),
            event.io (cnt * sz) (cnt * sz) false] }) := by
  have hlt : cnt * sz < SIZE_MOD := by simp only [SIZE_MOD]; omega
  constructor
  · rw [rec_alloc_within st1 a w1 cnt sz he hpp (by rintro ⟨h, -⟩; rw [h] at hpos; omega) hle]
    simp only [hp, if_false]
  · rw [Nat.mod_eq_of_lt hlt]
    have h := rec_read_ideal st1
      { w1 with
        mem := store (zero_fill w1.mem (w1.alloc w1.nalloc cnt sz) (cnt * sz)) a.pptr
          (leBytes 8 (w1.alloc w1.nalloc cnt sz))
        nalloc := w1.nalloc + 1
        trace := w1.trace ++ [event.alloc cnt sz (w1.alloc w1.nalloc cnt sz)] }
      (Ptr.mem (w1.alloc w1.nalloc cnt sz)) (cnt * sz) data tail he hs
      (by simpa [Ptr.isNull] using hp) (by omega) hlt hin hlen
    simp only [rec_read] at h
    rw [h]
    simp [World.storep]

/-- The `switch` of `vunpack` on `s`, `=TE` and `*TE` when the request is
within the ceiling and granted and the device holds count and data. -/
theorem vunpack_switch_buffer (cnt sz : Nat) (w : World) (hscript : w.script = [])
    (data tail : List Nat) (hin : w.input = leBytes 8 cnt ++ (data ++ tail))
    (hlen : data.length = cnt * sz) (hpos : 0 < cnt * sz) (hle : cnt * sz ≤ 16777216)
    (hp : w.alloc w.nalloc cnt sz ≠ NULL) (pp : Nat) (hpp : pp ≠ NULL)
    (ap : List varg) (rest : List Char) (st : state) (he : st.err = false) :
    (sz = 1 →
      vunpack_switch 's' rest st w (varg.ptr pp :: ap) = Except.ok
        ({ ret := st.ret + 8 + (cnt * sz : Nat), err := false },
          unpacked w cnt sz pp data tail, ap, false)) ∧
    (∀ T tyT E ty v, (T, tyT) ∈ int_codes → (E, ty) ∈ int_codes → ty.size = sz →
      vunpack_switch '=' (T :: E :: rest) st w (varg.int v :: varg.ptr pp :: ap) = Except.ok
        ({ ret := st.ret + 8 + (cnt * sz : Nat), err := false },
          unpacked w cnt sz pp data tail, ap, false)) ∧
    (∀ T tyT E ty cp, (T, tyT) ∈ int_codes → (E, ty) ∈ int_codes → ty.size = sz → cp ≠ NULL →
      vunpack_switch '*' (T :: E :: rest) st w (varg.ptr cp :: varg.ptr pp :: ap) = Except.ok
        ({ ret := st.ret + 8 + (cnt * sz : Nat), err := false },
          { unpacked w cnt sz pp data tail with
            mem := store (unpacked w cnt sz pp data tail).mem cp (leBytes 8 cnt) },
          ap, false)) := by
  have hcnt : cnt < SIZE_MOD := by
    have : cnt ≤ cnt * sz := Nat.le_mul_of_pos_right cnt (Nat.pos_of_mul_pos_left hpos)
    simp only [SIZE_MOD]; omega
  have hr : rec_io st iofunc.read { w with cell := 0 } Ptr.cell SIZEOF_SIZE_T = _ :=
    rec_read_cell_ideal st w cnt (data ++ tail) he hscript hcnt hin
  have key : ∀ a : arg, a.pptr = pp → _ := fun a ha =>
    alloc_then_read { ret := st.ret + 8, err := false } a
      { w with cell := cnt, input := data ++ tail, trace := w.trace ++ [event.io 8 8 false] }
      cnt sz data tail rfl hscript rfl hlen hpos hle (by rw [ha]; exact hpp) hp
  refine ⟨fun hsz => ?_, fun T tyT E ty v hT hE hsz => ?_, fun T tyT E ty cp hT hE hsz hcp => ?_⟩
  · subst hsz
    obtain ⟨k1, k2⟩ := key
      { size := c_char.size, val := 0, ptr := leVal (load w.mem pp 8), pptr := pp } rfl
    simp only [Nat.mul_one] at k1 k2 ⊢
    rw [Nat.mod_eq_of_lt hcnt] at k2
    simp only [vunpack_switch, show (tcode.of 's').group = group.string from by decide,
      show ∀ m a ap, arg_arr m a ap 's' = pop_arr m c_char ap from fun _ _ _ => rfl, pop_arr,
      hpp, if_false, bind, Except.bind, hr, k1, rec_read, k2, pure, Except.pure, unpacked,
      Nat.mul_one]
    simp [add_assoc]
  · subst hsz
    obtain ⟨vty, hval⟩ := int_codes_val T tyT hT
    obtain ⟨-, -, -, harr, -⟩ := int_codes_facts E ty hE
    obtain ⟨k1, k2⟩ := key
      { size := ty.size, val := 0, ptr := leVal (load w.mem pp 8), pptr := pp } rfl
    simp only [vunpack_switch, (array_group '=' (Or.inl rfl)).2.2.1 rfl, fmt_at_cons_zero,
      fmt_at_cons_one, hval, harr, pop_arg, pop_arr, hpp, if_false, bind, Except.bind, hr, k1,
      rec_read, k2, pure, Except.pure, unpacked]
    simp [add_assoc]
  · subst hsz
    obtain ⟨-, -, hptr, -, -⟩ := int_codes_facts T tyT hT
    obtain ⟨-, -, -, harr, -⟩ := int_codes_facts E ty hE
    obtain ⟨k1, k2⟩ := key
      { size := ty.size, val := 0, ptr := leVal (load w.mem pp 8), pptr := pp } rfl
    simp only [vunpack_switch, (array_group '*' (Or.inr rfl)).2.2.2 rfl, fmt_at_cons_zero,
      fmt_at_cons_one, hptr, harr, pop_ptr, pop_arr, hpp, hcp, if_false, bind, Except.bind, hr,
      k1, rec_read, k2, store_count, pure, Except.pure, unpacked]
    simp [add_assoc, SIZEOF_SIZE_T]

theorem loop_single_ok (sw : switch_fn) (c : Char) (st st1 : state) (w w1 : World)
    (ap ap1 : List varg) (hc : c ≠ Char.ofNat 0)
    (hg : ¬ ((tcode.of c).group = group.array_val ∨ (tcode.of c).group = group.array_ptr))
    (h : sw c [] st w ap = Except.ok (st1, w1, ap1, false)) (he : st1.err = false) :
    directive_loop sw [c] st w ap = Except.ok
      { value := st1.ret, st := st1, unknown := false, world := w1, ap := ap1 } := by
  rw [loop_single sw c st st1 w w1 ap ap1 hc hg h]
  simp [finish, he]

/-- The case `s` of `vunpack` on a length field above the ceiling: the
allocator is not called, null is stored in the slot and the error latched. -/
theorem vunpack_switch_string_over (s : Nat) (hs : s < SIZE_MOD) (hover : 16777216 < s)
    (w : World) (hscript : w.script = []) (tail : List Nat)
    (hin : w.input = leBytes 8 s ++ tail) (pp : Nat) (hpp : pp ≠ NULL) (ap : List varg)
    (rest : List Char) (st : state) (he : st.err = false) :
    ∃ w2, vunpack_switch 's' rest st w (varg.ptr pp :: ap) =
        Except.ok ({ ret := st.ret + 8, err := true }, w2, ap, false) ∧
      w2.mem = store w.mem pp (leBytes 8 0) ∧ w2.input = tail := by
  have hr : rec_io st iofunc.read { w with cell := 0 } Ptr.cell SIZEOF_SIZE_T = _ :=
    rec_read_cell_ideal st w s tail he hscript hs hin
  obtain ⟨w2, h1, h2, h3, -⟩ := rec_alloc_over { ret := st.ret + 8, err := false }
    { size := c_char.size, val := 0, ptr := leVal (load w.mem pp 8), pptr := pp }
    { w with cell := s, input := tail, trace := w.trace ++ [event.io 8 8 false] } s 1 rfl hpp
    (by omega) (fun k hk => absurd hk (by omega))
  refine ⟨w2, ?_, h2, h3⟩
  simp only [vunpack_switch, show (tcode.of 's').group = group.string from by decide,
    show ∀ m a ap, arg_arr m a ap 's' = pop_arr m c_char ap from fun _ _ _ => rfl, pop_arr,
    hpp, if_false, bind, Except.bind, hr, h1, pure, Except.pure, rec_read, rec_io_err]

/-- C11 as the code has it, string wire format: for every NUL-terminated
string of byte-length `n` (with `n + 1 < 2^64`, as for every string in the
address space), `vpack` with the format `s` on a sink that accepts all bytes
writes a size-width length field equal to `n + 1` followed by the `n` content
bytes and the terminator, and returns `8 + n + 1`.  On a source that holds
these bytes: when `n + 1` is at most 16 MiB and the allocator grants the
request, `vunpack` with `s` asks the allocator for exactly `n + 1` bytes,
fills the block with the same `n + 1` bytes, stores its address in the
caller's slot and returns the same count; when `n + 1` is above 16 MiB,
`vunpack` returns `-1` with the error latched, null in the caller's slot and
the string bytes unread. -/
theorem string_wire_format (n : Nat) (hn : n + 1 < SIZE_MOD) (wp : World)
    (hsink : wp.script = []) (pp : Nat) (hpp : pp ≠ NULL)
    (hb : leVal (load wp.mem pp 8) ≠ NULL)
    (hstr : is_cstring wp.mem (leVal (load wp.mem pp 8)) n) :
    vpack wp ['s'] [varg.ptr pp] = Except.ok
      { value := 8 + (n + 1 : Nat), st := { ret := 8 + (n + 1 : Nat), err := false },
        unknown := false, ap := [],
        world := { wp with
          cell := n + 1
          output := wp.output ++ leBytes 8 (n + 1) ++
            load wp.mem (leVal (load wp.mem pp 8)) (n + 1)
          trace := wp.trace ++ [event.io 8 8 false, event.io (n + 1) (n + 1) false] } } ∧
    ∀ (wu : World) (tail : List Nat) (qq : Nat), wu.script = [] →
      wu.input =
        leBytes 8 (n + 1) ++ (load wp.mem (leVal (load wp.mem pp 8)) (n + 1) ++ tail) →
      qq ≠ NULL →
      (n + 1 ≤ 16777216 → wu.alloc wu.nalloc (n + 1) 1 ≠ NULL →
        vunpack wu ['s'] [varg.ptr qq] = Except.ok
          { value := 8 + (n + 1 : Nat), st := { ret := 8 + (n + 1 : Nat), err := false },
            unknown := false, ap := [],
            world := unpacked wu (n + 1) 1 qq (load wp.mem (leVal (load wp.mem pp 8)) (n + 1))
              tail } ∧
        load (unpacked wu (n + 1) 1 qq (load wp.mem (leVal (load wp.mem pp 8)) (n + 1))
            tail).mem (wu.alloc wu.nalloc (n + 1) 1) (n + 1) =
          load wp.mem (leVal (load wp.mem pp 8)) (n + 1) ∧
        (qq + 8 ≤ wu.alloc wu.nalloc (n + 1) 1 ∨ wu.alloc wu.nalloc (n + 1) 1 + (n + 1) ≤ qq →
          load (unpacked wu (n + 1) 1 qq (load wp.mem (leVal (load wp.mem pp 8)) (n + 1))
              tail).mem qq 8 = leBytes 8 (wu.alloc wu.nalloc (n + 1) 1))) ∧
      (16777216 < n + 1 →
        ∃ r, vunpack wu ['s'] [varg.ptr qq] = Except.ok r ∧
          refused r [] (load wp.mem (leVal (load wp.mem pp 8)) (n + 1) ++ tail)
            (store wu.mem qq (leBytes 8 0))) := by
  have hg : ¬ ((tcode.of 's').group = group.array_val ∨
      (tcode.of 's').group = group.array_ptr) := by decide
  have hlen : (load wp.mem (leVal (load wp.mem pp 8)) (n + 1)).length = (n + 1) * 1 := by
    rw [load_length, Nat.mul_one]
  refine ⟨?_, fun wu tail qq hsrc hin hqq => ⟨fun hle hgrant => ⟨?_, ?_, ?_⟩, fun hover => ?_⟩⟩
  · unfold vpack
    rw [loop_single_ok _ 's' _ _ wp _ _ _ (by decide) hg
      (vpack_switch_string [] _ wp pp [] n hpp hb hn hstr rfl hsink) rfl]
    simp
  · unfold vunpack
    rw [loop_single_ok _ 's' _ _ wu _ _ _ (by decide) hg
      ((vunpack_switch_buffer (n + 1) 1 wu hsrc _ tail hin hlen (by omega) (by omega) hgrant qq
        hqq [] [] _ rfl).1 rfl) rfl]
    simp
  · have := load_store_same
      (store (zero_fill wu.mem (wu.alloc wu.nalloc (n + 1) 1) ((n + 1) * 1)) qq
        (leBytes 8 (wu.alloc wu.nalloc (n + 1) 1))) (wu.alloc wu.nalloc (n + 1) 1)
      (load wp.mem (leVal (load wp.mem pp 8)) (n + 1))
    rw [load_length] at this
    exact this
  · intro hdis
    simp only [unpacked]
    have hl := load_length wp.mem (leVal (load wp.mem pp 8)) (n + 1)
    rw [load_store_disjoint _ _ _ _ _ (by omega)]
    have := load_store_same (zero_fill wu.mem (wu.alloc wu.nalloc (n + 1) 1) ((n + 1) * 1)) qq
      (leBytes 8 (wu.alloc wu.nalloc (n + 1) 1))
    rw [leBytes_length] at this
    exact this
  · obtain ⟨w2, k1, k2, k3⟩ := vunpack_switch_string_over (n + 1) hn hover wu hsrc _ hin qq hqq
      [] [] { ret := 0, err := false } rfl
    exact ⟨_, loop_break _ 's' [] _ wu _ _ w2 [] (by decide) k1 rfl,
      finish_refused { ret := 0, err := false } w2 [] _ _ (by decide) k2 k3⟩

/-- Witness for the amended C11: `hello` gives the length field 6 and the six
bytes `h e l l o NUL`, and unpacks into a block of six bytes. -/
theorem string_wire_format_witness :
    vpack (World.init (store (store (fun _ => 0) 8192 [104, 101, 108, 108, 111, 0]) 12288
        (leBytes 8 8192)) [] (fun _ _ _ => 0)) ['s'] [varg.ptr 12288] = Except.ok
      { value := 14, st := { ret := 14, err := false }, unknown := false, ap := [],
        world := { World.init (store (store (fun _ => 0) 8192 [104, 101, 108, 108, 111, 0]) 12288
            (leBytes 8 8192)) [] (fun _ _ _ => 0) with
          cell := 6
          output := [6, 0, 0, 0, 0, 0, 0, 0, 104, 101, 108, 108, 111, 0]
          trace := [event.io 8 8 false, event.io 6 6 false] } } ∧
    vunpack (World.init (fun _ => 0) [6, 0, 0, 0, 0, 0, 0, 0, 104, 101, 108, 108, 111, 0]
        (fun _ _ _ => 36864)) ['s'] [varg.ptr 20480] = Except.ok
      { value := 14, st := { ret := 14, err := false }, unknown := false, ap := [],
        world := unpacked (World.init (fun _ => 0)
          [6, 0, 0, 0, 0, 0, 0, 0, 104, 101, 108, 108, 111, 0] (fun _ _ _ => 36864)) 6 1 20480
          [104, 101, 108, 108, 111, 0] [] } := by
  have h := string_wire_format 5 (by decide)
    (World.init (store (store (fun _ => 0) 8192 [104, 101, 108, 108, 111, 0]) 12288
      (leBytes 8 8192)) [] (fun _ _ _ => 0)) rfl 12288 (by decide) (by decide) (by decide)
  exact ⟨h.1, ((h.2 (World.init (fun _ => 0)
    [6, 0, 0, 0, 0, 0, 0, 0, 104, 101, 108, 108, 111, 0] (fun _ _ _ => 36864)) [] 20480 rfl
    (by decide) (by decide)).1 (by decide) (by decide)).1⟩

theorem long_string_ptr : leVal (load long_string_mem 4096 8) = 8192 := by decide

theorem long_string_is : is_cstring long_string_mem 8192 16777216 := by
  constructor
  · intro i hi
    have h1 : long_string_mem (8192 + i) = 65 := by
      unfold long_string_mem
      rw [store_outside _ _ _ _ (Or.inr (by rw [leBytes_length]; omega))]
      rw [if_pos ⟨by omega, by omega⟩]
    rw [h1]
    decide
  · have h1 : long_string_mem (8192 + 16777216) = 0 := by
      unfold long_string_mem
      rw [store_outside _ _ _ _ (Or.inr (by rw [leBytes_length]; omega))]
      rw [if_neg (by omega)]
    rw [h1]

theorem granting_refuses (k n sz : Nat) (h : SIZE_MOD ≤ n * sz) : granting k n sz = NULL := by
  simp only [granting]
  rw [if_neg (by omega)]

/-- Counterexample to C11 as stated: a string of 16777216 bytes.  `vpack`
writes the length field 16777217 and the bytes and returns 16777225; `vunpack`
on that stream, with an allocator that would grant the request, returns `-1`:
the request is above the ceiling. -/
theorem string_wire_format_counterexample :
    ∃ rp ru, vpack (World.init long_string_mem [] granting) ['s'] [varg.ptr 4096] =
        Except.ok rp ∧
      rp.value = 16777225 ∧ rp.st.err = false ∧
      vunpack (World.init (fun _ => 0) rp.world.output granting) ['s'] [varg.ptr 12288] =
        Except.ok ru ∧
      ru.value = -1 := by
  have hg : ¬ ((tcode.of 's').group = group.array_val ∨
      (tcode.of 's').group = group.array_ptr) := by decide
  have hp := loop_single_ok vpack_switch 's' { ret := 0, err := false } _
    (World.init long_string_mem [] granting) _ _ _ (by decide) hg
    (vpack_switch_string [] _ (World.init long_string_mem [] granting) 4096 [] 16777216
      (by decide)
      (by show leVal (load long_string_mem 4096 8) ≠ NULL; rw [long_string_ptr]; decide)
      (by decide)
      (by show is_cstring long_string_mem (leVal (load long_string_mem 4096 8)) 16777216
          rw [long_string_ptr]; exact long_string_is) rfl rfl) rfl
  have hin : (World.init (fun _ => 0)
      ([] ++ leBytes 8 (16777216 + 1) ++
        load long_string_mem (leVal (load long_string_mem 4096 8)) (16777216 + 1))
      granting).input = leBytes 8 16777217 ++
        (load long_string_mem (leVal (load long_string_mem 4096 8)) (16777216 + 1)) := by
    simp only [World.init, List.nil_append]
  obtain ⟨w2, k1, -, -⟩ := (vunpack_switch_over 16777217 (by decide)
    (World.init (fun _ => 0)
      ([] ++ leBytes 8 (16777216 + 1) ++
        load long_string_mem (leVal (load long_string_mem 4096 8)) (16777216 + 1))
      granting) rfl _ hin (fun k n sz h => granting_refuses k n sz h) 12288 (by decide) [] []
    { ret := 0, err := false } rfl).1 (by decide)
  have hu := loop_break vunpack_switch 's' [] _ _ _ _ w2 [] (by decide) k1 rfl
  exact ⟨_, _, hp, rfl, rfl, hu, rfl⟩

/-- A write from memory on a device that accepts all bytes; size zero is no
call at all. -/
theorem rec_write_mem_ideal (st : state) (w : World) (b size : Nat) (he : st.err = false)
    (hs : w.script = []) (hb : b ≠ NULL) (hlt : size < SIZE_MOD) :
    rec_write st w (Ptr.mem b) size =
      ({ ret := st.ret + size, err := false },
        { w with output := w.output ++ load w.mem b size
                 trace := w.trace ++ if size = 0 then [] else [event.io size size false] }) := by
  by_cases h0 : size = 0
  · subst h0
    simp only [rec_write, rec_io_zero]
    cases st
    simp only at he
    simp [he, load]
  · rw [rec_write_ideal st w (Ptr.mem b) size he hs (by simpa [Ptr.isNull] using hb) h0 hlt]
    simp [h0, World.loadp]

/-- The count popped by value for the code `T` is the count the caller
passed. -/
theorem arg_val_count (T : Char) (tyT : ctype) (hT : (T, tyT) ∈ int_codes) (n : Nat)
    (hrep : tyT.in_range n) (a : arg) (ap : List varg) :
    ∃ sz, arg_val a (varg.int n :: ap) T =
      Except.ok ({ size := sz, val := n, ptr := NULL, pptr := NULL }, ap) := by
  obtain ⟨vty, h1, h2⟩ := int_codes_count T tyT hT
  exact ⟨vty.size, by rw [h1]; simp only [pop_arg, h2 n hrep]⟩

/-- The count popped through a pointer for the code `T` is the count the
object holds. -/
theorem arg_ptr_count (T : Char) (tyT : ctype) (hT : (T, tyT) ∈ int_codes) (n : Nat)
    (hrep : tyT.in_range n) (m : Nat → Nat) (cp : Nat) (hcp : cp ≠ NULL)
    (hobj : load m cp tyT.size = tyT.repr n) (a : arg) (ap : List varg) :
    arg_ptr m a (varg.ptr cp :: ap) T =
      Except.ok ({ size := tyT.size, val := n, ptr := cp, pptr := NULL }, ap) := by
  obtain ⟨-, -, hptr, -, hsz⟩ := int_codes_facts T tyT hT
  rw [hptr]
  simp only [pop_ptr, hcp, if_false, read_repr tyT hsz n hrep m cp hobj,
    to_uintmax_nat n (in_range_nat tyT hsz n hrep)]

/-- The `switch` of `vpack` on `=TE` or `*TE` once the count binder has
produced the count `n`: device accepting all bytes, buffer not null. -/
theorem vpack_switch_array (c T E : Char) (ty : ctype) (hc : c = '=' ∨ c = '*')
    (hE : (E, ty) ∈ int_codes) (rest : List Char) (st : state) (w : World)
    (ap0 ap : List varg) (arg0 : arg) (n pp : Nat)
    (hb : (if c = '=' then arg_val arg.zero ap0 T else arg_ptr w.mem arg.zero ap0 T) =
      Except.ok (arg0, varg.ptr pp :: ap))
    (hval : arg0.val = n) (hpp : pp ≠ NULL) (hbuf : leVal (load w.mem pp 8) ≠ NULL)
    (hprod : n * ty.size < SIZE_MOD) (he : st.err = false) (hs : w.script = []) :
    vpack_switch c (T :: E :: rest) st w ap0 = Except.ok
      ({ ret := st.ret + 8 + (n * ty.size : Nat), err := false },
        { w with
          cell := n
          output := w.output ++ leBytes 8 n ++ load w.mem (leVal (load w.mem pp 8)) (n * ty.size)
          trace := w.trace ++ [event.io 8 8 false] ++
            if n * ty.size = 0 then [] else [event.io (n * ty.size) (n * ty.size) false] },
        ap, false) := by
  obtain ⟨-, -, -, harr, -⟩ := int_codes_facts E ty hE
  have h1 : rec_io st iofunc.write { w with cell := n } Ptr.cell SIZEOF_SIZE_T = _ :=
    rec_write_cell_ideal st w n he hs
  have h2 := rec_write_mem_ideal { ret := st.ret + 8, err := false }
    { w with cell := n
             output := w.output ++ leBytes 8 n
             trace := w.trace ++ [event.io 8 8 false] }
    (leVal (load w.mem pp 8)) (n * ty.size) rfl hs hbuf hprod
  simp only [rec_write] at h2
  rcases hc with rfl | rfl
  · simp only [if_true] at hb
    simp only [vpack_switch, (array_group '=' (Or.inl rfl)).2.2.1 rfl, fmt_at_cons_zero,
      fmt_at_cons_one, hb, harr, pop_arr, hpp, if_false, bind, Except.bind, hval, rec_write, h1,
      Nat.mod_eq_of_lt hprod, h2, pure, Except.pure]
    simp [add_assoc]
  · have hne : ¬ ('*' = '=') := by decide
    simp only [hne, if_false] at hb
    simp only [vpack_switch, (array_group '*' (Or.inr rfl)).2.2.2 rfl, fmt_at_cons_zero,
      fmt_at_cons_one, hb, harr, pop_arr, hpp, if_false, bind, Except.bind, hval, rec_write, h1,
      Nat.mod_eq_of_lt hprod, h2, pure, Except.pure]
    simp [add_assoc]

theorem loop_array_ok (sw : switch_fn) (c T E : Char) (st st1 : state) (w w1 : World)
    (ap ap1 : List varg) (hc : c = '=' ∨ c = '*')
    (h : sw c (T :: E :: []) st w ap = Except.ok (st1, w1, ap1, false))
    (he : st1.err = false) :
    directive_loop sw [c, T, E] st w ap = Except.ok
      { value := st1.ret, st := st1, unknown := false, world := w1, ap := ap1 } := by
  rw [loop_array_step sw c T E [] st st1 w w1 ap ap1 hc h he]
  simp [directive_loop, finish, he]

/-- C12, array wire format on pack: for every count type code `T` and element
type code `E` among the integer codes, every non-negative count `n`
representable in the type of `T` with `n * width(E) < 2^64`, and every
non-null buffer (its address held by the slot `pp`), `vpack` with `=TE`,
the count passed by value, and with `*TE`, the count held by the object at
`cp`, on a sink that accepts all bytes write a size-width field equal to `n`,
whatever the width of `T`, followed by exactly the `n * width(E)` bytes of the
buffer, `width(E)` being the exact width of the element type (1 for `c`/`C`,
2 for `h`/`H`); both return `8 + n * width(E)` and leave the same world, so
they write identical bytes. -/
theorem array_wire_format (T : Char) (tyT : ctype) (E : Char) (ty : ctype)
    (hT : (T, tyT) ∈ int_codes) (hE : (E, ty) ∈ int_codes) (n : Nat) (hrep : tyT.in_range n)
    (hprod : n * ty.size < SIZE_MOD) (w : World) (hs : w.script = []) (pp : Nat)
    (hpp : pp ≠ NULL) (hbuf : leVal (load w.mem pp 8) ≠ NULL) (cp : Nat) (hcp : cp ≠ NULL)
    (hobj : load w.mem cp tyT.size = tyT.repr n) :
    vpack w ['=', T, E] [varg.int n, varg.ptr pp] = Except.ok
      { value := 8 + (n * ty.size : Nat), st := { ret := 8 + (n * ty.size : Nat), err := false },
        unknown := false, ap := [],
        world := { w with
          cell := n
          output := w.output ++ leBytes 8 n ++ load w.mem (leVal (load w.mem pp 8)) (n * ty.size)
          trace := w.trace ++ [event.io 8 8 false] ++
            if n * ty.size = 0 then [] else [event.io (n * ty.size) (n * ty.size) false] } } ∧
    vpack w ['*', T, E] [varg.ptr cp, varg.ptr pp] = Except.ok
      { value := 8 + (n * ty.size : Nat), st := { ret := 8 + (n * ty.size : Nat), err := false },
        unknown := false, ap := [],
        world := { w with
          cell := n
          output := w.output ++ leBytes 8 n ++ load w.mem (leVal (load w.mem pp 8)) (n * ty.size)
          trace := w.trace ++ [event.io 8 8 false] ++
            if n * ty.size = 0 then [] else [event.io (n * ty.size) (n * ty.size) false] } } ∧
    (ty.size = 1 ∨ ty.size = 2 ∨ ty.size = 4 ∨ ty.size = 8) := by
  obtain ⟨sz, hval⟩ := arg_val_count T tyT hT n hrep arg.zero [varg.ptr pp]
  have hptr := arg_ptr_count T tyT hT n hrep w.mem cp hcp hobj arg.zero [varg.ptr pp]
  refine ⟨?_, ?_, (int_codes_facts E ty hE).2.2.2.2⟩
  · unfold vpack
    rw [loop_array_ok _ '=' T E _ _ w _ _ _ (Or.inl rfl)
      (vpack_switch_array '=' T E ty (Or.inl rfl) hE [] _ w _ [] _ n pp
        (by rw [if_pos rfl]; exact hval) rfl hpp hbuf hprod rfl hs) rfl]
    simp
  · unfold vpack
    rw [loop_array_ok _ '*' T E _ _ w _ _ _ (Or.inr rfl)
      (vpack_switch_array '*' T E ty (Or.inr rfl) hE [] _ w _ [] _ n pp
        (by rw [if_neg (by decide)]; exact hptr) rfl hpp hbuf hprod rfl hs) rfl]
    simp

/-- Witness for C12: `=ic` and `*ic` with the count 3 and the buffer `a b c`
write the count field 3 and the three bytes. -/
theorem array_wire_format_witness :
    ∃ r, vpack (World.init (store (store (store (fun _ => 0) 4096 [3, 0, 0, 0]) 8192
          [97, 98, 99]) 12288 (leBytes 8 8192)) [] (fun _ _ _ => 0))
        ['=', 'i', 'c'] [varg.int 3, varg.ptr 12288] = Except.ok r ∧
      vpack (World.init (store (store (store (fun _ => 0) 4096 [3, 0, 0, 0]) 8192
          [97, 98, 99]) 12288 (leBytes 8 8192)) [] (fun _ _ _ => 0))
        ['*', 'i', 'c'] [varg.ptr 4096, varg.ptr 12288] = Except.ok r ∧
      r.value = 11 ∧ r.world.output = [3, 0, 0, 0, 0, 0, 0, 0, 97, 98, 99] := by
  have h := array_wire_format 'i' c_int 'c' c_char (by decide) (by decide) 3 (by decide)
    (by decide)
    (World.init (store (store (store (fun _ => 0) 4096 [3, 0, 0, 0]) 8192
      [97, 98, 99]) 12288 (leBytes 8 8192)) [] (fun _ _ _ => 0)) rfl 12288 (by decide)
    (by decide) 4096 (by decide) (by decide)
  exact ⟨_, h.1, h.2.1, by decide, by decide⟩

/-- C13, discovered count on unpack: for every element type code `E` (width
`ty.size`), every count `n` with `0 < n * width <= 16 MiB` and every source
holding the size-width count `n` followed by `n * width` bytes `data`, when the
allocator grants the request with the block `p`: `vunpack` with `*TE` asks the
allocator for `n` elements of `width` bytes, fills the block with exactly the
bytes `data`, stores `p` in the caller's buffer slot `pp`, stores `n`,
`size_t` wide, through the count pointer `cp` and returns `8 + n * width`;
`vunpack` with `=TE` on the same stream, whatever count `v` the caller
supplies, returns the same value and leaves the same world but for the store
through the count pointer: `v` is used neither for the allocation nor as a
target.  `T` is any integer type code; for `T = z` the count slot is exactly
the `size_t` that is stored. -/
theorem discovered_count (T : Char) (tyT : ctype) (E : Char) (ty : ctype)
    (hT : (T, tyT) ∈ int_codes) (hE : (E, ty) ∈ int_codes) (n : Nat) (hpos : 0 < n * ty.size)
    (hle : n * ty.size ≤ 16777216) (wu : World) (hsrc : wu.script = [])
    (data tail : List Nat) (hin : wu.input = leBytes 8 n ++ (data ++ tail))
    (hlen : data.length = n * ty.size) (hgrant : wu.alloc wu.nalloc n ty.size ≠ NULL)
    (cp pp : Nat) (hcp : cp ≠ NULL) (hpp : pp ≠ NULL) (v : Int) :
    vunpack wu ['*', T, E] [varg.ptr cp, varg.ptr pp] = Except.ok
      { value := 8 + (n * ty.size : Nat), st := { ret := 8 + (n * ty.size : Nat), err := false },
        unknown := false, ap := [],
        world := { unpacked wu n ty.size pp data tail with
          mem := store (unpacked wu n ty.size pp data tail).mem cp (leBytes 8 n) } } ∧
    vunpack wu ['=', T, E] [varg.int v, varg.ptr pp] = Except.ok
      { value := 8 + (n * ty.size : Nat), st := { ret := 8 + (n * ty.size : Nat), err := false },
        unknown := false, ap := [], world := unpacked wu n ty.size pp data tail } ∧
    (unpacked wu n ty.size pp data tail).trace = wu.trace ++
      [event.io 8 8 false, event.alloc n ty.size (wu.alloc wu.nalloc n ty.size),
        event.io (n * ty.size) (n * ty.size) false] ∧
    load (unpacked wu n ty.size pp data tail).mem (wu.alloc wu.nalloc n ty.size) (n * ty.size) =
      data ∧
    (pp + 8 ≤ wu.alloc wu.nalloc n ty.size ∨ wu.alloc wu.nalloc n ty.size + n * ty.size ≤ pp →
      load (unpacked wu n ty.size pp data tail).mem pp 8 =
        leBytes 8 (wu.alloc wu.nalloc n ty.size)) ∧
    load (store (unpacked wu n ty.size pp data tail).mem cp (leBytes 8 n)) cp 8 = leBytes 8 n ∧
    (cp + 8 ≤ wu.alloc wu.nalloc n ty.size ∨ wu.alloc wu.nalloc n ty.size + n * ty.size ≤ cp →
      load (store (unpacked wu n ty.size pp data tail).mem cp (leBytes 8 n))
        (wu.alloc wu.nalloc n ty.size) (n * ty.size) = data) ∧
    (cp + 8 ≤ pp ∨ pp + 8 ≤ cp →
      pp + 8 ≤ wu.alloc wu.nalloc n ty.size ∨ wu.alloc wu.nalloc n ty.size + n * ty.size ≤ pp →
      load (store (unpacked wu n ty.size pp data tail).mem cp (leBytes 8 n)) pp 8 =
        leBytes 8 (wu.alloc wu.nalloc n ty.size)) := by
  obtain ⟨-, h2, h3⟩ := vunpack_switch_buffer n ty.size wu hsrc data tail hin hlen hpos hle hgrant
    pp hpp [] [] { ret := 0, err := false } rfl
  have hfill : load (unpacked wu n ty.size pp data tail).mem (wu.alloc wu.nalloc n ty.size)
      (n * ty.size) = data := by
    have := load_store_same (store (zero_fill wu.mem (wu.alloc wu.nalloc n ty.size)
      (n * ty.size)) pp (leBytes 8 (wu.alloc wu.nalloc n ty.size)))
      (wu.alloc wu.nalloc n ty.size) data
    rw [hlen] at this
    exact this
  have hslot : pp + 8 ≤ wu.alloc wu.nalloc n ty.size ∨
      wu.alloc wu.nalloc n ty.size + n * ty.size ≤ pp →
      load (unpacked wu n ty.size pp data tail).mem pp 8 =
        leBytes 8 (wu.alloc wu.nalloc n ty.size) := by
    intro hdis
    simp only [unpacked]
    rw [load_store_disjoint _ _ _ _ _ (by omega)]
    have := load_store_same (zero_fill wu.mem (wu.alloc wu.nalloc n ty.size) (n * ty.size)) pp
      (leBytes 8 (wu.alloc wu.nalloc n ty.size))
    rw [leBytes_length] at this
    exact this
  have hl8 : (leBytes 8 n).length = 8 := leBytes_length 8 n
  refine ⟨?_, ?_, rfl, hfill, hslot, ?_, ?_, ?_⟩
  · unfold vunpack
    rw [loop_array_ok _ '*' T E _ _ wu _ _ _ (Or.inr rfl) (h3 T tyT E ty cp hT hE rfl hcp) rfl]
    simp
  · unfold vunpack
    rw [loop_array_ok _ '=' T E _ _ wu _ _ _ (Or.inl rfl) (h2 T tyT E ty v hT hE rfl) rfl]
    simp
  · have := load_store_same (unpacked wu n ty.size pp data tail).mem cp (leBytes 8 n)
    rw [hl8] at this
    exact this
  · intro hdis
    rw [load_store_disjoint _ _ _ _ _ (by omega)]
    exact hfill
  · intro h1 hdis
    rw [load_store_disjoint _ _ _ _ _ (by omega)]
    exact hslot hdis

/-- Witness for C13: `*ic` with the count 3 and three chars on the wire. -/
theorem discovered_count_witness :
    ∃ r, vunpack (World.init (fun _ => 0) [3, 0, 0, 0, 0, 0, 0, 0, 97, 98, 99]
        (fun _ _ _ => 36864)) ['*', 'i', 'c'] [varg.ptr 4096, varg.ptr 12288] = Except.ok r ∧
      r.value = 11 ∧ load r.world.mem 36864 3 = [97, 98, 99] ∧
      load r.world.mem 12288 8 = leBytes 8 36864 ∧ load r.world.mem 4096 8 = leBytes 8 3 := by
  have h := discovered_count 'i' c_int 'c' c_char (by decide) (by decide) 3 (by decide)
    (by decide) (World.init (fun _ => 0) [3, 0, 0, 0, 0, 0, 0, 0, 97, 98, 99]
      (fun _ _ _ => 36864)) rfl [97, 98, 99] [] (by decide) (by decide) (by decide) 4096 12288
    (by decide) (by decide) 0
  exact ⟨_, h.1, by decide, by decide, by decide, by decide⟩

/-- The `switch` of `vpack` on `=TE` or `*TE` when the buffer pointer is
null: only the count is written. -/
theorem vpack_switch_null_buffer (c T E : Char) (ty : ctype) (hc : c = '=' ∨ c = '*')
    (hE : (E, ty) ∈ int_codes) (rest : List Char) (st : state) (w : World)
    (ap0 ap : List varg) (arg0 : arg) (pp : Nat)
    (hb : (if c = '=' then arg_val arg.zero ap0 T else arg_ptr w.mem arg.zero ap0 T) =
      Except.ok (arg0, varg.ptr pp :: ap))
    (hpp : pp ≠ NULL) (hbuf : leVal (load w.mem pp 8) = NULL)
    (he : st.err = false) (hs : w.script = []) :
    vpack_switch c (T :: E :: rest) st w ap0 = Except.ok
      ({ ret := st.ret + 8, err := false },
        { w with
          cell := arg0.val
          output := w.output ++ leBytes 8 arg0.val
          trace := w.trace ++ [event.io 8 8 false] }, ap, false) := by
  obtain ⟨-, -, -, harr, -⟩ := int_codes_facts E ty hE
  have h1 : rec_io st iofunc.write { w with cell := arg0.val } Ptr.cell SIZEOF_SIZE_T = _ :=
    rec_write_cell_ideal st w arg0.val he hs
  rcases hc with rfl | rfl
  · simp only [if_true] at hb
    simp only [vpack_switch, (array_group '=' (Or.inl rfl)).2.2.1 rfl, fmt_at_cons_zero,
      fmt_at_cons_one, hb, harr, pop_arr, hpp, if_false, bind, Except.bind, rec_write, h1,
      hbuf, rec_io_null, pure, Except.pure]
  · have hne : ¬ ('*' = '=') := by decide
    simp only [hne, if_false] at hb
    simp only [vpack_switch, (array_group '*' (Or.inr rfl)).2.2.2 rfl, fmt_at_cons_zero,
      fmt_at_cons_one, hb, harr, pop_arr, hpp, if_false, bind, Except.bind, rec_write, h1,
      hbuf, rec_io_null, pure, Except.pure]

/-- C17, no-op conditions of the I/O engine: if the error latch is set, or the
pointer is null, or the size is zero, `rec_io` hands back the transfer state
and the world as they are: byte total and latch unchanged, no call of the
primitive recorded, nothing transferred.  Consequently `vpack` with `=TE` or
`*TE` (integer type codes) given a null buffer and any count `n`, on a sink
that accepts all bytes, writes the size-width count only and returns `8`. -/
theorem io_noop_conditions (st : state) (func : iofunc) (w : World) (p : Ptr) (size : Nat)
    (h : st.err = true ∨ p.isNull = true ∨ size = 0)
    (T : Char) (tyT : ctype) (E : Char) (ty : ctype)
    (hT : (T, tyT) ∈ int_codes) (hE : (E, ty) ∈ int_codes) (n : Nat) (hrep : tyT.in_range n)
    (wp : World) (hs : wp.script = []) (pp : Nat) (hpp : pp ≠ NULL)
    (hbuf : leVal (load wp.mem pp 8) = NULL) (cp : Nat) (hcp : cp ≠ NULL)
    (hobj : load wp.mem cp tyT.size = tyT.repr n) :
    rec_io st func w p size = (st, w) ∧
    vpack wp ['=', T, E] [varg.int n, varg.ptr pp] = Except.ok
      { value := 8, st := { ret := 8, err := false }, unknown := false, ap := [],
        world := { wp with cell := n
                           output := wp.output ++ leBytes 8 n
                           trace := wp.trace ++ [event.io 8 8 false] } } ∧
    vpack wp ['*', T, E] [varg.ptr cp, varg.ptr pp] = Except.ok
      { value := 8, st := { ret := 8, err := false }, unknown := false, ap := [],
        world := { wp with cell := n
                           output := wp.output ++ leBytes 8 n
                           trace := wp.trace ++ [event.io 8 8 false] } } := by
  obtain ⟨sz, hval⟩ := arg_val_count T tyT hT n hrep arg.zero [varg.ptr pp]
  have hptr := arg_ptr_count T tyT hT n hrep wp.mem cp hcp hobj arg.zero [varg.ptr pp]
  refine ⟨?_, ?_, ?_⟩
  · simp only [rec_io]
    rw [if_pos]
    rcases h with h | h | h
    · exact Or.inl h
    · exact Or.inr (Or.inl h)
    · exact Or.inr (Or.inr h)
  · unfold vpack
    rw [loop_array_ok _ '=' T E _ _ wp _ _ _ (Or.inl rfl)
      (vpack_switch_null_buffer '=' T E ty (Or.inl rfl) hE [] _ wp _ [] _ pp
        (by rw [if_pos rfl]; exact hval) hpp hbuf rfl hs) rfl]
    simp
  · unfold vpack
    rw [loop_array_ok _ '*' T E _ _ wp _ _ _ (Or.inr rfl)
      (vpack_switch_null_buffer '*' T E ty (Or.inr rfl) hE [] _ wp _ [] _ pp
        (by rw [if_neg (by decide)]; exact hptr) hpp hbuf rfl hs) rfl]
    simp

/-- Witness for C17: a request of size zero, and `=ic` with the count 3 and a
null buffer. -/
theorem io_noop_conditions_witness :
    rec_io { ret := 5, err := false } iofunc.write
        (World.init (fun _ => 0) [] (fun _ _ _ => 0)) (Ptr.mem 4096) 0 =
      ({ ret := 5, err := false }, World.init (fun _ => 0) [] (fun _ _ _ => 0)) ∧
    ∃ r, vpack (World.init (store (fun _ => 0) 4096 [3, 0, 0, 0]) [] (fun _ _ _ => 0))
        ['=', 'i', 'c'] [varg.int 3, varg.ptr 12288] = Except.ok r ∧ r.value = 8 ∧
      r.world.output = [3, 0, 0, 0, 0, 0, 0, 0] := by
  have h := io_noop_conditions { ret := 5, err := false } iofunc.write
    (World.init (fun _ => 0) [] (fun _ _ _ => 0)) (Ptr.mem 4096) 0 (Or.inr (Or.inr rfl))
    'i' c_int 'c' c_char (by decide) (by decide) 3 (by decide)
    (World.init (store (fun _ => 0) 4096 [3, 0, 0, 0]) [] (fun _ _ _ => 0)) rfl 12288
    (by decide) (by decide) 4096 (by decide) (by decide)
  exact ⟨h.1, _, h.2.1, rfl, by decide⟩

/-- The state `rec_io` leaves when the next scripted result `r` is not an
interruption: decided by `(size_t) r.ret == size`. -/
theorem rec_io_scripted (st : state) (func : iofunc) (w : World) (p : Ptr) (size : Nat)
    (r : iores) (rest : List iores) (he : st.err = false) (hp : p.isNull = false)
    (h0 : size ≠ 0) (hs : w.script = r :: rest) (hr : ¬ (r.ret = -1 ∧ r.eintr = true)) :
    (rec_io st func w p size).1 =
      (if (r.ret % (2 ^ 64 : Int)).toNat = size then { ret := st.ret + r.ret, err := false }
        else { ret := r.ret, err := true }) ∧
    (rec_io st func w p size).2.trace = w.trace ++ [event.io size r.ret r.eintr] ∧
    (rec_io st func w p size).2.script = rest := by
  have hc1 : (func.call w p size).1 = r.ret := by
    cases func <;> simp [iofunc.call, iofunc.answer, hs]
  have hc2 : (func.call w p size).2.1 = r.eintr := by
    cases func <;> simp [iofunc.call, iofunc.answer, hs]
  have hc3 : (func.call w p size).2.2.script = rest := by
    cases func
    · cases p <;> simp [iofunc.call, hs, World.storep]
    · simp [iofunc.call, hs]
  have hret : io_retry func p size w.script.length w =
      ((func.call w p size).1, (func.call w p size).2.2) := by
    rw [hs]
    simp only [List.length_cons, io_retry, hc1, hc2]
    rw [if_neg hr]
  simp only [rec_io, he, hp, h0, Bool.false_eq_true, or_self, if_false, hret, hc1]
  split
  · exact ⟨rfl, by rw [call_trace, hc1, hc2], hc3⟩
  · exact ⟨rfl, by rw [call_trace, hc1, hc2], hc3⟩

/-- C16 (the code against the claim): for a request of `SIZE_MAX` bytes a hard
failure of the primitive does not set the latch.  `rec_io` compares
`(size_t) ret` with `size`; `(size_t) -1` is `SIZE_MAX`, so the failure is
taken for a complete transfer, `-1` is added to the byte total and the latch
stays clear.  For every smaller size the claim holds: a hard failure or a
short count replaces the total by the return value and sets the latch, and a
return value equal to the size adds the size and leaves the latch clear. -/
theorem io_failure_branch (st : state) (func : iofunc) (w : World) (p : Ptr) (size : Nat)
    (r : iores) (rest : List iores) (he : st.err = false) (hp : p.isNull = false)
    (h0 : size ≠ 0) (hlt : size < SIZE_MOD) (hs : w.script = r :: rest)
    (hr : ¬ (r.ret = -1 ∧ r.eintr = true)) :
    (size = SIZE_MOD - 1 → r.ret = -1 →
      (rec_io st func w p size).1 = { ret := st.ret + -1, err := false }) ∧
    (size < SIZE_MOD - 1 → r.ret = -1 ∨ (0 ≤ r.ret ∧ r.ret < size) →
      (rec_io st func w p size).1 = { ret := r.ret, err := true }) ∧
    (r.ret = size → (rec_io st func w p size).1 = { ret := st.ret + size, err := false }) := by
  obtain ⟨h1, -, -⟩ := rec_io_scripted st func w p size r rest he hp h0 hs hr
  rw [h1]
  simp only [SIZE_MOD] at hlt ⊢
  refine ⟨fun hsz hret => ?_, fun hsz hret => ?_, fun hret => ?_⟩
  · rw [if_pos (by omega), hret]
  · rw [if_neg (by omega)]
  · rw [if_pos (by omega), hret]

/-- Witness for C16: a write of `SIZE_MAX` bytes that fails with `-1` (not
interrupted) leaves the latch clear and the total one less. -/
theorem io_failure_branch_witness :
    (rec_io { ret := 8, err := false } iofunc.write
      { World.init (fun _ => 0) [] (fun _ _ _ => 0) with script := [⟨-1, false⟩] }
      (Ptr.mem 4096) 18446744073709551615).1 = { ret := 7, err := false } :=
  (io_failure_branch { ret := 8, err := false } iofunc.write
    { World.init (fun _ => 0) [] (fun _ _ _ => 0) with script := [⟨-1, false⟩] }
    (Ptr.mem 4096) 18446744073709551615 ⟨-1, false⟩ [] rfl rfl (by decide) (by decide) rfl
    (by decide)).1 (by decide) rfl

/-- C18 (the code against the claim): the format cursor leaves the string.
For the format `"="` and for `"*"` both interpreters read `fmt[2]`, the
character after the terminator, whatever the world and the arguments; for
`"*i"` with a count object at `p` and a sink that accepts all bytes, `vpack`
writes the count, advances the cursor by three characters over a string of
two and evaluates the loop condition behind the terminator.  A read of the
format outside the string and its terminator is the fault `fault.fmt`. -/
theorem format_cursor_overrun (w : World) (ap : List varg) (p : Nat) (hp : p ≠ NULL)
    (hs : w.script = []) :
    vpack w ['='] ap = Except.error fault.fmt ∧
    vunpack w ['='] ap = Except.error fault.fmt ∧
    vpack w ['*'] ap = Except.error fault.fmt ∧
    vunpack w ['*'] ap = Except.error fault.fmt ∧
    vpack w ['*', 'i'] (varg.ptr p :: ap) = Except.error fault.fmt := by
  have hz : Char.ofNat 0 ∉ ['c', 'C', 'h', 'H', 'i', 'I', 'l', 'L', 'q', 'Q', 'z', 'Z'] := by
    decide
  have hz2 : Char.ofNat 0 ∉ ['c', 'C', 'h', 'H', 'i', 'I', 'l', 'L', 'q', 'Q', 'z', 'Z', 's'] := by
    decide
  have g1 : (tcode.of '=').group = group.array_val := by decide
  have g2 : (tcode.of '*').group = group.array_ptr := by decide
  have f0 : fmt_at [] 0 = Except.ok (Char.ofNat 0) := rfl
  have f1 : fmt_at [] 1 = Except.error fault.fmt := rfl
  have n1 : ¬ ('=' = Char.ofNat 0) := by decide
  have n2 : ¬ ('*' = Char.ofNat 0) := by decide
  have s1 : ∀ st, vpack_switch '=' [] st w ap = Except.error fault.fmt := by
    intro st
    simp only [vpack_switch, g1, f0, f1, arg_val_noop _ _ _ hz]
    rfl
  have s2 : ∀ st, vunpack_switch '=' [] st w ap = Except.error fault.fmt := by
    intro st
    simp only [vunpack_switch, g1, f0, f1, arg_val_noop _ _ _ hz]
    rfl
  have s3 : ∀ st, vpack_switch '*' [] st w ap = Except.error fault.fmt := by
    intro st
    simp only [vpack_switch, g2, f0, f1, arg_ptr_noop _ _ _ _ hz]
    rfl
  have s4 : ∀ st, vunpack_switch '*' [] st w ap = Except.error fault.fmt := by
    intro st
    simp only [vunpack_switch, g2, f0, f1, arg_ptr_noop _ _ _ _ hz]
    rfl
  refine ⟨?_, ?_, ?_, ?_, ?_⟩
  · simp only [vpack, directive_loop, n1, if_false, s1]
  · simp only [vunpack, directive_loop, n1, if_false, s2]
  · simp only [vpack, directive_loop, n2, if_false, s3]
  · simp only [vunpack, directive_loop, n2, if_false, s4]
  · have a0 : fmt_at ['i'] 0 = Except.ok 'i' := rfl
    have a1 : fmt_at ['i'] 1 = Except.ok (Char.ofNat 0) := rfl
    have hb : arg_ptr w.mem arg.zero (varg.ptr p :: ap) 'i' =
        Except.ok
          ({ size := c_int.size, val := to_uintmax (c_int.read w.mem p), ptr := p, pptr := NULL },
            ap) := by
      have : arg_ptr w.mem arg.zero (varg.ptr p :: ap) 'i' =
          pop_ptr w.mem c_int (varg.ptr p :: ap) := rfl
      rw [this]
      simp only [pop_ptr, hp, if_false]
    have hnoop : ∀ (st2 : state) (w2 : World) (n : Nat),
        rec_write st2 w2 (Ptr.mem arg.zero.ptr) n = (st2, w2) := fun st2 w2 n =>
      rec_io_null st2 iofunc.write w2 n
    have s5 : vpack_switch '*' ['i'] { ret := 0, err := false } w (varg.ptr p :: ap) =
        Except.ok ({ ret := 0 + 8, err := false },
          { w with cell := to_uintmax (c_int.read w.mem p)
                   output := w.output ++ leBytes 8 (to_uintmax (c_int.read w.mem p))
                   trace := w.trace ++ [event.io 8 8 false] }, ap, false) := by
      simp only [vpack_switch, g2, a0, a1, hb, arg_arr_noop _ _ _ _ hz2, bind, Except.bind,
        rec_write_cell_ideal { ret := 0, err := false } w _ rfl hs, hnoop, pure, Except.pure]
    simp only [vpack, directive_loop, n2, if_false, s5, g2, or_true, if_true,
      Bool.false_eq_true]

/-- Witness for C18: the facts at an empty world and a count object at 4096. -/
theorem format_cursor_overrun_witness :
    vpack (World.init (fun _ => 0) [] (fun _ _ _ => 0)) ['='] [] = Except.error fault.fmt ∧
    vpack (World.init (fun _ => 0) [] (fun _ _ _ => 0)) ['*', 'i'] [varg.ptr 4096] =
      Except.error fault.fmt :=
  have h := format_cursor_overrun (World.init (fun _ => 0) [] (fun _ _ _ => 0)) [] 4096
    (by decide) rfl
  ⟨h.1, h.2.2.2.2⟩

theorem load_zero_fill (m : Nat → Nat) (a n : Nat) :
    load (zero_fill m a n) a n = List.replicate n 0 := by
  apply List.ext_getElem
  · simp [load_length]
  · intro i h1 _
    have hi : i < n := by simpa [load_length] using h1
    rw [load_getElem, List.getElem_replicate]
    have hin : a ≤ a + i ∧ a + i < a + n := by omega
    simp only [zero_fill, hin, and_self, if_true]

/-- C19, the ceiling under 64-bit wrap-around: let the allocator answer null
to every request whose product `nmemb * size` does not fit in `size_t`.  When
`rec_alloc`, entered without a latched error for a request other than
`0 * 0`, hands back a non-null buffer, then the exact product is at most
16777216, the error latch is still clear, the caller's slot holds the eight
bytes of that pointer and (the slot lying outside the block) the block holds
exactly `nmemb * size` zero bytes.  `sane_size` accepts 16777216 and rejects
16777217; applied to a wrapped product such as `(2^61 + 1) * 8 mod 2^64 = 8`
it accepts, so there the refusal is the allocator's. -/
theorem ceiling_under_wrap (st : state) (a : arg) (w : World) (nmemb size : Nat)
    (he : st.err = false) (hpos : ¬ (nmemb = 0 ∧ size = 0))
    (hcal : ∀ k, SIZE_MOD ≤ nmemb * size → w.alloc k nmemb size = NULL)
    (r : state × arg × World) (h : rec_alloc st a w nmemb size = Except.ok r)
    (hnn : r.2.1.ptr ≠ NULL)
    (hfresh : a.pptr + 8 ≤ r.2.1.ptr ∨ r.2.1.ptr + nmemb * size ≤ a.pptr) :
    nmemb * size ≤ 16777216 ∧ r.1 = st ∧
      load r.2.2.mem a.pptr 8 = leBytes 8 r.2.1.ptr ∧
      load r.2.2.mem r.2.1.ptr (nmemb * size) = List.replicate (nmemb * size) 0 ∧
      sane_size 16777216 = true ∧ sane_size 16777217 = false ∧
      sane_size ((2 ^ 61 + 1) * 8 % SIZE_MOD) = true := by
  have h0 : ¬ (st.err = true ∨ nmemb = 0 ∧ size = 0) := by
    rw [he]
    rintro (k | k)
    · cases k
    · exact hpos k
  by_cases hsane : sane_size (nmemb * size % SIZE_MOD) = true
  · by_cases hpp : a.pptr = NULL
    · simp only [rec_alloc, h0, if_false, hpp, if_true] at h
      cases h
    · simp only [rec_alloc, h0, if_false, hsane, if_true, hpp] at h
      cases h
      simp only at hnn hfresh ⊢
      have hq : (calloc w nmemb size).1 = w.alloc w.nalloc nmemb size := rfl
      have hle : nmemb * size ≤ 16777216 := by
        by_contra hgt
        by_cases hbig : SIZE_MOD ≤ nmemb * size
        · exact hnn (hcal w.nalloc hbig)
        · rw [Nat.mod_eq_of_lt (by omega)] at hsane
          simp only [sane_size, decide_eq_true_eq] at hsane
          omega
      have hm : (calloc w nmemb size).2.mem =
          zero_fill w.mem (calloc w nmemb size).1 (nmemb * size) := by
        simp only [calloc]
        rw [if_neg (by rw [← hq]; exact hnn)]
      refine ⟨hle, by rw [if_neg hnn], ?_, ?_, by decide, by decide, by decide⟩
      · have := load_store_same (calloc w nmemb size).2.mem a.pptr
          (leBytes 8 (calloc w nmemb size).1)
        rwa [leBytes_length] at this
      · rw [load_store_disjoint _ _ _ _ _ (by rw [leBytes_length]; omega), hm, load_zero_fill]
  · by_cases hpp : a.pptr = NULL
    · simp only [rec_alloc, h0, if_false, hpp, if_true] at h
      cases h
    · simp only [rec_alloc, h0, if_false, hsane, hpp] at h
      cases h
      exact absurd rfl hnn

/-- Witness for C19: three objects of four bytes, slot at 4096, block at
8192. -/
theorem ceiling_under_wrap_witness :
    3 * 4 ≤ 16777216 ∧
      load (store (zero_fill (fun _ => 7) 8192 12) 4096 (leBytes 8 8192)) 8192 (3 * 4) =
        List.replicate (3 * 4) 0 :=
  have h := ceiling_under_wrap { ret := 8, err := false }
    { size := 4, val := 0, ptr := 0, pptr := 4096 }
    (World.init (fun _ => 7) [] (fun _ _ _ => 8192)) 3 4 rfl (by decide) (fun _ hk => by
      simp only [SIZE_MOD] at hk
      omega)
    ({ ret := 8, err := false }, { size := 4, val := 0, ptr := 8192, pptr := 4096 },
      { World.init (fun _ => 7) [] (fun _ _ _ => 8192) with
        mem := store (zero_fill (fun _ => 7) 8192 12) 4096 (leBytes 8 8192)
        nalloc := 1
        trace := [event.alloc 3 4 8192] })
    (by simp [rec_alloc, calloc, sane_size, SIZE_MOD, World.init, NULL]) (by decide)
    (Or.inl (by decide))
  ⟨h.1, h.2.2.2.1⟩

theorem call_script (func : iofunc) (w : World) (p : Ptr) (size : Nat) :
    (func.call w p size).2.2.script = w.script.tail := by
  cases func
  · cases p <;> simp [iofunc.call, World.storep]
  · simp [iofunc.call]

theorem call_answer (func : iofunc) (w : World) (p : Ptr) (size : Nat) (r : iores)
    (rest : List iores) (hs : w.script = r :: rest) :
    (func.call w p size).1 = r.ret ∧ (func.call w p size).2.1 = r.eintr := by
  cases func <;> simp [iofunc.call, iofunc.answer, hs]

/-- The retry loop on a script that starts with `k` interruptions and then a
result `r` that is none: `k + 1` calls, and `r.ret` is what it hands back. -/
theorem io_retry_interrupted (func : iofunc) (p : Ptr) (size : Nat) (r : iores)
    (rest : List iores) (hr : ¬ (r.ret = -1 ∧ r.eintr = true)) (k : Nat) (w : World)
    (hs : w.script = List.replicate k ⟨-1, true⟩ ++ r :: rest) :
    (io_retry func p size w.script.length w).1 = r.ret ∧
      (io_retry func p size w.script.length w).2.trace =
        w.trace ++ List.replicate k (event.io size (-1) true) ++ [event.io size r.ret r.eintr] ∧
      (io_retry func p size w.script.length w).2.script = rest := by
  induction k generalizing w with
  | zero =>
    simp only [List.replicate, List.nil_append] at hs
    obtain ⟨h1, h2⟩ := call_answer func w p size r rest hs
    have hret : io_retry func p size w.script.length w =
        ((func.call w p size).1, (func.call w p size).2.2) := by
      rw [hs]
      simp only [List.length_cons, io_retry, h1, h2]
      rw [if_neg hr]
    rw [hret]
    refine ⟨h1, ?_, ?_⟩
    · rw [call_trace, h1, h2]
      simp
    · rw [call_script, hs]
      rfl
  | succ k ih =>
    have hs2 : w.script = ⟨-1, true⟩ :: (List.replicate k ⟨-1, true⟩ ++ r :: rest) := by
      rw [hs]
      rfl
    obtain ⟨h1, h2⟩ := call_answer func w p size _ _ hs2
    have hsc : (func.call w p size).2.2.script = List.replicate k ⟨-1, true⟩ ++ r :: rest := by
      rw [call_script, hs2]
      rfl
    have hlen : w.script.length = (func.call w p size).2.2.script.length + 1 := by
      rw [hsc, hs2]
      rfl
    have hret : io_retry func p size w.script.length w =
        io_retry func p size (func.call w p size).2.2.script.length (func.call w p size).2.2 := by
      rw [hlen]
      simp only [io_retry, h1, h2, and_self, if_true]
    obtain ⟨k1, k2, k3⟩ := ih (func.call w p size).2.2 hsc
    rw [hret]
    refine ⟨k1, ?_, k3⟩
    rw [k2, call_trace, h1, h2]
    simp [List.replicate_succ]

theorem loadp_zero (w : World) (p : Ptr) : w.loadp p 0 = [] := by
  cases p <;> simp [World.loadp, load]

theorem moved_neg (size : Nat) : moved (-1) size = 0 := by
  simp [moved]

/-- An interrupted call of `write` changes nothing but script and trace. -/
theorem write_call_skip (w : World) (p : Ptr) (size : Nat) (r : iores) (rest : List iores)
    (hs : w.script = r :: rest) (hi : r.interrupted = true) :
    (iofunc.write.call w p size).2.2.settle = w.settle := by
  have hr : r.ret = -1 ∧ r.eintr = true := by
    simpa [iores.interrupted] using hi
  have ha : iofunc.write.answer w size = r := by
    simp [iofunc.answer, hs]
  simp only [iofunc.call, ha, hr.1, hr.2, moved_neg, loadp_zero, List.append_nil, World.settle,
    hs, List.tail_cons, List.filter_append]
  simp [List.filter, hi, event.interrupted]

/-- A call of `write` that is not interrupted, on the settled world. -/
theorem write_call_keep (w : World) (p : Ptr) (size : Nat)
    (hs : w.script = [] ∨ ∃ r rest, w.script = r :: rest ∧ r.interrupted = false) :
    iofunc.write.call w.settle p size =
        ((iofunc.write.call w p size).1, (iofunc.write.call w p size).2.1,
          (iofunc.write.call w p size).2.2.settle) ∧
      ¬ ((iofunc.write.call w p size).1 = -1 ∧ (iofunc.write.call w p size).2.1 = true) := by
  rcases hs with hs | ⟨r, rest, hs, hi⟩
  · have ha : iofunc.write.answer w size = ⟨size, false⟩ := by
      simp [iofunc.answer, hs]
    have ha2 : iofunc.write.answer w.settle size = ⟨size, false⟩ := by
      simp [iofunc.answer, World.settle, hs]
    constructor
    · simp only [iofunc.call, ha, ha2]
      simp [World.settle, hs, World.loadp, List.filter_append, List.filter, event.interrupted]
    · simp [iofunc.call, ha]
  · have ha : iofunc.write.answer w size = r := by
      simp [iofunc.answer, hs]
    have ha2 : iofunc.write.answer w.settle size = r := by
      simp [iofunc.answer, World.settle, hs, List.filter, hi]
    have hr : ¬ (r.ret = -1 ∧ r.eintr = true) := by
      simpa [iores.interrupted] using hi
    constructor
    · simp only [iofunc.call, ha, ha2]
      simp [World.settle, hs, World.loadp, List.filter_append, List.filter, event.interrupted, hi]
      have hb : (!decide (r.ret = -1) || !r.eintr) = true := by
        simp only [iores.interrupted] at hi
        cases h1 : decide (r.ret = -1) <;> cases h2 : r.eintr <;> simp_all
      rw [hb]
    · simpa [iofunc.call, ha] using hr

theorem io_retry_settle (p : Ptr) (size : Nat) (n : Nat) (w : World) (hn : w.script.length = n) :
    io_retry iofunc.write p size w.settle.script.length w.settle =
      ((io_retry iofunc.write p size n w).1, (io_retry iofunc.write p size n w).2.settle) := by
  induction n generalizing w with
  | zero =>
    have hs : w.script = [] := List.length_eq_zero.mp hn
    have hs2 : w.settle.script = [] := by simp [World.settle, hs]
    obtain ⟨h1, -⟩ := write_call_keep w p size (Or.inl hs)
    rw [hs2]
    simp only [List.length_nil, io_retry, h1]
  | succ k ih =>
    obtain ⟨r, rest, hs⟩ : ∃ r rest, w.script = r :: rest := by
      cases hw : w.script with
      | nil => rw [hw] at hn; cases hn
      | cons r rest => exact ⟨r, rest, rfl⟩
    by_cases hi : r.interrupted = true
    · have hr : r.ret = -1 ∧ r.eintr = true := by
        simpa [iores.interrupted] using hi
      obtain ⟨h1, h2⟩ := call_answer iofunc.write w p size r rest hs
      have hlen : (iofunc.write.call w p size).2.2.script.length = k := by
        rw [call_script, hs]
        rw [hs] at hn
        simpa using hn
      have := ih (iofunc.write.call w p size).2.2 hlen
      rw [write_call_skip w p size r rest hs hi] at this
      rw [this]
      simp only [io_retry, h1, h2, hr.1, hr.2, and_self, if_true]
    · have hi2 : r.interrupted = false := by simpa using hi
      obtain ⟨h1, h2⟩ := write_call_keep w p size (Or.inr ⟨r, rest, hs, hi2⟩)
      have hs2 : w.settle.script = r :: rest.filter fun x => !x.interrupted := by
        simp [World.settle, hs, List.filter, hi2]
      rw [hs2]
      simp only [List.length_cons, io_retry, h1]
      rw [if_neg h2, if_neg h2]

/-- `rec_io` with `write` and the removal of interruptions commute. -/
theorem rec_write_settle (st : state) (w : World) (p : Ptr) (size : Nat) :
    rec_write st w.settle p size =
      ((rec_write st w p size).1, (rec_write st w p size).2.settle) := by
  simp only [rec_write, rec_io]
  split
  · rfl
  · rw [io_retry_settle p size w.script.length w rfl]
    dsimp only
    split <;> rfl

end Structpack
namespace Structpack

/-- The `switch` of `vpack` and the removal of interruptions commute. -/
theorem vpack_switch_settle (c : Char) (rest : List Char) (st : state) (w : World)
    (ap : List varg) :
    vpack_switch c rest st w.settle ap =
      (vpack_switch c rest st w ap).map fun x => (x.1, x.2.1.settle, x.2.2) := by
  have hm : w.settle.mem = w.mem := rfl
  have hc : ∀ v, World.mk w.mem v w.settle.input w.settle.output w.settle.script w.settle.alloc
      w.settle.nalloc w.settle.trace w.settle.stderr = ({ w with cell := v } : World).settle :=
    fun _ => rfl
  cases hg : (tcode.of c).group
  · simp only [vpack_switch, hg, hm]
    cases arg_ptr w.mem arg.zero ap c with
    | error e => rfl
    | ok x =>
      simp only [bind, Except.bind, pure, Except.pure, Except.map, rec_write_settle]
  · simp only [vpack_switch, hg, hm]
    cases arg_arr w.mem arg.zero ap c with
    | error e => rfl
    | ok x =>
      simp only [bind, Except.bind]
      cases strlen w.mem x.1.ptr with
      | error e => rfl
      | ok n =>
        simp only [pure, Except.pure, Except.map, hc, rec_write_settle]
  · simp only [vpack_switch, hg, hm]
    cases fmt_at rest 0 with
    | error e => rfl
    | ok t =>
      simp only [bind, Except.bind]
      cases arg_val arg.zero ap t with
      | error e => rfl
      | ok x =>
        simp only []
        cases fmt_at rest 1 with
        | error e => rfl
        | ok e =>
          simp only []
          cases arg_arr w.mem arg.zero x.2 e with
          | error e => rfl
          | ok y =>
            simp only [pure, Except.pure, Except.map, hc, rec_write_settle]
  · simp only [vpack_switch, hg, hm]
    cases fmt_at rest 0 with
    | error e => rfl
    | ok t =>
      simp only [bind, Except.bind]
      cases arg_ptr w.mem arg.zero ap t with
      | error e => rfl
      | ok x =>
        simp only []
        cases fmt_at rest 1 with
        | error e => rfl
        | ok e =>
          simp only []
          cases arg_arr w.mem arg.zero x.2 e with
          | error e => rfl
          | ok y =>
            simp only [pure, Except.pure, Except.map, hc, rec_write_settle]
  · simp only [vpack_switch, hg]
    rfl

/-- The loop on a settled world, for a `switch` that commutes with the removal
of interruptions. -/
theorem directive_loop_settle (sw : switch_fn)
    (hsw : ∀ c rest st w ap, sw c rest st w.settle ap =
      (sw c rest st w ap).map fun x => (x.1, x.2.1.settle, x.2.2))
    (fmt : List Char) (st : state) (w : World) (ap : List varg) :
    directive_loop sw fmt st w.settle ap =
      (directive_loop sw fmt st w ap).map result.settle := by
  generalize hn : fmt.length = n
  induction n using Nat.strong_induction_on generalizing fmt st w ap with
  | _ n ih =>
    cases fmt with
    | nil => rfl
    | cons c rest =>
      simp only [directive_loop]
      split
      · rfl
      · rw [hsw]
        cases hs : sw c rest st w ap with
        | error e => rfl
        | ok x =>
          obtain ⟨st1, w1, ap1, u⟩ := x
          cases u
          · simp only [Except.map]
            split
            · rfl
            · split
              · cases rest with
                | nil => rfl
                | cons c1 rest1 =>
                  cases rest1 with
                  | nil => rfl
                  | cons c2 rest2 =>
                    exact ih rest2.length (by simp at hn; omega) rest2 st1 w1 ap1 rfl
              · exact ih rest.length (by simp at hn; omega) rest st1 w1 ap1 rfl
          · rfl

theorem settle_interrupted (w : World) (k : Nat) (s : List iores) :
    ({ w with script := List.replicate k ⟨-1, true⟩ ++ s } : World).settle =
      ({ w with script := s } : World).settle := by
  have h : (List.replicate k (⟨-1, true⟩ : iores)).filter (fun r => !r.interrupted) = [] := by
    rw [List.filter_eq_nil_iff]
    intro a ha
    rw [List.eq_of_mem_replicate ha]
    decide
  simp only [World.settle, List.filter_append, h, List.nil_append]

/-- C15, transparent retry on interruption: let the primitive return `-1`
with `EINTR` on its first `k` calls and then `r`, which is not an
interruption.  For a transfer with non-null pointer, non-zero size and no
error latched, `rec_io` calls the primitive `k + 1` times and leaves the
transfer state it leaves when the primitive returns `r` on the first call.
And the result of `vpack`, for every format and argument list, is the same
on both devices (the same value, transfer state, memory, output, remaining
script) once the interrupted calls are taken out of the trace. -/
theorem transparent_retry (st : state) (func : iofunc) (w : World) (p : Ptr) (size : Nat)
    (k : Nat) (r : iores) (rest : List iores) (fmt : List Char) (ap : List varg)
    (he : st.err = false) (hp : p.isNull = false) (h0 : size ≠ 0)
    (hr : ¬ (r.ret = -1 ∧ r.eintr = true)) :
    (rec_io st func { w with script := List.replicate k ⟨-1, true⟩ ++ r :: rest } p size).1 =
        (rec_io st func { w with script := r :: rest } p size).1 ∧
      (rec_io st func { w with script := List.replicate k ⟨-1, true⟩ ++ r :: rest } p size).2.trace =
        w.trace ++ List.replicate k (event.io size (-1) true) ++ [event.io size r.ret r.eintr] ∧
      (rec_io st func { w with script := List.replicate k ⟨-1, true⟩ ++ r :: rest } p size).2.script =
        rest ∧
      (vpack { w with script := List.replicate k ⟨-1, true⟩ ++ r :: rest } fmt ap).map
          result.settle =
        (vpack { w with script := r :: rest } fmt ap).map result.settle := by
  obtain ⟨a1, a2, a3⟩ := io_retry_interrupted func p size r rest hr k
    { w with script := List.replicate k ⟨-1, true⟩ ++ r :: rest } rfl
  obtain ⟨b1, -, -⟩ := rec_io_scripted st func { w with script := r :: rest } p size r rest he hp
    h0 rfl hr
  refine ⟨?_, ?_, ?_, ?_⟩
  · rw [b1]
    simp only [rec_io, he, hp, h0, Bool.false_eq_true, or_self, if_false, a1]
    split <;> rfl
  · simp only [rec_io, he, hp, h0, Bool.false_eq_true, or_self, if_false]
    split <;> exact a2
  · simp only [rec_io, he, hp, h0, Bool.false_eq_true, or_self, if_false]
    split <;> exact a3
  · simp only [vpack]
    rw [← directive_loop_settle _ vpack_switch_settle, ← directive_loop_settle _ vpack_switch_settle,
      settle_interrupted]

/-- Witness for C15: a write of eight bytes interrupted twice and then
completed, and `vpack` of the `long` at 4096 on the two devices. -/
theorem transparent_retry_witness :
    (rec_io { ret := 0, err := false } iofunc.write
        { World.init (fun _ => 5) [] (fun _ _ _ => 0) with
          script := List.replicate 2 ⟨-1, true⟩ ++ [⟨8, false⟩] } (Ptr.mem 4096) 8).1 =
      (rec_io { ret := 0, err := false } iofunc.write
        { World.init (fun _ => 5) [] (fun _ _ _ => 0) with script := [⟨8, false⟩] }
        (Ptr.mem 4096) 8).1 ∧
    (vpack { World.init (fun _ => 5) [] (fun _ _ _ => 0) with
          script := List.replicate 2 ⟨-1, true⟩ ++ [⟨8, false⟩] } ['l'] [varg.ptr 4096]).map
        result.settle =
      (vpack { World.init (fun _ => 5) [] (fun _ _ _ => 0) with script := [⟨8, false⟩] }
        ['l'] [varg.ptr 4096]).map result.settle :=
  have h := transparent_retry { ret := 0, err := false } iofunc.write
    (World.init (fun _ => 5) [] (fun _ _ _ => 0)) (Ptr.mem 4096) 8 2 ⟨8, false⟩ []
    ['l'] [varg.ptr 4096] rfl rfl (by decide) (by decide)
  ⟨h.1, h.2.2.2⟩

theorem blocks_append (a b : List event) : blocks (a ++ b) = blocks a ++ blocks b := by
  induction a with
  | nil => rfl
  | cons e a ih =>
    cases e with
    | io s r i => simpa [blocks] using ih
    | alloc n sz q =>
      simp only [List.cons_append, blocks]
      split
      · exact ih
      · exact congrArg _ ih

theorem in_regions_append (a b : List (Nat × Nat)) (x : Nat) :
    in_regions (a ++ b) x ↔ in_regions a x ∨ in_regions b x := by
  simp only [in_regions, List.mem_append]
  constructor
  · rintro ⟨r, h1 | h1, h2⟩
    · exact Or.inl ⟨r, h1, h2⟩
    · exact Or.inr ⟨r, h1, h2⟩
  · rintro (⟨r, h1, h2⟩ | ⟨r, h1, h2⟩)
    · exact ⟨r, Or.inl h1, h2⟩
    · exact ⟨r, Or.inr h1, h2⟩

theorem blocks_io (evs : List event) (h : ∀ x ∈ evs, ∃ s r i, x = event.io s r i) :
    blocks evs = [] := by
  induction evs with
  | nil => rfl
  | cons e evs ih =>
    obtain ⟨s, r, i, rfl⟩ := h e (List.mem_cons_self _ _)
    simp only [blocks]
    exact ih fun x hx => h x (List.mem_cons_of_mem _ hx)

theorem moved_le (ret : Int) (size : Nat) : moved ret size ≤ size := by
  unfold moved
  split
  · exact min_le_right _ _
  · exact Nat.zero_le _

/-- One call of the primitive changes memory only inside the buffer. -/
theorem call_mem (func : iofunc) (w : World) (p : Ptr) (size : Nat) (x : Nat)
    (hx : ∀ a, p = Ptr.mem a → ¬ (a ≤ x ∧ x < a + size)) :
    (func.call w p size).2.2.mem x = w.mem x := by
  cases func
  · cases p with
    | cell => rfl
    | mem a =>
      simp only [iofunc.call, World.storep]
      apply store_outside
      have h1 := hx a rfl
      have h2 := moved_le (iofunc.read.answer w size).ret size
      have h3 : (List.take (moved (iofunc.read.answer w size).ret size) w.input).length ≤
          moved (iofunc.read.answer w size).ret size := by
        rw [List.length_take]
        exact min_le_left _ _
      omega
  · rfl

theorem io_retry_mem (func : iofunc) (p : Ptr) (size : Nat) (x : Nat)
    (hx : ∀ a, p = Ptr.mem a → ¬ (a ≤ x ∧ x < a + size)) (n : Nat) (w : World) :
    (io_retry func p size n w).2.mem x = w.mem x := by
  induction n generalizing w with
  | zero => exact call_mem func w p size x hx
  | succ k ih =>
    simp only [io_retry]
    split
    · rw [ih, call_mem func w p size x hx]
    · exact call_mem func w p size x hx

/-- What `rec_io` changes: it appends calls of the primitive to the trace and
stores inside the buffer only. -/
theorem rec_io_frame (st : state) (func : iofunc) (w : World) (p : Ptr) (size : Nat) :
    ∃ evs, (rec_io st func w p size).2.trace = w.trace ++ evs ∧ blocks evs = [] ∧
      ∀ x, (∀ a, p = Ptr.mem a → ¬ (a ≤ x ∧ x < a + size)) →
        (rec_io st func w p size).2.mem x = w.mem x := by
  unfold rec_io
  split
  · exact ⟨[], by simp, rfl, fun _ _ => rfl⟩
  · obtain ⟨evs, e, h1, h2⟩ := io_retry_trace func p size w.script.length w
    refine ⟨evs ++ [event.io size (io_retry func p size w.script.length w).1 e], ?_, ?_, ?_⟩
    · dsimp only
      split <;> simpa [List.append_assoc] using h1
    · apply blocks_io
      intro y hy
      rcases List.mem_append.mp hy with hy | hy
      · exact ⟨_, _, _, h2 y hy⟩
      · exact ⟨_, _, _, List.mem_singleton.mp hy⟩
    · intro x hx
      dsimp only
      split <;> exact io_retry_mem func p size x hx _ w

/-- What `rec_alloc` changes: at most one call of `calloc` in the trace, the
buffer-pointer slot and the block handed out; and the buffer it hands back is
that block. -/
theorem rec_alloc_frame (st : state) (a : arg) (w : World) (n sz : Nat) (st2 : state)
    (a2 : arg) (w2 : World) (h : rec_alloc st a w n sz = Except.ok (st2, a2, w2)) :
    ∃ evs, w2.trace = w.trace ++ evs ∧
      (∀ x, ¬ (a.pptr ≤ x ∧ x < a.pptr + 8) → ¬ in_regions (blocks evs) x →
        w2.mem x = w.mem x) ∧
      (∀ size x, size ≤ n * sz → st2.err = false → a2.ptr ≠ NULL →
        a2.ptr ≤ x ∧ x < a2.ptr + size → in_regions (blocks evs) x) := by
  unfold rec_alloc at h
  split at h
  · rename_i hg
    simp only [Except.ok.injEq, Prod.mk.injEq] at h
    obtain ⟨rfl, rfl, rfl⟩ := h
    refine ⟨[], by simp, fun _ _ _ => rfl, fun size x hs he _ hx => ?_⟩
    rcases hg with hg | ⟨hg, -⟩
    · rw [he] at hg
      cases hg
    · rw [hg] at hs
      omega
  · dsimp only at h
    split at h
    · cases h
    · simp only [Except.ok.injEq, Prod.mk.injEq] at h
      obtain ⟨rfl, rfl, rfl⟩ := h
      by_cases hsane : sane_size (n * sz % SIZE_MOD) = true
      · simp only [hsane, if_true]
        by_cases hq : w.alloc w.nalloc n sz = NULL
        · refine ⟨[event.alloc n sz (w.alloc w.nalloc n sz)], rfl, fun x hx _ => ?_,
            fun size x _ _ hnn _ => absurd hq hnn⟩
          simp only [calloc, hq, if_true]
          exact store_outside _ _ _ _ (by rw [leBytes_length]; omega)
        · refine ⟨[event.alloc n sz (w.alloc w.nalloc n sz)], rfl, fun x hx hb => ?_,
            fun size x hs _ _ hx => ?_⟩
          · simp only [calloc, hq, if_false]
            rw [store_outside _ _ _ _ (by rw [leBytes_length]; omega)]
            apply zero_fill_outside
            by_contra hin
            apply hb
            simp only [blocks, hq, if_false]
            exact ⟨_, List.mem_singleton.mpr rfl, by dsimp only; omega⟩
          · simp only [blocks, hq, if_false]
            exact ⟨_, List.mem_singleton.mpr rfl, by
              simp only [calloc] at hx
              dsimp only
              omega⟩
      · simp only [hsane]
        refine ⟨[], by simp, fun x hx _ => ?_, fun size x _ _ hnn _ => absurd rfl hnn⟩
        exact store_outside _ _ _ _ (by rw [leBytes_length]; omega)

theorem store_count_frame (w : World) (p s : Nat) (w4 : World)
    (h : store_count w p s = Except.ok w4) :
    w4.trace = w.trace ∧ ∀ x, ¬ (p ≤ x ∧ x < p + 8) → w4.mem x = w.mem x := by
  unfold store_count at h
  split at h
  · cases h
  · simp only [Except.ok.injEq] at h
    subst h
    exact ⟨rfl, fun x hx => store_outside _ _ _ _ (by rw [leBytes_length]; simp only [SIZEOF_SIZE_T]; omega)⟩

theorem rec_alloc_size (st : state) (a : arg) (w : World) (n sz : Nat) (st2 : state)
    (a2 : arg) (w2 : World) (h : rec_alloc st a w n sz = Except.ok (st2, a2, w2)) :
    a2.size = a.size ∧ a2.pptr = a.pptr := by
  unfold rec_alloc at h
  split at h
  · simp only [Except.ok.injEq, Prod.mk.injEq] at h
    obtain ⟨-, rfl, -⟩ := h
    exact ⟨rfl, rfl⟩
  · dsimp only at h
    split at h
    · cases h
    · simp only [Except.ok.injEq, Prod.mk.injEq] at h
      obtain ⟨-, rfl, -⟩ := h
      exact ⟨rfl, rfl⟩

/-- The count read, `rec_alloc` and the data read of the cases `s`, `=` and
`*` of `vunpack`: the trace grows, and memory changes only in the
buffer-pointer slot and in the block handed out. -/
theorem alloc_read_frame (st : state) (w : World) (a : arg) (n sz size : Nat) (st2 : state)
    (a2 : arg) (w2 : World)
    (h : rec_alloc (rec_read st { w with cell := 0 } Ptr.cell SIZEOF_SIZE_T).1 a
      (rec_read st { w with cell := 0 } Ptr.cell SIZEOF_SIZE_T).2 n sz = Except.ok (st2, a2, w2))
    (hsize : size ≤ n * sz) :
    ∃ evs, (rec_read st2 w2 (Ptr.mem a2.ptr) size).2.trace = w.trace ++ evs ∧
      ∀ x, ¬ (a.pptr ≤ x ∧ x < a.pptr + 8) → ¬ in_regions (blocks evs) x →
        (rec_read st2 w2 (Ptr.mem a2.ptr) size).2.mem x = w.mem x := by
  obtain ⟨e1, t1, b1, m1⟩ := rec_io_frame st iofunc.read { w with cell := 0 } Ptr.cell
    SIZEOF_SIZE_T
  obtain ⟨e2, t2, m2, k2⟩ := rec_alloc_frame _ _ _ _ _ _ _ _ h
  obtain ⟨e3, t3, b3, m3⟩ := rec_io_frame st2 iofunc.read w2 (Ptr.mem a2.ptr) size
  refine ⟨e1 ++ e2 ++ e3, ?_, fun x hslot hblock => ?_⟩
  · simp only [rec_read] at t1 t2 ⊢
    rw [t3, t2, t1]
    simp [List.append_assoc]
  · have hb : ¬ in_regions (blocks e2) x := by
      intro hin
      apply hblock
      rw [blocks_append, blocks_append, b1, b3]
      simpa using hin
    have h12 : w2.mem x = w.mem x := by
      rw [m2 x hslot hb]
      exact m1 x (fun a ha => by cases ha)
    by_cases hnoop : st2.err = true ∨ (Ptr.mem a2.ptr).isNull = true ∨ size = 0
    · have : rec_read st2 w2 (Ptr.mem a2.ptr) size = (st2, w2) := by
        simp only [rec_read, rec_io, hnoop, if_true]
      rw [this]
      exact h12
    · have he : st2.err = false := by
        cases hh : st2.err
        · rfl
        · exact absurd (Or.inl hh) hnoop
      have hp : a2.ptr ≠ NULL := by
        intro hh
        apply hnoop
        right; left
        simp [Ptr.isNull, hh]
      simp only [rec_read]
      rw [m3 x ?_]
      · exact h12
      · intro a0 ha
        cases ha
        intro hx
        exact hb (k2 size x hsize he hp hx)

/-- What a directive of `vunpack` changes: the trace grows, and memory
changes only in the objects its arguments point to, in the bytes behind the
count object that the eight-byte store of `*TE` reaches, and in the blocks
that `calloc` hands out during the directive. -/
theorem vunpack_switch_frame (c : Char) (rest : List Char) (st : state) (w : World)
    (ap : List varg) (st1 : state) (w1 : World) (ap1 : List varg) (u : Bool)
    (h : vunpack_switch c rest st w ap = Except.ok (st1, w1, ap1, u)) :
    ∃ evs, w1.trace = w.trace ++ evs ∧
      ∀ x, ¬ in_regions (vunpack_slots c rest w.mem ap ++ vunpack_spill c rest w.mem ap ++
          blocks evs) x →
        w1.mem x = w.mem x := by
  unfold vunpack_switch at h
  split at h
  · rename_i hg
    obtain ⟨⟨a0, ap0⟩, h0, h⟩ := bind_ok _ _ _ h
    simp only [pure, Except.pure, Except.ok.injEq, Prod.mk.injEq] at h
    obtain ⟨rfl, rfl, -, -⟩ := h
    obtain ⟨evs, t, b, m⟩ := rec_io_frame st iofunc.read w (Ptr.mem a0.ptr) a0.size
    have hsl : vunpack_slots c rest w.mem ap = [(a0.ptr, a0.size)] := by
      simp only [vunpack_slots, hg, h0]
    refine ⟨evs, t, fun x hx => m x ?_⟩
    intro a ha
    cases ha
    intro hin
    apply hx
    rw [in_regions_append, in_regions_append, hsl]
    exact Or.inl (Or.inl ⟨_, List.mem_singleton.mpr rfl, hin⟩)
  · rename_i hg
    obtain ⟨⟨a0, ap0⟩, h0, h⟩ := bind_ok _ _ _ h
    obtain ⟨⟨st2, a2, w2⟩, h2, h⟩ := bind_ok _ _ _ h
    simp only [pure, Except.pure, Except.ok.injEq, Prod.mk.injEq] at h
    obtain ⟨rfl, rfl, -, -⟩ := h
    obtain ⟨evs, t, m⟩ := alloc_read_frame st w a0 _ 1 _ st2 a2 w2 h2
      (Nat.le_of_eq (Nat.mul_one _).symm)
    have hsl : vunpack_slots c rest w.mem ap = [(a0.pptr, 8)] := by
      simp only [vunpack_slots, hg, h0]
    refine ⟨evs, t, fun x hx => m x ?_ ?_⟩
    · intro hin
      apply hx
      rw [in_regions_append, in_regions_append, hsl]
      exact Or.inl (Or.inl ⟨_, List.mem_singleton.mpr rfl, hin⟩)
    · intro hin
      apply hx
      rw [in_regions_append]
      exact Or.inr hin
  · rename_i hg
    obtain ⟨t, ht, h⟩ := bind_ok _ _ _ h
    obtain ⟨⟨a0, ap0⟩, h0, h⟩ := bind_ok _ _ _ h
    obtain ⟨e, he, h⟩ := bind_ok _ _ _ h
    obtain ⟨⟨a1, ap2⟩, h1, h⟩ := bind_ok _ _ _ h
    obtain ⟨⟨st2, a2, w2⟩, h2, h⟩ := bind_ok _ _ _ h
    simp only [pure, Except.pure, Except.ok.injEq, Prod.mk.injEq] at h
    obtain ⟨rfl, rfl, -, -⟩ := h
    have hsz : (rec_read st { w with cell := 0 } Ptr.cell SIZEOF_SIZE_T).2.cell * a2.size %
        SIZE_MOD ≤
        (rec_read st { w with cell := 0 } Ptr.cell SIZEOF_SIZE_T).2.cell * a1.size := by
      rw [(rec_alloc_size _ _ _ _ _ _ _ _ h2).1]
      exact Nat.mod_le _ _
    obtain ⟨evs, tr, m⟩ := alloc_read_frame st w a1 _ a1.size _ st2 a2 w2 h2 hsz
    have hsl : vunpack_slots c rest w.mem ap = [(a1.pptr, 8)] := by
      simp only [vunpack_slots, hg, ht, h0, he, h1, bind, Except.bind]
    refine ⟨evs, tr, fun x hx => m x ?_ ?_⟩
    · intro hin
      apply hx
      rw [in_regions_append, in_regions_append, hsl]
      exact Or.inl (Or.inl ⟨_, List.mem_singleton.mpr rfl, hin⟩)
    · intro hin
      apply hx
      rw [in_regions_append]
      exact Or.inr hin
  · rename_i hg
    obtain ⟨t, ht, h⟩ := bind_ok _ _ _ h
    obtain ⟨⟨a0, ap0⟩, h0, h⟩ := bind_ok _ _ _ h
    obtain ⟨e, he, h⟩ := bind_ok _ _ _ h
    obtain ⟨⟨a1, ap2⟩, h1, h⟩ := bind_ok _ _ _ h
    obtain ⟨⟨st2, a2, w2⟩, h2, h⟩ := bind_ok _ _ _ h
    obtain ⟨w4, h4, h⟩ := bind_ok _ _ _ h
    simp only [pure, Except.pure, Except.ok.injEq, Prod.mk.injEq] at h
    obtain ⟨rfl, rfl, -, -⟩ := h
    have hsz : (rec_read st { w with cell := 0 } Ptr.cell SIZEOF_SIZE_T).2.cell * a2.size %
        SIZE_MOD ≤
        (rec_read st { w with cell := 0 } Ptr.cell SIZEOF_SIZE_T).2.cell * a1.size := by
      rw [(rec_alloc_size _ _ _ _ _ _ _ _ h2).1]
      exact Nat.mod_le _ _
    obtain ⟨evs, tr, m⟩ := alloc_read_frame st w a1 _ a1.size _ st2 a2 w2 h2 hsz
    obtain ⟨t4, m4⟩ := store_count_frame _ _ _ _ h4
    have hsl : vunpack_slots c rest w.mem ap = [(a0.ptr, a0.size), (a1.pptr, 8)] := by
      simp only [vunpack_slots, hg, ht, h0, he, h1, bind, Except.bind, pure, Except.pure]
    have hsp : vunpack_spill c rest w.mem ap = [(a0.ptr + a0.size, 8 - a0.size)] := by
      simp only [vunpack_spill, hg, ht, h0, bind, Except.bind]
    have h8 : a0.size ≤ 8 := arg_ptr_size _ _ _ _ _ h0
    refine ⟨evs, by rw [t4, tr], fun x hx => ?_⟩
    rw [in_regions_append, in_regions_append, hsl, hsp] at hx
    rw [m4 x ?_, m x ?_ ?_]
    · intro hin
      exact hx (Or.inl (Or.inl ⟨_, List.mem_cons_of_mem _ (List.mem_singleton.mpr rfl), hin⟩))
    · intro hin
      exact hx (Or.inr hin)
    · intro hin
      by_cases hlow : x < a0.ptr + a0.size
      · exact hx (Or.inl (Or.inl ⟨_, List.mem_cons_self _ _, ⟨hin.1, hlow⟩⟩))
      · exact hx (Or.inl (Or.inr ⟨_, List.mem_singleton.mpr rfl, by
          dsimp only
          omega⟩))
  · simp only [pure, Except.pure, Except.ok.injEq, Prod.mk.injEq] at h
    obtain ⟨rfl, rfl, -, -⟩ := h
    exact ⟨[], by simp [diagnose], fun _ _ => rfl⟩

/-- C14 (the code against the claim): a failing directive overwrites what an
earlier directive stored.  `*TE` ends with `*(size_t *) arg0.ptr = s`, a
store of eight bytes through the count pointer whatever the type `T` of the
count object, and it is executed also when the transfer has failed.  With
`"i*ic"`, an `int` at 4100 and the `int` count object at 4096, on a source
that delivers the `int`, the count 2 and then one byte only: the first
directive stores `1 2 3 4` at 4100, the second fails, the call returns `-1`
and the `int` at 4100, which is none of the objects the arguments of the
second directive point to, holds `0 0 0 0`.  What the code does keep: let the
directives `pre` succeed and the next directive `c` fail by a latched error
or as an unrecognized directive; then the call returns a negative value right
after that directive, and memory is as the earlier directives left it
everywhere outside the objects the arguments of the failing directive point
to, the `8 - sizeof (T)` bytes behind its count object and the blocks
`calloc` handed out during it. -/
theorem no_rollback (pre : List Char) (c : Char) (rest : List Char) (w : World)
    (ap : List varg) (r1 : result) (st2 : state) (w2 : World) (ap2 : List varg) (u : Bool)
    (hnul : Char.ofNat 0 ∉ pre) (hc : c ≠ Char.ofNat 0)
    (h1 : vunpack w pre ap = Except.ok r1) (he : r1.st.err = false)
    (hu : r1.unknown = false)
    (hk : vunpack_switch c rest r1.st r1.world r1.ap = Except.ok (st2, w2, ap2, u))
    (hfail : st2.err = true ∨ u = true) :
    (∃ q1 q, vunpack short_source ['i'] [varg.ptr 4100] = Except.ok q1 ∧
      q1.value = 4 ∧ load q1.world.mem 4100 4 = [1, 2, 3, 4] ∧
      vunpack short_source ['i', '*', 'i', 'c'] [varg.ptr 4100, varg.ptr 4096, varg.ptr 8192] =
        Except.ok q ∧
      q.value = -1 ∧
      vunpack_slots '*' ['i', 'c'] q1.world.mem [varg.ptr 4096, varg.ptr 8192] =
        [(4096, 4), (8192, 8)] ∧
      blocks (q.world.trace.drop q1.world.trace.length) = [(36864, 2)] ∧
      load q.world.mem 4100 4 = [0, 0, 0, 0]) ∧
    ∃ r, vunpack w (pre ++ c :: rest) ap = Except.ok r ∧ r.value < 0 ∧ r.world = w2 ∧
      r1.world.trace <+: r.world.trace ∧
      ∀ x, ¬ in_regions (vunpack_slots c rest r1.world.mem r1.ap ++
            vunpack_spill c rest r1.world.mem r1.ap ++
            blocks (r.world.trace.drop r1.world.trace.length)) x →
          r.world.mem x = r1.world.mem x := by
  refine ⟨⟨_, _, rfl, rfl, by decide, rfl, rfl, by decide, by decide, by decide⟩, ?_⟩
  obtain ⟨evs, t, m⟩ := vunpack_switch_frame c rest r1.st r1.world r1.ap st2 w2 ap2 u hk
  have happ := directive_loop_append vunpack_switch vunpack_switch_local pre (c :: rest)
    { ret := 0, err := false } w ap r1 h1 hnul he hu
  have hdrop : w2.trace.drop r1.world.trace.length = evs := by
    rw [t, List.drop_left]
  cases u with
  | true =>
    refine ⟨{ value := -1, st := st2, unknown := true, world := w2, ap := ap2 }, ?_,
      (by show (-1 : Int) < 0; decide), rfl, ⟨evs, t.symm⟩, ?_⟩
    · simp only [vunpack]
      rw [happ]
      simp only [directive_loop, hc, if_false, hk]
    · intro x hx
      rw [hdrop] at hx
      exact m x hx
  | false =>
    have he2 : st2.err = true := by
      rcases hfail with hf | hf
      · exact hf
      · cases hf
    refine ⟨finish st2 w2 ap2, ?_, (finish_latched st2 w2 ap2 he2).1, rfl, ⟨evs, t.symm⟩, ?_⟩
    · simp only [vunpack]
      rw [happ]
      exact loop_break _ c rest _ _ _ _ _ _ hc hk he2
    · intro x hx
      simp only [finish] at hx ⊢
      rw [hdrop] at hx
      exact m x hx

/-- Witness for C14: `vunpack` with `"ii"` on a source of six bytes.  The
first `int` is stored at 4096, the second read comes up short; the call
returns `-1` and the `int` at 4096 is the one the first directive stored. -/
theorem no_rollback_witness :
    ∃ r, vunpack (World.init (fun _ => 0) [1, 2, 3, 4, 5, 6] (fun _ _ _ => 0)) ['i', 'i']
        [varg.ptr 4096, varg.ptr 8192] = Except.ok r ∧ r.value < 0 ∧
      load r.world.mem 4096 4 = [1, 2, 3, 4] := by
  obtain ⟨-, r, h, hv, hw, -, -⟩ := no_rollback ['i'] 'i' []
    (World.init (fun _ => 0) [1, 2, 3, 4, 5, 6] (fun _ _ _ => 0))
    [varg.ptr 4096, varg.ptr 8192] _ _ _ _ _ (by decide) (by decide) rfl rfl rfl rfl
    (Or.inl rfl)
  refine ⟨r, h, hv, ?_⟩
  rw [hw]
  decide

theorem loop_step (sw : switch_fn) (c : Char) (rest : List Char) (st st1 : state)
    (w w1 : World) (ap ap1 : List varg) (hc : c ≠ Char.ofNat 0)
    (hg : ¬ ((tcode.of c).group = group.array_val ∨ (tcode.of c).group = group.array_ptr))
    (h : sw c rest st w ap = Except.ok (st1, w1, ap1, false)) (he : st1.err = false) :
    directive_loop sw (c :: rest) st w ap = directive_loop sw rest st1 w1 ap1 := by
  simp only [directive_loop, hc, if_false, h, he, hg, Bool.false_eq_true]

theorem is_cstring_of_load (m : Nat → Nat) (p : Nat) (body : List Nat)
    (hb : ∀ b ∈ body, b % 256 ≠ 0) (h : load m p (body.length + 1) = body ++ [0]) :
    is_cstring m p body.length := by
  have hget : ∀ i, i < body.length + 1 → m (p + i) = (body ++ [0]).getD i 0 := by
    intro i hi
    have h1 : i < (load m p (body.length + 1)).length := by rw [load_length]; exact hi
    rw [← load_getElem m p (body.length + 1) i h1, ← List.getD_eq_getElem _ 0 h1, h]
  constructor
  · intro i hi
    rw [hget i (by omega), List.getD_append _ _ _ _ hi, List.getD_eq_getElem _ _ hi]
    exact hb _ (List.getElem_mem _)
  · rw [hget body.length (by omega), List.getD_append_right _ _ _ _ (le_refl _)]
    simp

/-- The pack half of the round trip: on a sink that accepts all bytes `vpack`
writes the byte stream of the items and returns its length; memory is left as
it was. -/
theorem pack_items (items : List item) : ∀ (st : state) (w : World),
    (∀ it ∈ items, it.ok) → (∀ it ∈ items, it.packed w.mem) → st.err = false →
    w.script = [] →
    ∃ r, directive_loop vpack_switch (format items) st w (pargs items) = Except.ok r ∧
      r.st = { ret := st.ret + ((wire items).length : Nat), err := false } ∧
      r.value = st.ret + ((wire items).length : Nat) ∧ r.unknown = false ∧
      r.world.output = w.output ++ wire items ∧ r.world.mem = w.mem := by
  induction items with
  | nil =>
    intro st w _ _ he _
    refine ⟨finish st w [], rfl, ?_, ?_, rfl, ?_, rfl⟩
    · cases st
      simp only [finish, wire, List.length_nil, Nat.cast_zero, add_zero] at he ⊢
      rw [he]
    · simp [finish, wire, he]
    · simp [finish, wire]
  | cons it its ih =>
    intro st w hok hpk he hs
    have hok1 := hok it (List.mem_cons_self _ _)
    have hpk1 := hpk it (List.mem_cons_self _ _)
    have hok2 : ∀ x ∈ its, x.ok := fun x hx => hok x (List.mem_cons_of_mem _ hx)
    have hpk2 : ∀ x ∈ its, x.packed w.mem := fun x hx => hpk x (List.mem_cons_of_mem _ hx)
    cases it with
    | scalar X ty bytes p q =>
      obtain ⟨hX, hlen⟩ := hok1
      obtain ⟨hp, hload⟩ := hpk1
      obtain ⟨hg, hc, -, -, -⟩ := int_codes_facts X ty hX
      have hsw := vpack_switch_scalar X ty hX (format its) st w p (pargs its) hp he hs
      have hstep := loop_step _ X (format its) _ _ w _ _ _ hc (by rw [hg]; decide) hsw rfl
      obtain ⟨st1, w1, hstep, e1, e2, e3, e4⟩ : ∃ st1 w1,
          directive_loop vpack_switch (X :: format its) st w (varg.ptr p :: pargs its) =
            directive_loop vpack_switch (format its) st1 w1 (pargs its) ∧
          st1 = { ret := st.ret + ty.size, err := false } ∧ w1.mem = w.mem ∧ w1.script = [] ∧
          w1.output = w.output ++ load w.mem p ty.size := ⟨_, _, hstep, rfl, rfl, hs, rfl⟩
      obtain ⟨r, h1, h2, h3, h4, h5, h6⟩ := ih st1 w1 hok2 (by rw [e2]; exact hpk2)
        (by rw [e1]) e3
      rw [e1] at h2 h3
      rw [e4] at h5
      rw [e2] at h6
      refine ⟨r, ?_, ?_, ?_, h4, ?_, h6⟩
      · simp only [format, item.fmt, pargs, item.pargs, List.singleton_append]
        rw [hstep]
        exact h1
      · rw [h2]
        simp only [wire, item.wire, List.length_append, hlen]
        push_cast
        rw [add_assoc]
      · rw [h3]
        simp only [wire, item.wire, List.length_append, hlen]
        push_cast
        rw [add_assoc]
      · rw [h5]
        simp only [wire, item.wire, hload, List.append_assoc]
    | string body pp qq =>
      obtain ⟨hbody, hle⟩ := hok1
      obtain ⟨hpp, hbuf, hload⟩ := hpk1
      have hstr := is_cstring_of_load w.mem _ body hbody hload
      have hsw := vpack_switch_string (format its) st w pp (pargs its) body.length hpp hbuf
        (by simp only [SIZE_MOD]; omega) hstr he hs
      have hstep := loop_step _ 's' (format its) _ _ w _ _ _ (by decide) (by decide) hsw rfl
      obtain ⟨st1, w1, hstep, e1, e2, e3, e4⟩ : ∃ st1 w1,
          directive_loop vpack_switch ('s' :: format its) st w (varg.ptr pp :: pargs its) =
            directive_loop vpack_switch (format its) st1 w1 (pargs its) ∧
          st1 = { ret := st.ret + 8 + (body.length + 1 : Nat), err := false } ∧
          w1.mem = w.mem ∧ w1.script = [] ∧
          w1.output = w.output ++ leBytes 8 (body.length + 1) ++
            load w.mem (leVal (load w.mem pp 8)) (body.length + 1) :=
        ⟨_, _, hstep, rfl, rfl, hs, rfl⟩
      obtain ⟨r, h1, h2, h3, h4, h5, h6⟩ := ih st1 w1 hok2 (by rw [e2]; exact hpk2)
        (by rw [e1]) e3
      rw [e1] at h2 h3
      rw [e4] at h5
      rw [e2] at h6
      refine ⟨r, ?_, ?_, ?_, h4, ?_, h6⟩
      · simp only [format, item.fmt, pargs, item.pargs, List.singleton_append]
        rw [hstep]
        exact h1
      · rw [h2]
        simp only [wire, item.wire, List.length_append, leBytes_length, List.length_singleton]
        push_cast
        congr 1
        ring
      · rw [h3]
        simp only [wire, item.wire, List.length_append, leBytes_length, List.length_singleton]
        push_cast
        ring
      · rw [h5]
        simp only [wire, item.wire, hload, List.append_assoc]
    | array_val T tyT E ty cnt bytes pp qq v =>
      obtain ⟨hT, hE, hrep, hlen, hpos, hle⟩ := hok1
      obtain ⟨hpp, hbuf, hload⟩ := hpk1
      obtain ⟨sz, hb⟩ := arg_val_count T tyT hT cnt hrep arg.zero (varg.ptr pp :: pargs its)
      have hsw := vpack_switch_array '=' T E ty (Or.inl rfl) hE (format its) st w
        (varg.int cnt :: varg.ptr pp :: pargs its) (pargs its) _ cnt pp
        (by rw [if_pos rfl]; exact hb) rfl hpp hbuf (by simp only [SIZE_MOD]; omega) he hs
      have hstep := loop_array_step _ '=' T E (format its) _ _ w _ _ _ (Or.inl rfl) hsw rfl
      obtain ⟨st1, w1, hstep, e1, e2, e3, e4⟩ : ∃ st1 w1,
          directive_loop vpack_switch ('=' :: T :: E :: format its) st w
              (varg.int cnt :: varg.ptr pp :: pargs its) =
            directive_loop vpack_switch (format its) st1 w1 (pargs its) ∧
          st1 = { ret := st.ret + 8 + (cnt * ty.size : Nat), err := false } ∧
          w1.mem = w.mem ∧ w1.script = [] ∧
          w1.output = w.output ++ leBytes 8 cnt ++
            load w.mem (leVal (load w.mem pp 8)) (cnt * ty.size) :=
        ⟨_, _, hstep, rfl, rfl, hs, rfl⟩
      obtain ⟨r, h1, h2, h3, h4, h5, h6⟩ := ih st1 w1 hok2 (by rw [e2]; exact hpk2)
        (by rw [e1]) e3
      rw [e1] at h2 h3
      rw [e4] at h5
      rw [e2] at h6
      refine ⟨r, ?_, ?_, ?_, h4, ?_, h6⟩
      · simp only [format, item.fmt, pargs, item.pargs, List.cons_append, List.nil_append]
        rw [hstep]
        exact h1
      · rw [h2]
        simp only [wire, item.wire, List.length_append, leBytes_length, hlen]
        push_cast
        congr 1
        ring
      · rw [h3]
        simp only [wire, item.wire, List.length_append, leBytes_length, hlen]
        push_cast
        ring
      · rw [h5]
        simp only [wire, item.wire, hload, List.append_assoc]
    | array_ptr T tyT E ty cnt bytes cp pp cq qq =>
      obtain ⟨hT, hE, hrep, hlen, hpos, hle, -⟩ := hok1
      obtain ⟨hcp, hobj, hpp, hbuf, hload⟩ := hpk1
      have hb := arg_ptr_count T tyT hT cnt hrep w.mem cp hcp hobj arg.zero
        (varg.ptr pp :: pargs its)
      have hsw := vpack_switch_array '*' T E ty (Or.inr rfl) hE (format its) st w
        (varg.ptr cp :: varg.ptr pp :: pargs its) (pargs its) _ cnt pp
        (by rw [if_neg (by decide)]; exact hb) rfl hpp hbuf (by simp only [SIZE_MOD]; omega)
        he hs
      have hstep := loop_array_step _ '*' T E (format its) _ _ w _ _ _ (Or.inr rfl) hsw rfl
      obtain ⟨st1, w1, hstep, e1, e2, e3, e4⟩ : ∃ st1 w1,
          directive_loop vpack_switch ('*' :: T :: E :: format its) st w
              (varg.ptr cp :: varg.ptr pp :: pargs its) =
            directive_loop vpack_switch (format its) st1 w1 (pargs its) ∧
          st1 = { ret := st.ret + 8 + (cnt * ty.size : Nat), err := false } ∧
          w1.mem = w.mem ∧ w1.script = [] ∧
          w1.output = w.output ++ leBytes 8 cnt ++
            load w.mem (leVal (load w.mem pp 8)) (cnt * ty.size) :=
        ⟨_, _, hstep, rfl, rfl, hs, rfl⟩
      obtain ⟨r, h1, h2, h3, h4, h5, h6⟩ := ih st1 w1 hok2 (by rw [e2]; exact hpk2)
        (by rw [e1]) e3
      rw [e1] at h2 h3
      rw [e4] at h5
      rw [e2] at h6
      refine ⟨r, ?_, ?_, ?_, h4, ?_, h6⟩
      · simp only [format, item.fmt, pargs, item.pargs, List.cons_append, List.nil_append]
        rw [hstep]
        exact h1
      · rw [h2]
        simp only [wire, item.wire, List.length_append, leBytes_length, hlen]
        push_cast
        congr 1
        ring
      · rw [h3]
        simp only [wire, item.wire, List.length_append, leBytes_length, hlen]
        push_cast
        ring
      · rw [h5]
        simp only [wire, item.wire, hload, List.append_assoc]

theorem apart_not_in (rs : List (Nat × Nat)) (a n x : Nat) (h : ∀ s ∈ rs, apart (a, n) s)
    (h1 : a ≤ x) (h2 : x < a + n) : ¬ in_regions rs x := by
  rintro ⟨s, hs, h3, h4⟩
  have := h s hs
  simp only [apart] at this
  omega

/-- A region apart from all regions a run stores to holds what it held. -/
theorem kept (m1 m2 : Nat → Nat) (rs : List (Nat × Nat)) (a n : Nat)
    (hframe : ∀ x, ¬ in_regions rs x → m2 x = m1 x) (h : ∀ s ∈ rs, apart (a, n) s) :
    load m2 a n = load m1 a n :=
  load_congr _ _ _ _ fun i hi => hframe _ (apart_not_in rs a n (a + i) h (by omega) (by omega))

theorem not_in_cons (r : Nat × Nat) (rs : List (Nat × Nat)) (x : Nat)
    (h : ¬ in_regions (r :: rs) x) : ¬ (r.1 ≤ x ∧ x < r.1 + r.2) ∧ ¬ in_regions rs x := by
  constructor
  · intro h1
    exact h ⟨r, List.mem_cons_self _ _, h1⟩
  · rintro ⟨s, hs, h1⟩
    exact h ⟨s, List.mem_cons_of_mem _ hs, h1⟩

/-- The memory `vunpack` leaves after a buffer directive: the slot holds the
address of the block, the block the data, everything else what it held. -/
theorem unpacked_mem (w : World) (cnt sz qq : Nat) (data tail : List Nat)
    (hlen : data.length = cnt * sz)
    (hap : apart (qq, 8) (w.alloc w.nalloc cnt sz, cnt * sz)) :
    load (unpacked w cnt sz qq data tail).mem qq 8 = leBytes 8 (w.alloc w.nalloc cnt sz) ∧
      load (unpacked w cnt sz qq data tail).mem (w.alloc w.nalloc cnt sz) (cnt * sz) = data ∧
      ∀ x, ¬ (qq ≤ x ∧ x < qq + 8) →
        ¬ (w.alloc w.nalloc cnt sz ≤ x ∧ x < w.alloc w.nalloc cnt sz + cnt * sz) →
        (unpacked w cnt sz qq data tail).mem x = w.mem x := by
  simp only [apart] at hap
  refine ⟨?_, ?_, fun x h1 h2 => ?_⟩
  · simp only [unpacked]
    rw [load_store_disjoint _ _ _ _ _ (by omega)]
    have := load_store_same (zero_fill w.mem (w.alloc w.nalloc cnt sz) (cnt * sz)) qq
      (leBytes 8 (w.alloc w.nalloc cnt sz))
    rw [leBytes_length] at this
    exact this
  · simp only [unpacked]
    have := load_store_same
      (store (zero_fill w.mem (w.alloc w.nalloc cnt sz) (cnt * sz)) qq
        (leBytes 8 (w.alloc w.nalloc cnt sz))) (w.alloc w.nalloc cnt sz) data
    rw [hlen] at this
    exact this
  · simp only [unpacked]
    rw [store_outside _ _ _ _ (by omega), store_outside _ _ _ _ (by rw [leBytes_length]; omega),
      zero_fill_outside _ _ _ _ (by omega)]



/-- The unpack half of the round trip: on a source that holds the byte stream
of the items, with an allocator that grants every request and with receiving
objects and blocks that do not overlap, `vunpack` consumes the stream,
returns its length and delivers every item; memory outside the receiving
objects and the blocks is left as it was. -/
theorem unpack_items (items : List item) : ∀ (st : state) (w : World) (tail : List Nat),
    (∀ it ∈ items, it.ok) → st.err = false → w.script = [] → w.input = wire items ++ tail →
    granted w.alloc w.nalloc items → (regions w.alloc w.nalloc items).Pairwise apart →
    ∃ r, directive_loop vunpack_switch (format items) st w (uargs items) = Except.ok r ∧
      r.st = { ret := st.ret + ((wire items).length : Nat), err := false } ∧
      r.value = st.ret + ((wire items).length : Nat) ∧ r.unknown = false ∧
      r.world.input = tail ∧ delivered r.world.mem w.alloc w.nalloc items ∧
      ∀ x, ¬ in_regions (regions w.alloc w.nalloc items) x → r.world.mem x = w.mem x := by
  induction items with
  | nil =>
    intro st w tail _ he _ hin _ _
    refine ⟨finish st w [], rfl, ?_, ?_, rfl, ?_, trivial, fun _ _ => rfl⟩
    · cases st
      simp only [finish, wire, List.length_nil, Nat.cast_zero, add_zero] at he ⊢
      rw [he]
    · simp [finish, wire, he]
    · simpa [finish, wire] using hin
  | cons it its ih =>
    intro st w tail hok he hs hin hgr hpw
    have hok1 := hok it (List.mem_cons_self _ _)
    have hok2 : ∀ x ∈ its, x.ok := fun x hx => hok x (List.mem_cons_of_mem _ hx)
    obtain ⟨hgr1, hgr2⟩ := hgr
    simp only [regions] at hpw
    obtain ⟨hp1, hp2, hcross⟩ := List.pairwise_append.mp hpw
    cases it with
    | scalar X ty bytes p q =>
      obtain ⟨hX, hlen⟩ := hok1
      obtain ⟨hg, hc, -, -, -⟩ := int_codes_facts X ty hX
      have hin1 : w.input = bytes ++ (wire its ++ tail) := by
        rw [hin]
        simp only [wire, item.wire, List.append_assoc]
      have hsw := vunpack_switch_scalar X ty hX (format its) st w q (uargs its) bytes
        (wire its ++ tail) hgr1 he hs hin1 hlen
      have hstep := loop_step _ X (format its) _ _ w _ _ _ hc (by rw [hg]; decide) hsw rfl
      obtain ⟨st1, w1, hstep, e1, e2, e3, e4, e5, e6⟩ : ∃ st1 w1,
          directive_loop vunpack_switch (X :: format its) st w (varg.ptr q :: uargs its) =
            directive_loop vunpack_switch (format its) st1 w1 (uargs its) ∧
          st1 = { ret := st.ret + ty.size, err := false } ∧ w1.mem = store w.mem q bytes ∧
          w1.script = [] ∧ w1.input = wire its ++ tail ∧ w1.alloc = w.alloc ∧
          w1.nalloc = w.nalloc := ⟨_, _, hstep, rfl, rfl, hs, rfl, rfl, rfl⟩
      obtain ⟨r, h1, h2, h3, h4, h5, h6, h7⟩ := ih st1 w1 tail hok2 (by rw [e1]) e3 e4
        (by rw [e5, e6]; exact hgr2) (by rw [e5, e6]; exact hp2)
      rw [e1] at h2 h3
      rw [e5, e6] at h6 h7
      rw [e2] at h7
      refine ⟨r, ?_, ?_, ?_, h4, h5, ⟨?_, h6⟩, fun x hx => ?_⟩
      · simp only [format, item.fmt, uargs, item.uargs, List.singleton_append]
        rw [hstep]
        exact h1
      · rw [h2]
        simp only [wire, item.wire, List.length_append, hlen]
        push_cast
        rw [add_assoc]
      · rw [h3]
        simp only [wire, item.wire, List.length_append, hlen]
        push_cast
        rw [add_assoc]
      · show load r.world.mem q ty.size = bytes
        rw [kept _ _ _ q ty.size h7 (fun s hs => hcross _ (List.mem_singleton.mpr rfl) s hs),
          ← hlen]
        exact load_store_same _ _ _
      · simp only [regions, item.regions, List.singleton_append] at hx
        obtain ⟨hx1, hx2⟩ := not_in_cons _ _ _ hx
        rw [h7 x hx2]
        exact store_outside _ _ _ _ (by rw [hlen]; simp only at hx1; omega)
    | string body pp qq =>
      obtain ⟨hbody, hle⟩ := hok1
      obtain ⟨hqq, hb⟩ := hgr1
      have hin1 : w.input = leBytes 8 (body.length + 1) ++ ((body ++ [0]) ++ (wire its ++ tail)) := by
        rw [hin]
        simp only [wire, item.wire, List.append_assoc]
      have hlen : (body ++ [0]).length = (body.length + 1) * 1 := by simp
      have hsw := (vunpack_switch_buffer (body.length + 1) 1 w hs (body ++ [0])
        (wire its ++ tail) hin1 hlen (by omega) (by omega) hb qq hqq (uargs its) (format its)
        st he).1 rfl
      have hstep := loop_step _ 's' (format its) _ _ w _ _ _ (by decide) (by decide) hsw rfl
      obtain ⟨st1, w1, hstep, e1, e2, e3, e4, e5, e6⟩ : ∃ st1 w1,
          directive_loop vunpack_switch ('s' :: format its) st w (varg.ptr qq :: uargs its) =
            directive_loop vunpack_switch (format its) st1 w1 (uargs its) ∧
          st1 = { ret := st.ret + 8 + ((body.length + 1) * 1 : Nat), err := false } ∧
          w1.mem = (unpacked w (body.length + 1) 1 qq (body ++ [0]) (wire its ++ tail)).mem ∧
          w1.script = [] ∧ w1.input = wire its ++ tail ∧ w1.alloc = w.alloc ∧
          w1.nalloc = w.nalloc + 1 := ⟨_, _, hstep, rfl, rfl, hs, rfl, rfl, rfl⟩
      obtain ⟨r, h1, h2, h3, h4, h5, h6, h7⟩ := ih st1 w1 tail hok2 (by rw [e1]) e3 e4
        (by rw [e5, e6]; exact hgr2) (by rw [e5, e6]; exact hp2)
      rw [e1] at h2 h3
      rw [e5, e6] at h6 h7
      rw [e2] at h7
      have hap : apart (qq, 8) (w.alloc w.nalloc (body.length + 1) 1, (body.length + 1) * 1) := by
        have := List.rel_of_pairwise_cons hp1 (List.mem_singleton.mpr rfl)
        rw [Nat.mul_one]
        exact this
      obtain ⟨m1, m2, m3⟩ := unpacked_mem w (body.length + 1) 1 qq (body ++ [0])
        (wire its ++ tail) hlen hap
      refine ⟨r, ?_, ?_, ?_, h4, h5, ⟨⟨?_, ?_⟩, h6⟩, fun x hx => ?_⟩
      · simp only [format, item.fmt, uargs, item.uargs, List.singleton_append]
        rw [hstep]
        exact h1
      · rw [h2]
        simp only [wire, item.wire, List.length_append, leBytes_length, List.length_singleton]
        push_cast
        congr 1
        ring
      · rw [h3]
        simp only [wire, item.wire, List.length_append, leBytes_length, List.length_singleton]
        push_cast
        ring
      · rw [kept _ _ _ qq 8 h7 (fun s hs => hcross _ (List.mem_cons_self _ _) s hs)]
        exact m1
      · rw [kept _ _ _ _ (body.length + 1) h7
          (fun s hs => hcross _ (List.mem_cons_of_mem _ (List.mem_singleton.mpr rfl)) s hs)]
        rw [Nat.mul_one] at m2
        exact m2
      · simp only [regions, item.regions, item.block, item.request, List.cons_append,
          List.nil_append] at hx
        obtain ⟨hx1, hx⟩ := not_in_cons _ _ _ hx
        obtain ⟨hx2, hx3⟩ := not_in_cons _ _ _ hx
        rw [h7 x hx3]
        exact m3 x hx1 (by rw [Nat.mul_one]; exact hx2)
    | array_val T tyT E ty cnt bytes pp qq v =>
      obtain ⟨hT, hE, hrep, hlen, hpos, hle⟩ := hok1
      obtain ⟨hqq, hb⟩ := hgr1
      have hin1 : w.input = leBytes 8 cnt ++ (bytes ++ (wire its ++ tail)) := by
        rw [hin]
        simp only [wire, item.wire, List.append_assoc]
      have hsw := (vunpack_switch_buffer cnt ty.size w hs bytes (wire its ++ tail) hin1 hlen
        hpos hle hb qq hqq (uargs its) (format its) st he).2.1 T tyT E ty v hT hE rfl
      have hstep := loop_array_step _ '=' T E (format its) _ _ w _ _ _ (Or.inl rfl) hsw rfl
      obtain ⟨st1, w1, hstep, e1, e2, e3, e4, e5, e6⟩ : ∃ st1 w1,
          directive_loop vunpack_switch ('=' :: T :: E :: format its) st w
              (varg.int v :: varg.ptr qq :: uargs its) =
            directive_loop vunpack_switch (format its) st1 w1 (uargs its) ∧
          st1 = { ret := st.ret + 8 + (cnt * ty.size : Nat), err := false } ∧
          w1.mem = (unpacked w cnt ty.size qq bytes (wire its ++ tail)).mem ∧
          w1.script = [] ∧ w1.input = wire its ++ tail ∧ w1.alloc = w.alloc ∧
          w1.nalloc = w.nalloc + 1 := ⟨_, _, hstep, rfl, rfl, hs, rfl, rfl, rfl⟩
      obtain ⟨r, h1, h2, h3, h4, h5, h6, h7⟩ := ih st1 w1 tail hok2 (by rw [e1]) e3 e4
        (by rw [e5, e6]; exact hgr2) (by rw [e5, e6]; exact hp2)
      rw [e1] at h2 h3
      rw [e5, e6] at h6 h7
      rw [e2] at h7
      have hap : apart (qq, 8) (w.alloc w.nalloc cnt ty.size, cnt * ty.size) :=
        List.rel_of_pairwise_cons hp1 (List.mem_singleton.mpr rfl)
      obtain ⟨m1, m2, m3⟩ := unpacked_mem w cnt ty.size qq bytes (wire its ++ tail) hlen hap
      refine ⟨r, ?_, ?_, ?_, h4, h5, ⟨⟨?_, ?_⟩, h6⟩, fun x hx => ?_⟩
      · simp only [format, item.fmt, uargs, item.uargs, List.cons_append, List.nil_append]
        rw [hstep]
        exact h1
      · rw [h2]
        simp only [wire, item.wire, List.length_append, leBytes_length, hlen]
        push_cast
        congr 1
        ring
      · rw [h3]
        simp only [wire, item.wire, List.length_append, leBytes_length, hlen]
        push_cast
        ring
      · rw [kept _ _ _ qq 8 h7 (fun s hs => hcross _ (List.mem_cons_self _ _) s hs)]
        exact m1
      · rw [kept _ _ _ _ (cnt * ty.size) h7
          (fun s hs => hcross _ (List.mem_cons_of_mem _ (List.mem_singleton.mpr rfl)) s hs)]
        exact m2
      · simp only [regions, item.regions, item.block, item.request, List.cons_append,
          List.nil_append] at hx
        obtain ⟨hx1, hx⟩ := not_in_cons _ _ _ hx
        obtain ⟨hx2, hx3⟩ := not_in_cons _ _ _ hx
        rw [h7 x hx3]
        exact m3 x hx1 hx2
    | array_ptr T tyT E ty cnt bytes cp pp cq qq =>
      obtain ⟨hT, hE, hrep, hlen, hpos, hle, h8⟩ := hok1
      obtain ⟨hcq, hqq, hb⟩ := hgr1
      simp only [item.regions, h8] at hp1 hcross
      have hcnt : tyT.repr cnt = leBytes 8 cnt := by
        have hlt : cnt < SIZE_MOD := in_range_nat tyT (Or.inr (Or.inr (Or.inr h8))) cnt hrep
        simp only [ctype.repr, h8, to_uintmax_nat cnt hlt]
      have hin1 : w.input = leBytes 8 cnt ++ (bytes ++ (wire its ++ tail)) := by
        rw [hin]
        simp only [wire, item.wire, List.append_assoc]
      have hsw := (vunpack_switch_buffer cnt ty.size w hs bytes (wire its ++ tail) hin1 hlen
        hpos hle hb qq hqq (uargs its) (format its) st he).2.2 T tyT E ty cq hT hE rfl hcq
      have hstep := loop_array_step _ '*' T E (format its) _ _ w _ _ _ (Or.inr rfl) hsw rfl
      obtain ⟨st1, w1, hstep, e1, e2, e3, e4, e5, e6⟩ : ∃ st1 w1,
          directive_loop vunpack_switch ('*' :: T :: E :: format its) st w
              (varg.ptr cq :: varg.ptr qq :: uargs its) =
            directive_loop vunpack_switch (format its) st1 w1 (uargs its) ∧
          st1 = { ret := st.ret + 8 + (cnt * ty.size : Nat), err := false } ∧
          w1.mem = store (unpacked w cnt ty.size qq bytes (wire its ++ tail)).mem cq
            (leBytes 8 cnt) ∧
          w1.script = [] ∧ w1.input = wire its ++ tail ∧ w1.alloc = w.alloc ∧
          w1.nalloc = w.nalloc + 1 := ⟨_, _, hstep, rfl, rfl, hs, rfl, rfl, rfl⟩
      obtain ⟨r, h1, h2, h3, h4, h5, h6, h7⟩ := ih st1 w1 tail hok2 (by rw [e1]) e3 e4
        (by rw [e5, e6]; exact hgr2) (by rw [e5, e6]; exact hp2)
      rw [e1] at h2 h3
      rw [e5, e6] at h6 h7
      rw [e2] at h7
      obtain ⟨hc1, hp1b⟩ := List.pairwise_cons.mp hp1
      have hap : apart (qq, 8) (w.alloc w.nalloc cnt ty.size, cnt * ty.size) :=
        List.rel_of_pairwise_cons hp1b (List.mem_singleton.mpr rfl)
      have hcq1 : apart (cq, 8) (qq, 8) := hc1 _ (List.mem_cons_self _ _)
      have hcq2 : apart (cq, 8) (w.alloc w.nalloc cnt ty.size, cnt * ty.size) :=
        hc1 _ (List.mem_cons_of_mem _ (List.mem_singleton.mpr rfl))
      simp only [apart] at hcq1 hcq2
      obtain ⟨m1, m2, m3⟩ := unpacked_mem w cnt ty.size qq bytes (wire its ++ tail) hlen hap
      refine ⟨r, ?_, ?_, ?_, h4, h5, ⟨⟨?_, ?_, ?_⟩, h6⟩, fun x hx => ?_⟩
      · simp only [format, item.fmt, uargs, item.uargs, List.cons_append, List.nil_append]
        rw [hstep]
        exact h1
      · rw [h2]
        simp only [wire, item.wire, List.length_append, leBytes_length, hlen]
        push_cast
        congr 1
        ring
      · rw [h3]
        simp only [wire, item.wire, List.length_append, leBytes_length, hlen]
        push_cast
        ring
      · show load r.world.mem cq tyT.size = tyT.repr cnt
        rw [h8, hcnt, kept _ _ _ cq 8 h7 (fun s hs => hcross _ (List.mem_cons_self _ _) s hs)]
        have := load_store_same (unpacked w cnt ty.size qq bytes (wire its ++ tail)).mem cq
          (leBytes 8 cnt)
        rw [leBytes_length] at this
        exact this
      · rw [kept _ _ _ qq 8 h7
          (fun s hs => hcross _ (List.mem_cons_of_mem _ (List.mem_cons_self _ _)) s hs),
          load_store_disjoint _ _ _ _ _ (by rw [leBytes_length]; omega)]
        exact m1
      · show load r.world.mem (w.alloc w.nalloc cnt ty.size) (cnt * ty.size) = bytes
        rw [kept _ _ _ (w.alloc w.nalloc cnt ty.size) (cnt * ty.size) h7
          (fun s hs => hcross _
            (List.mem_cons_of_mem _ (List.mem_cons_of_mem _ (List.mem_singleton.mpr rfl))) s hs),
          load_store_disjoint _ _ _ _ _ (by rw [leBytes_length]; omega)]
        exact m2
      · simp only [regions, item.regions, item.block, item.request, List.cons_append,
          List.nil_append, h8] at hx
        obtain ⟨hx0, hx⟩ := not_in_cons _ _ _ hx
        obtain ⟨hx1, hx⟩ := not_in_cons _ _ _ hx
        obtain ⟨hx2, hx3⟩ := not_in_cons _ _ _ hx
        rw [h7 x hx3, store_outside _ _ _ _ (by rw [leBytes_length]; simp only at hx0; omega)]
        exact m3 x hx1 hx2

/-- C1 amended, the round trip: take any list of items whose directives are
integer scalar codes, `s`, `=TE` and `*TE` with integer codes `T` and `E`,
every string and array being between 1 and 16777216 bytes long and every
count object of `*TE` being of a type as wide as `size_t`.  Let the
memory of the packing caller hold the items and the sink accept all bytes;
then `vpack` with the format and the arguments of the items returns the
length of the byte stream it wrote, without error.  Let the source deliver
that stream, the allocator grant every request, and the receiving objects and
the blocks handed out not overlap; then `vunpack` with the same format
returns the same value without error, consumes the whole stream, and leaves
every scalar object with the packed bytes and every slot with the address of
a block that holds the packed bytes of the string or array, and every count
object of `*TE` with the bytes of the packed count object. -/
theorem round_trip (items : List item) (hok : ∀ it ∈ items, it.ok) (wp : World)
    (hsink : wp.script = []) (hout : wp.output = []) (hpk : ∀ it ∈ items, it.packed wp.mem)
    (wu : World) (hsrc : wu.script = []) (hgr : granted wu.alloc wu.nalloc items)
    (hap : (regions wu.alloc wu.nalloc items).Pairwise apart) :
    ∃ rp ru, vpack wp (format items) (pargs items) = Except.ok rp ∧ rp.st.err = false ∧
      rp.value = ((wire items).length : Nat) ∧ rp.world.output = wire items ∧
      vunpack { wu with input := rp.world.output } (format items) (uargs items) =
        Except.ok ru ∧
      ru.st.err = false ∧ ru.value = rp.value ∧ ru.world.input = [] ∧
      delivered ru.world.mem wu.alloc wu.nalloc items := by
  obtain ⟨rp, p1, p2, p3, -, p5, -⟩ := pack_items items { ret := 0, err := false } wp hok hpk rfl
    hsink
  rw [hout, List.nil_append] at p5
  obtain ⟨ru, u1, u2, u3, -, u5, u6, -⟩ := unpack_items items { ret := 0, err := false }
    { wu with input := rp.world.output } [] hok rfl hsrc
    (by rw [p5, List.append_nil]) hgr hap
  refine ⟨rp, ru, p1, by rw [p2], by rw [p3, zero_add], p5, u1, by rw [u2], ?_, u5, u6⟩
  rw [u3, p3]

/-- Witness for the amended C1: the three items of `sample_items`, packed from
`sample_mem` and unpacked with an allocator that hands out a new page per
call. -/
theorem round_trip_witness :
    ∃ rp ru, vpack (World.init sample_mem [] paging) (format sample_items)
        (pargs sample_items) = Except.ok rp ∧ rp.st.err = false ∧
      rp.value = ((wire sample_items).length : Nat) ∧ rp.world.output = wire sample_items ∧
      vunpack { World.init (fun _ => 0) [] paging with input := rp.world.output }
          (format sample_items) (uargs sample_items) = Except.ok ru ∧
      ru.st.err = false ∧ ru.value = rp.value ∧ ru.world.input = [] ∧
      delivered ru.world.mem paging 0 sample_items :=
  round_trip sample_items
    (by
      intro it hit
      simp only [sample_items, List.mem_cons, List.mem_nil_iff, or_false] at hit
      rcases hit with rfl | rfl | rfl
      · exact ⟨by decide, rfl⟩
      · exact ⟨by decide, by decide⟩
      · exact ⟨by decide, by decide, by decide, rfl, by decide, by decide, rfl⟩)
    (World.init sample_mem [] paging) rfl rfl
    (by
      intro it hit
      simp only [sample_items, List.mem_cons, List.mem_nil_iff, or_false] at hit
      rcases hit with rfl | rfl | rfl
      · exact ⟨by decide, by decide⟩
      · exact ⟨by decide, by decide, by decide⟩
      · exact ⟨by decide, by decide, by decide, by decide, by decide⟩)
    (World.init (fun _ => 0) [] paging) rfl
    ⟨(by decide : (4096 : Nat) ≠ NULL),
      ⟨(by decide : (4112 : Nat) ≠ NULL), (by decide : paging 0 3 1 ≠ NULL)⟩,
      ⟨(by decide : (4136 : Nat) ≠ NULL), (by decide : (4144 : Nat) ≠ NULL),
        (by decide : paging 1 2 2 ≠ NULL)⟩, trivial⟩
    (by
      simp only [regions, sample_items, item.regions, item.block, item.request, item.next,
        World.init, paging, List.cons_append, List.nil_append, List.append_nil,
        List.pairwise_cons, List.mem_cons, List.mem_singleton, List.mem_nil_iff, apart]
      simp [c_int, c_short, c_size_t])

/-- Counterexample to C1 as stated: an array of 16777217 `char`s packed with
`=zc`.  `vpack` writes the count field and the bytes and returns 16777225
without error; `vunpack` with the same format on that stream, with an
allocator that would grant the request, returns `-1`: the request is above
the ceiling of `rec_alloc`. -/
theorem round_trip_counterexample :
    ∃ rp ru, vpack (World.init pointer_mem [] granting) ['=', 'z', 'c']
        [varg.int 16777217, varg.ptr 4096] = Except.ok rp ∧
      rp.value = 16777225 ∧ rp.st.err = false ∧
      vunpack (World.init (fun _ => 0) rp.world.output granting) ['=', 'z', 'c']
        [varg.int 16777217, varg.ptr 12288] = Except.ok ru ∧
      ru.value = -1 := by
  have hptr : leVal (load pointer_mem 4096 8) = 8192 := by decide
  obtain ⟨sz, hb⟩ := arg_val_count 'z' c_size_t (by decide) 16777217 (by decide) arg.zero
    [varg.ptr 4096]
  have hsw := vpack_switch_array '=' 'z' 'c' c_char (Or.inl rfl) (by decide) []
    { ret := 0, err := false } (World.init pointer_mem [] granting)
    [varg.int 16777217, varg.ptr 4096] [] _ 16777217 4096
    (by rw [if_pos rfl]; exact hb) rfl (by decide)
    (by show leVal (load pointer_mem 4096 8) ≠ NULL; rw [hptr]; decide) (by decide) rfl rfl
  have hp := loop_array_ok vpack_switch '=' 'z' 'c' _ _ _ _ _ _ (Or.inl rfl) hsw rfl
  obtain ⟨w2, k1, -, -⟩ := (vunpack_switch_over 16777217 (by decide)
    (World.init (fun _ => 0)
      ([] ++ leBytes 8 16777217 ++
        load pointer_mem (leVal (load pointer_mem 4096 8)) (16777217 * c_char.size))
      granting) rfl
    (load pointer_mem (leVal (load pointer_mem 4096 8)) (16777217 * c_char.size))
    (by simp only [World.init, List.nil_append])
    (fun k n sz h => granting_refuses k n sz h) 12288 (by decide) [] []
    { ret := 0, err := false } rfl).2.1 'z' c_size_t 'c' c_char 16777217 (by decide)
    (by decide) (by decide)
  have hu := loop_break vunpack_switch '=' ['z', 'c'] _ _ _ _ w2 [] (by decide) k1 rfl
  exact ⟨_, _, hp, rfl, rfl, hu, rfl⟩

end Structpack
